import Mathlib

/-!
Block index store of the finality gadget (`db/bbolt.go`)

A shallow embedding of `BBoltHandler`: the three bbolt buckets (`blocks`,
`block_heights`, `indexer`), the key codec `itob` / `btoi`, the batch insert and
the point queries, followed by the properties proved about them.

Modelling conventions.

* `uint64` is `Fin (2^64)`; a Go `string` and a `[]byte` are both `List (Fin 256)`
  (the conversion `[]byte(s)` is the identity on the bytes).
* A bbolt bucket is a finite map from keys to values; the code only uses the
  point operations `Get` and `Put`, so a bucket is modelled by its lookup function.
  `tx.Bucket(name)` yields `nil` when the bucket was never created: a bucket
  slot is an `Option`.
* `db.Update` commits when the closure returns `nil` and rolls back otherwise;
  `db.View` runs the closure on the current state.
* `encoding/json` is a parameter (`JSONCodec`); what is assumed of it is stated as
  a hypothesis (`JSONCodec.KeepsHeight`, `JSONCodec.RoundTrips`) where a proof needs it.
* Batch elements are non-nil pointers, and failures of the engine itself (a commit
  that cannot be written, a closed database) are outside the model.
* A call that does not return (a method call on a `nil` bucket panics, `logger.Fatal`
  inside `btoi` exits the process) has outcome `Outcome.crashed`.
* Logging has no effect on the store and is left out.
-/

namespace FinalityGadget

/-! ## Data model -/

/-- Go `uint64`. -/
abbrev U64 := Fin (2 ^ 64)

/-- One byte. -/
abbrev Byte := Fin 256

/-- Go `[]byte`, and a Go `string` seen as its bytes. -/
abbrev Bytes := List Byte

/-- Go `math.MaxUint64`. -/
def MaxUint64 : U64 := Fin.last _

/-- Modelled from the spec: `types.Block` (package `types` of this repository, of which
only a commented copy is in `roochclient/types/generated.go`): the block hash, the
block height and the remaining chain metadata, a timestamp. -/
structure Block where
  BlockHash : Bytes
  BlockHeight : U64
  BlockTimestamp : U64
deriving DecidableEq

/-- Error values returned by the store. `ErrBlockNotFound` and
`ErrActivatedTimestampNotFound` are the sentinels of package `types`; `ErrKeyRequired`,
`ErrKeyTooLarge` and `ErrValueTooLarge` are the errors of bbolt `Bucket.Put`;
`json code` is an error of `encoding/json`. -/
inductive Error where
  | ErrBlockNotFound
  | ErrActivatedTimestampNotFound
  | ErrKeyRequired
  | ErrKeyTooLarge
  | ErrValueTooLarge
  | json (code : Nat)
deriving DecidableEq

/-- Outcome of a call: it returns its result tuple, or it does not return at all
(nil-bucket panic, `logger.Fatal`). -/
inductive Outcome (α : Type) where
  | returned (v : α)
  | crashed
deriving DecidableEq

/-- The two functions of `encoding/json` the store calls, on `types.Block`. -/
structure JSONCodec where
  Marshal : Block → Except Nat Bytes
  Unmarshal : Bytes → Except Nat Block

/-- Every encoding of a block decodes, to a block of the same height. `encoding/json`
has this property on every `types.Block`: a `uint64` is written in decimal and read
back exactly. -/
def JSONCodec.KeepsHeight (c : JSONCodec) : Prop :=
  ∀ (b : Block) (bs : Bytes), c.Marshal b = .ok bs →
    ∃ b1, c.Unmarshal bs = .ok b1 ∧ b1.BlockHeight = b.BlockHeight

/-- The encoding of `b` decodes to `b`. `encoding/json` has this property on the blocks
whose hash is valid UTF-8; `Marshal` replaces the other bytes of a string. -/
def JSONCodec.RoundTrips (c : JSONCodec) (b : Block) : Prop :=
  ∀ bs : Bytes, c.Marshal b = .ok bs → c.Unmarshal bs = .ok b

/-! ## Key codec -/

/-- `itob`: `binary.Write(buf, binary.BigEndian, v)` on a `uint64`, which cannot fail. -/
def itob (v : U64) : Bytes :=
  [Fin.ofNat (v.val / 2 ^ 56), Fin.ofNat (v.val / 2 ^ 48), Fin.ofNat (v.val / 2 ^ 40),
   Fin.ofNat (v.val / 2 ^ 32), Fin.ofNat (v.val / 2 ^ 24), Fin.ofNat (v.val / 2 ^ 16),
   Fin.ofNat (v.val / 2 ^ 8), Fin.ofNat v.val]

/-- `btoi`: `binary.Read(buf, binary.BigEndian, &v)` reads the first eight bytes; on a
shorter slice the read fails and `logger.Fatal` ends the process (`none`). -/
def btoi : Bytes → Option U64
  | b0 :: b1 :: b2 :: b3 :: b4 :: b5 :: b6 :: b7 :: _ =>
    some (Fin.ofNat (b0.val * 2 ^ 56 + b1.val * 2 ^ 48 + b2.val * 2 ^ 40 + b3.val * 2 ^ 32
      + b4.val * 2 ^ 24 + b5.val * 2 ^ 16 + b6.val * 2 ^ 8 + b7.val))
  | _ => none

/-! ## The bbolt engine -/

/-- A bucket, by its lookup function: `none` is an absent key. -/
abbrev Bucket := Bytes → Option Bytes

/-- The bucket without keys. -/
def Bucket.empty : Bucket := fun _ => none

/-- bbolt `MaxKeySize`. -/
def MaxKeySize : Nat := 32768

/-- bbolt `MaxValueSize`. -/
def MaxValueSize : Nat := 2 ^ 31 - 2

/-- bbolt `Bucket.Get`: the value at `key`, `nil` when absent. -/
def Bucket.Get (b : Bucket) (key : Bytes) : Option Bytes := b key

/-- bbolt `Bucket.Put` in a writable transaction: the key and value size checks, then
an upsert of `key`. -/
def Bucket.Put (b : Bucket) (key value : Bytes) : Except Error Bucket :=
  if key.length = 0 then .error .ErrKeyRequired
  else if key.length > MaxKeySize then .error .ErrKeyTooLarge
  else if value.length > MaxValueSize then .error .ErrValueTooLarge
  else .ok (fun k => if k = key then some value else b k)

/-- The database file: one slot per bucket name used by the handler. -/
structure DB where
  blocks : Option Bucket
  blockHeights : Option Bucket
  indexer : Option Bucket

/-- A database file without buckets, as `bolt.Open` creates it. -/
def DB.fresh : DB := ⟨none, none, none⟩

/-- Key `"earliest"` of the indexer bucket. -/
def earliestBlockKey : Bytes := [101, 97, 114, 108, 105, 101, 115, 116]

/-- Key `"latest"` of the indexer bucket. -/
def latestBlockKey : Bytes := [108, 97, 116, 101, 115, 116]

/-- Key `"activated_timestamp"` of the indexer bucket. -/
def activatedTimestampKey : Bytes :=
  [97, 99, 116, 105, 118, 97, 116, 101, 100, 95, 116, 105, 109, 101, 115, 116, 97, 109, 112]

/-- bbolt `db.Update`: run the closure on a writable transaction; commit when it returns
`nil`, roll back when it returns an error or panics. -/
def Update (db : DB) (fn : DB → Outcome (DB × Option Error)) : DB × Outcome (Option Error) :=
  match fn db with
  | .crashed => (db, .crashed)
  | .returned (tx, none) => (tx, .returned none)
  | .returned (_, some e) => (db, .returned (some e))

/-- `tx.CreateBucketIfNotExists` on one slot. -/
def createBucketIfNotExists (slot : Option Bucket) : Option Bucket :=
  match slot with
  | none => some Bucket.empty
  | some b => some b

/-! ## Handler methods -/

/-- `CreateInitialSchema`: create the three buckets that do not exist yet. The bucket
names are non-empty constants, so `CreateBucketIfNotExists` does not fail. -/
def CreateInitialSchema (db : DB) : DB × Outcome (Option Error) :=
  Update db fun tx =>
    .returned (⟨createBucketIfNotExists tx.blocks, createBucketIfNotExists tx.blockHeights,
      createBucketIfNotExists tx.indexer⟩, none)

/-- State of the insert loop: the transaction and the two running heights. -/
structure LoopState where
  tx : DB
  minHeight : U64
  maxHeight : U64

/-- One iteration of the loop of `InsertBlocks`: update the running minimum and maximum,
encode the block, put it under its height, put its height under its hash. -/
def insertBlock (c : JSONCodec) (s : LoopState) (block : Block) :
    Outcome (LoopState × Option Error) :=
  let minHeight := if block.BlockHeight < s.minHeight then block.BlockHeight else s.minHeight
  let maxHeight := if block.BlockHeight > s.maxHeight then block.BlockHeight else s.maxHeight
  let s1 : LoopState := ⟨s.tx, minHeight, maxHeight⟩
  match c.Marshal block with
  | .error e => .returned (s1, some (.json e))
  | .ok blockBytes =>
    match s1.tx.blocks with
    | none => .crashed
    | some blocksBucket =>
      match blocksBucket.Put (itob block.BlockHeight) blockBytes with
      | .error e => .returned (s1, some e)
      | .ok blocksBucket1 =>
        let s2 : LoopState := ⟨{ s1.tx with blocks := some blocksBucket1 }, minHeight, maxHeight⟩
        match s2.tx.blockHeights with
        | none => .crashed
        | some heightsBucket =>
          match heightsBucket.Put block.BlockHash (itob block.BlockHeight) with
          | .error e => .returned (s2, some e)
          | .ok heightsBucket1 =>
            .returned (⟨{ s2.tx with blockHeights := some heightsBucket1 }, minHeight, maxHeight⟩,
              none)

/-- The loop `for _, block := range blocks`, leaving at the first error. -/
def insertLoop (c : JSONCodec) : List Block → LoopState → Outcome (LoopState × Option Error)
  | [], s => .returned (s, none)
  | block :: rest, s =>
    match insertBlock c s block with
    | .crashed => .crashed
    | .returned (s1, some e) => .returned (s1, some e)
    | .returned (s1, none) => insertLoop c rest s1

/-- Lines 114-122: set `earliest` to the batch minimum when the key is absent. -/
def updateEarliest (tx : DB) (minHeight : U64) : Outcome (DB × Option Error) :=
  match tx.indexer with
  | none => .crashed
  | some indexBucket =>
    match indexBucket.Get earliestBlockKey with
    | none =>
      match indexBucket.Put earliestBlockKey (itob minHeight) with
      | .error e => .returned (tx, some e)
      | .ok indexBucket1 => .returned ({ tx with indexer := some indexBucket1 }, none)
    | some _ => .returned (tx, none)

/-- Lines 124-136: read `latest` (zero when absent) and overwrite it when the batch
maximum is strictly greater. -/
def updateLatest (tx : DB) (maxHeight : U64) : Outcome (DB × Option Error) :=
  match tx.indexer with
  | none => .crashed
  | some indexBucket =>
    let currentLatest : Option U64 :=
      match indexBucket.Get latestBlockKey with
      | none => some 0
      | some latestBytes => btoi latestBytes
    match currentLatest with
    | none => .crashed
    | some currentLatest =>
      if maxHeight > currentLatest then
        match indexBucket.Put latestBlockKey (itob maxHeight) with
        | .error e => .returned (tx, some e)
        | .ok indexBucket1 => .returned ({ tx with indexer := some indexBucket1 }, none)
      else .returned (tx, none)

/-- The closure that `InsertBlocks` passes to `db.Update`. -/
def insertBlocksTx (c : JSONCodec) (blocks : List Block) (tx : DB) :
    Outcome (DB × Option Error) :=
  match insertLoop c blocks ⟨tx, MaxUint64, 0⟩ with
  | .crashed => .crashed
  | .returned (s, some e) => .returned (s.tx, some e)
  | .returned (s, none) =>
    match updateEarliest s.tx s.minHeight with
    | .crashed => .crashed
    | .returned (tx1, some e) => .returned (tx1, some e)
    | .returned (tx1, none) => updateLatest tx1 s.maxHeight

/-- `InsertBlocks`: an empty batch returns `nil` at once; otherwise one `Update`
transaction runs the loop and the two bound updates. -/
def InsertBlocks (c : JSONCodec) (db : DB) (blocks : List Block) : DB × Outcome (Option Error) :=
  if blocks.length = 0 then (db, .returned none)
  else Update db (insertBlocksTx c blocks)

/-- `GetBlockByHeight`: the payload under `itob(height)`, decoded. -/
def GetBlockByHeight (c : JSONCodec) (db : DB) (height : U64) :
    Outcome (Option Block × Option Error) :=
  match db.blocks with
  | none => .crashed
  | some b =>
    match b.Get (itob height) with
    | none => .returned (none, some .ErrBlockNotFound)
    | some v =>
      match c.Unmarshal v with
      | .error e => .returned (none, some (.json e))
      | .ok block => .returned (some block, none)

/-- `GetBlockByHash`: the height under the hash, then `GetBlockByHeight`. -/
def GetBlockByHash (c : JSONCodec) (db : DB) (hash : Bytes) :
    Outcome (Option Block × Option Error) :=
  match db.blockHeights with
  | none => .crashed
  | some b =>
    match b.Get hash with
    | none => .returned (none, some .ErrBlockNotFound)
    | some v =>
      match btoi v with
      | none => .crashed
      | some blockHeight => GetBlockByHeight c db blockHeight

/-- `QueryIsBlockFinalizedByHeight`: `ErrBlockNotFound` becomes `(false, nil)`, another
error is passed on with `false`. -/
def QueryIsBlockFinalizedByHeight (c : JSONCodec) (db : DB) (height : U64) :
    Outcome (Bool × Option Error) :=
  match GetBlockByHeight c db height with
  | .crashed => .crashed
  | .returned (_, some err) =>
    if err = .ErrBlockNotFound then .returned (false, none)
    else .returned (false, some err)
  | .returned (_, none) => .returned (true, none)

/-- `QueryIsBlockFinalizedByHash`: an absent or empty index value is `(false, nil)`;
otherwise the answer of `QueryIsBlockFinalizedByHeight` at the indexed height. -/
def QueryIsBlockFinalizedByHash (c : JSONCodec) (db : DB) (hash : Bytes) :
    Outcome (Bool × Option Error) :=
  match db.blockHeights with
  | none => .crashed
  | some b =>
    match b.Get hash with
    | none => .returned (false, none)
    | some res =>
      if res.length = 0 then .returned (false, none)
      else
        match btoi res with
        | none => .crashed
        | some blockHeight => QueryIsBlockFinalizedByHeight c db blockHeight

/-- `QueryEarliestFinalizedBlock`: the block at the `earliest` bound; `ErrBlockNotFound`
when the bound is absent. -/
def QueryEarliestFinalizedBlock (c : JSONCodec) (db : DB) :
    Outcome (Option Block × Option Error) :=
  match db.indexer with
  | none => .crashed
  | some b =>
    match b.Get earliestBlockKey with
    | none => .returned (none, some .ErrBlockNotFound)
    | some v =>
      match btoi v with
      | none => .crashed
      | some earliestBlockHeight => GetBlockByHeight c db earliestBlockHeight

/-- `QueryLatestFinalizedBlock`: the block at the `latest` bound; `(nil, nil)` when the
bound is absent. -/
def QueryLatestFinalizedBlock (c : JSONCodec) (db : DB) :
    Outcome (Option Block × Option Error) :=
  match db.indexer with
  | none => .crashed
  | some b =>
    match b.Get latestBlockKey with
    | none => .returned (none, none)
    | some v =>
      match btoi v with
      | none => .crashed
      | some latestBlockHeight => GetBlockByHeight c db latestBlockHeight

/-- `GetActivatedTimestamp`: the stored timestamp; `MaxUint64` with
`ErrActivatedTimestampNotFound` when the key is absent. -/
def GetActivatedTimestamp (db : DB) : Outcome (U64 × Option Error) :=
  match db.indexer with
  | none => .crashed
  | some b =>
    match b.Get activatedTimestampKey with
    | none => .returned (MaxUint64, some .ErrActivatedTimestampNotFound)
    | some v =>
      match btoi v with
      | none => .crashed
      | some timestamp => .returned (timestamp, none)

/-- `SaveActivatedTimestamp`: one `Update` that puts the timestamp in the indexer bucket. -/
def SaveActivatedTimestamp (db : DB) (timestamp : U64) : DB × Outcome (Option Error) :=
  Update db fun tx =>
    match tx.indexer with
    | none => .crashed
    | some b =>
      match b.Put activatedTimestampKey (itob timestamp) with
      | .error e => .returned (tx, some e)
      | .ok b1 => .returned ({ tx with indexer := some b1 }, none)

/-! ## Runs of the store and observations -/

/-- The initialised empty store: `CreateInitialSchema` on a new database file. -/
def initDB : DB := (CreateInitialSchema DB.fresh).1

/-- The schema is initialised: the three buckets exist. -/
def DB.Initialised (db : DB) : Prop :=
  db.blocks.isSome = true ∧ db.blockHeights.isSome = true ∧ db.indexer.isSome = true

/-- A call of one of the state-changing public operations. -/
inductive Op where
  | createInitialSchema
  | insertBlocks (blocks : List Block)
  | saveActivatedTimestamp (timestamp : U64)

/-- Perform one call. -/
def Op.apply (c : JSONCodec) (db : DB) : Op → DB × Outcome (Option Error)
  | .createInitialSchema => CreateInitialSchema db
  | .insertBlocks blocks => InsertBlocks c db blocks
  | .saveActivatedTimestamp timestamp => SaveActivatedTimestamp db timestamp

/-- The blocks a call hands to the store. -/
def Op.blocks : Op → List Block
  | .insertBlocks blocks => blocks
  | _ => []

/-- Perform a sequence of calls, each of which must return `nil`; the final state. -/
def execAll (c : JSONCodec) : DB → List Op → Option DB
  | db, [] => some db
  | db, op :: rest =>
    match op.apply c db with
    | (db1, .returned none) => execAll c db1 rest
    | _ => none

/-- Perform a sequence of calls whatever their outcome; the final state. -/
def runOps (c : JSONCodec) (db : DB) (ops : List Op) : DB :=
  ops.foldl (fun d op => (op.apply c d).1) db

/-- States reachable from the initialised empty store by the public operations. -/
def Reachable (c : JSONCodec) (db : DB) : Prop :=
  ∃ ops : List Op, runOps c initDB ops = db

/-- The last block of a sequence that satisfies `p`. -/
def lastWith (p : Block → Bool) (blocks : List Block) : Option Block :=
  blocks.reverse.find? p

/-- Primary storage at a height: the payload stored under `itob height`. -/
def DB.payloadAt (db : DB) (height : U64) : Option Bytes :=
  db.blocks.bind fun b => b.Get (itob height)

/-- The index entry of a hash. -/
def DB.indexAt (db : DB) (hash : Bytes) : Option Bytes :=
  db.blockHeights.bind fun b => b.Get hash

/-- The value stored under a key of the indexer bucket. -/
def DB.indexerAt (db : DB) (key : Bytes) : Option Bytes :=
  db.indexer.bind fun b => b.Get key

/-- The `earliest` bound, when it is set. -/
def DB.earliest (db : DB) : Option U64 :=
  (db.indexerAt earliestBlockKey).bind btoi

/-- The `latest` bound, when it is set. -/
def DB.latest (db : DB) : Option U64 :=
  (db.indexerAt latestBlockKey).bind btoi

/-- A concrete encoding that round-trips, to run the store on concrete inputs: the height and
the timestamp on eight bytes each, then the hash. -/
def fixedWidthCodec : JSONCodec where
  Marshal b := .ok (itob b.BlockHeight ++ itob b.BlockTimestamp ++ b.BlockHash)
  Unmarshal bs :=
    match btoi bs, btoi (bs.drop 8) with
    | some h, some t => .ok ⟨bs.drop 16, h, t⟩
    | _, _ => .error 0

/-- Build a block from a hash, a height and a timestamp. -/
def mkBlock (hash : Bytes) (height timestamp : U64) : Block := ⟨hash, height, timestamp⟩

/-! ## The store as a function of its history -/

/-- The non-empty batches handed to `InsertBlocks` by a sequence of calls, oldest first. -/
def batchesOf (ops : List Op) : List (List Block) :=
  (ops.map Op.blocks).filter fun B => !B.isEmpty

/-- The three buckets hold what the successful non-empty batches `batches` (oldest
first) have written: at each key the entry of the last block using the key;
`earliest` is the minimum height of the first batch; `latest` is the maximum height
of all blocks when that is positive and absent otherwise. -/
structure BucketsOf (c : JSONCodec) (bb hb ib : Bucket) (batches : List (List Block)) :
    Prop where
  blocks : ∀ k, bb k =
    match lastWith (fun b => decide (itob b.BlockHeight = k)) batches.flatten with
    | some b => (c.Marshal b).toOption
    | none => none
  heights : ∀ k, hb k =
    match lastWith (fun b => decide (b.BlockHash = k)) batches.flatten with
    | some b => some (itob b.BlockHeight)
    | none => none
  accepted : ∀ b ∈ batches.flatten, b.BlockHash.length ≠ 0 ∧ ∃ bs, c.Marshal b = .ok bs
  nonempty : ∀ B ∈ batches, B ≠ []
  earliest :
    match batches.head? with
    | none => ib earliestBlockKey = none
    | some B0 => ∃ b ∈ B0, ib earliestBlockKey = some (itob b.BlockHeight) ∧
        ∀ x ∈ B0, b.BlockHeight ≤ x.BlockHeight
  latest :
    (ib latestBlockKey = none ∧ ∀ x ∈ batches.flatten, x.BlockHeight = 0) ∨
    (∃ b ∈ batches.flatten, ib latestBlockKey = some (itob b.BlockHeight) ∧
      0 < b.BlockHeight ∧ ∀ x ∈ batches.flatten, x.BlockHeight ≤ b.BlockHeight)

/-- The store is initialised and its buckets hold what `batches` have written. -/
def StoreOf (c : JSONCodec) (db : DB) (batches : List (List Block)) : Prop :=
  ∃ bb hb ib : Bucket, db = ⟨some bb, some hb, some ib⟩ ∧ BucketsOf c bb hb ib batches

/-! ## Vocabulary of the statements -/

/-- A block that the loop of `InsertBlocks` accepts: it encodes, and its payload and its
hash pass the size checks of `Bucket.Put`. -/
def Acceptable (c : JSONCodec) (b : Block) : Prop :=
  ∃ bs, c.Marshal b = .ok bs ∧ bs.length ≤ MaxValueSize ∧
    b.BlockHash.length ≠ 0 ∧ b.BlockHash.length ≤ MaxKeySize

/-- The `latest` key is absent or holds at least eight bytes, so that `btoi` reads it. -/
def DB.LatestReadable (db : DB) : Prop :=
  db.indexerAt latestBlockKey = none ∨ ∃ l, db.latest = some l

/-- How a finality query `q` answers from a lookup `g`: `(true, nil)` exactly when the
lookup succeeds, `(false, nil)` exactly when it fails with `ErrBlockNotFound`,
`(false, e)` when it fails with another error `e`, and never `true` with an error. -/
def SameMapping (q : Outcome (Bool × Option Error))
    (g : Outcome (Option Block × Option Error)) : Prop :=
  (q = .returned (true, none) ↔ ∃ b, g = .returned (some b, none)) ∧
  (q = .returned (false, none) ↔ g = .returned (none, some .ErrBlockNotFound)) ∧
  (∀ e, e ≠ .ErrBlockNotFound → g = .returned (none, some e) → q = .returned (false, some e)) ∧
  (∀ e, q ≠ .returned (true, some e))

/-! ## Concrete inputs -/

/-- Two blocks at height 5 with different hashes. -/
def dupHeightBatch : List Block := [mkBlock [0x61] 5 0, mkBlock [0x62] 5 1]

/-- Two blocks with the hash `"a"` at heights 5 and 6. -/
def dupHashBatch : List Block := [mkBlock [0x61] 5 0, mkBlock [0x61] 6 0]

/-- One block at height 0. -/
def genesisBatch : List Block := [mkBlock [0x61] 0 0]

/-- Blocks at heights 5, 7 and 6. -/
def batch567 : List Block := [mkBlock [0x61] 5 0, mkBlock [0x62] 7 0, mkBlock [0x63] 6 0]

/-- One block at height 10. -/
def batch10 : List Block := [mkBlock [0x64] 10 0]

/-- One block at height 1. -/
def batch1 : List Block := [mkBlock [0x65] 1 0]

/-- A block with hash `"a"` at height 5, then a block with an empty hash, which
`Bucket.Put` refuses as an index key. -/
def failingBatch : List Block := [mkBlock [0x61] 5 0, mkBlock [] 6 0]

/-- One block with hash `"a"` at height 5. -/
def batch5a : List Block := [mkBlock [0x61] 5 0]

/-- One block with hash `"b"` at height 5. -/
def batch5b : List Block := [mkBlock [0x62] 5 1]

/-- A store whose index holds the hash `"a"` with an empty value. -/
def emptyIndexDB : DB :=
  ⟨some Bucket.empty, some (fun k => if k = [0x61] then some [] else none), some Bucket.empty⟩

/-- A store whose index maps the hash `"a"` to height 5, and whose payload at height 5
is the single byte 0, which `fixedWidthCodec` does not decode. -/
def undecodableDB : DB :=
  ⟨some (fun k => if k = itob 5 then some [0] else none),
   some (fun k => if k = [0x61] then some (itob 5) else none), some Bucket.empty⟩

/-- A block `"b"` at height 5 and a block `"a"` at height 6. -/
def overwriteBatch : List Block := [mkBlock [0x62] 5 1, mkBlock [0x61] 6 2]

/-! ## Read operations with one snapshot per `View`

`GetBlockByHash`, `QueryIsBlockFinalizedByHash`, `QueryEarliestFinalizedBlock` and
`QueryLatestFinalizedBlock` run a `View` of their own and then call `GetBlockByHeight`
(or `QueryIsBlockFinalizedByHeight`), which opens a second `View`. Below, the first
`View` reads the snapshot `snap1` and the second one the snapshot `snap2`, the state
after the writes committed in between. With `snap1 = snap2` these are the definitions
above. -/

/-- `GetBlockByHash`: the index lookup on `snap1`, then `GetBlockByHeight` on `snap2`. -/
def GetBlockByHashOn (c : JSONCodec) (snap1 snap2 : DB) (hash : Bytes) :
    Outcome (Option Block × Option Error) :=
  match snap1.blockHeights with
  | none => .crashed
  | some b =>
    match b.Get hash with
    | none => .returned (none, some .ErrBlockNotFound)
    | some v =>
      match btoi v with
      | none => .crashed
      | some blockHeight => GetBlockByHeight c snap2 blockHeight

/-- `QueryIsBlockFinalizedByHash`: the index lookup on `snap1`, then
`QueryIsBlockFinalizedByHeight` on `snap2`. -/
def QueryIsBlockFinalizedByHashOn (c : JSONCodec) (snap1 snap2 : DB) (hash : Bytes) :
    Outcome (Bool × Option Error) :=
  match snap1.blockHeights with
  | none => .crashed
  | some b =>
    match b.Get hash with
    | none => .returned (false, none)
    | some res =>
      if res.length = 0 then .returned (false, none)
      else
        match btoi res with
        | none => .crashed
        | some blockHeight => QueryIsBlockFinalizedByHeight c snap2 blockHeight

/-- `QueryEarliestFinalizedBlock`: the `earliest` bound on `snap1`, then
`GetBlockByHeight` on `snap2`. -/
def QueryEarliestFinalizedBlockOn (c : JSONCodec) (snap1 snap2 : DB) :
    Outcome (Option Block × Option Error) :=
  match snap1.indexer with
  | none => .crashed
  | some b =>
    match b.Get earliestBlockKey with
    | none => .returned (none, some .ErrBlockNotFound)
    | some v =>
      match btoi v with
      | none => .crashed
      | some earliestBlockHeight => GetBlockByHeight c snap2 earliestBlockHeight

/-- `QueryLatestFinalizedBlock`: the `latest` bound on `snap1`, then `GetBlockByHeight`
on `snap2`. -/
def QueryLatestFinalizedBlockOn (c : JSONCodec) (snap1 snap2 : DB) :
    Outcome (Option Block × Option Error) :=
  match snap1.indexer with
  | none => .crashed
  | some b =>
    match b.Get latestBlockKey with
    | none => .returned (none, none)
    | some v =>
      match btoi v with
      | none => .crashed
      | some latestBlockHeight => GetBlockByHeight c snap2 latestBlockHeight

/-- What `json.Marshal` does to the bytes `0xff` of a string: such a byte is never part
of valid UTF-8, and is written as the replacement character U+FFFD, which decodes to the
three bytes `EF BF BD`. -/
def replaceInvalid : Bytes → Bytes
  | [] => []
  | x :: rest =>
    if x = 0xff then 0xef :: 0xbf :: 0xbd :: replaceInvalid rest else x :: replaceInvalid rest

/-- A concrete encoding that keeps heights and does not round-trip on every block: the
height and the timestamp on eight bytes each, then the hash with its bytes `0xff`
replaced as `json.Marshal` replaces them. -/
def replacingCodec : JSONCodec where
  Marshal b := .ok (itob b.BlockHeight ++ itob b.BlockTimestamp ++ replaceInvalid b.BlockHash)
  Unmarshal := fixedWidthCodec.Unmarshal

/-- One block at height 5 whose hash is the single byte `0xff`. -/
def invalidHashBatch : List Block := [mkBlock [0xff] 5 0]

/-! ## The methods as sequences of engine transactions

Each `bb.db.View(...)` and `bb.db.Update(...)` of a handler method is a node of a
`Method`; a method that calls another method continues with the nodes of that method. -/

/-- A handler method as the engine sees it. `ret r`: the method returns `r` (or does
not return). `view body`: the method opens a `View`, and `body` is the rest of the
method, given the snapshot the closure reads. `update fn next`: the method opens an
`Update` that runs the closure `fn`, and `next` is the rest of the method, given what
`Update` returned. -/
inductive Method (α : Type) where
  | ret (r : Outcome α)
  | view (body : DB → Method α)
  | update (fn : DB → Outcome (DB × Option Error)) (next : Outcome (Option Error) → Method α)

/-- Run a method from transaction number `n` on the database `db`. Before the method's
transaction number `i` begins, other writers commit `commits i`. The result is the final
database, what the method returns, and the number of the next transaction: started from
0, the number of transactions the method has executed. -/
def Method.exec {α : Type} (commits : Nat → DB → DB) : Method α → Nat → DB → DB × Outcome α × Nat
  | .ret r, n, db => (db, r, n)
  | .view body, n, db => (body (commits n db)).exec commits (n + 1) (commits n db)
  | .update fn next, n, db =>
    (next (Update (commits n db) fn).2).exec commits (n + 1) (Update (commits n db) fn).1

/-- `CreateInitialSchema`: one `Update`. -/
def CreateInitialSchemaM : Method (Option Error) :=
  .update (fun tx =>
    .returned (⟨createBucketIfNotExists tx.blocks, createBucketIfNotExists tx.blockHeights,
      createBucketIfNotExists tx.indexer⟩, none)) .ret

/-- `InsertBlocks`: the length test, then one `Update`. -/
def InsertBlocksM (c : JSONCodec) (blocks : List Block) : Method (Option Error) :=
  if blocks.length = 0 then .ret (.returned none)
  else .update (insertBlocksTx c blocks) .ret

/-- `GetBlockByHeight`: one `View`. -/
def GetBlockByHeightM (c : JSONCodec) (height : U64) : Method (Option Block × Option Error) :=
  .view fun tx => .ret (GetBlockByHeight c tx height)

/-- `GetBlockByHash`: one `View` for the index, then the method `GetBlockByHeight`. -/
def GetBlockByHashM (c : JSONCodec) (hash : Bytes) : Method (Option Block × Option Error) :=
  .view fun tx =>
    match tx.blockHeights with
    | none => .ret .crashed
    | some b =>
      match b.Get hash with
      | none => .ret (.returned (none, some .ErrBlockNotFound))
      | some v =>
        match btoi v with
        | none => .ret .crashed
        | some blockHeight => GetBlockByHeightM c blockHeight

/-- `QueryIsBlockFinalizedByHeight`: the method `GetBlockByHeight`, whose result it maps
to a boolean. -/
def QueryIsBlockFinalizedByHeightM (c : JSONCodec) (height : U64) :
    Method (Bool × Option Error) :=
  .view fun tx => .ret (QueryIsBlockFinalizedByHeight c tx height)

/-- `QueryIsBlockFinalizedByHash`: one `View` for the index, then the method
`QueryIsBlockFinalizedByHeight`. -/
def QueryIsBlockFinalizedByHashM (c : JSONCodec) (hash : Bytes) :
    Method (Bool × Option Error) :=
  .view fun tx =>
    match tx.blockHeights with
    | none => .ret .crashed
    | some b =>
      match b.Get hash with
      | none => .ret (.returned (false, none))
      | some res =>
        if res.length = 0 then .ret (.returned (false, none))
        else
          match btoi res with
          | none => .ret .crashed
          | some blockHeight => QueryIsBlockFinalizedByHeightM c blockHeight

/-- `QueryEarliestFinalizedBlock`: one `View` for the bound, then the method
`GetBlockByHeight`. -/
def QueryEarliestFinalizedBlockM (c : JSONCodec) : Method (Option Block × Option Error) :=
  .view fun tx =>
    match tx.indexer with
    | none => .ret .crashed
    | some b =>
      match b.Get earliestBlockKey with
      | none => .ret (.returned (none, some .ErrBlockNotFound))
      | some v =>
        match btoi v with
        | none => .ret .crashed
        | some earliestBlockHeight => GetBlockByHeightM c earliestBlockHeight

/-- `QueryLatestFinalizedBlock`: one `View` for the bound, then the method
`GetBlockByHeight`. -/
def QueryLatestFinalizedBlockM (c : JSONCodec) : Method (Option Block × Option Error) :=
  .view fun tx =>
    match tx.indexer with
    | none => .ret .crashed
    | some b =>
      match b.Get latestBlockKey with
      | none => .ret (.returned (none, none))
      | some v =>
        match btoi v with
        | none => .ret .crashed
        | some latestBlockHeight => GetBlockByHeightM c latestBlockHeight

/-- `GetActivatedTimestamp`: one `View`. -/
def GetActivatedTimestampM : Method (U64 × Option Error) :=
  .view fun tx => .ret (GetActivatedTimestamp tx)

/-- `SaveActivatedTimestamp`: one `Update`. -/
def SaveActivatedTimestampM (timestamp : U64) : Method (Option Error) :=
  .update (fun tx =>
    match tx.indexer with
    | none => .crashed
    | some b =>
      match b.Put activatedTimestampKey (itob timestamp) with
      | .error e => .returned (tx, some e)
      | .ok b1 => .returned ({ tx with indexer := some b1 }, none)) .ret

/-- No writer commits between the transactions of a method. -/
def noCommits : Nat → DB → DB := fun _ db => db

/-- A writer commits `overwriteBatch` before the second transaction of a method. -/
def commitOverwrite : Nat → DB → DB := fun i db =>
  if i = 1 then (InsertBlocks fixedWidthCodec db overwriteBatch).1 else db

/-! ## The key codec and the engine -/

theorem btoi_itob_append (v : U64) (r : Bytes) : btoi (itob v ++ r) = some v := by
  obtain ⟨v, hv⟩ := v
  simp only [itob, btoi, List.cons_append, Option.some.injEq, Fin.ofNat]
  apply Fin.ext
  simp only [Fin.val_mk]
  omega

theorem btoi_itob (v : U64) : btoi (itob v) = some v := by
  have h := btoi_itob_append v []
  simpa using h

theorem itob_injective {a b : U64} (h : itob a = itob b) : a = b := by
  have h1 := btoi_itob a
  rw [h, btoi_itob] at h1
  exact (Option.some.inj h1).symm

theorem itob_length (v : U64) : (itob v).length = 8 := rfl

theorem Put_ok {b b1 : Bucket} {key value : Bytes} (h : b.Put key value = .ok b1) :
    b1 = (fun k => if k = key then some value else b k) ∧ key.length ≠ 0 := by
  unfold Bucket.Put at h
  split at h
  · cases h
  · split at h
    · cases h
    · split at h
      · cases h
      · rename_i h0 _ _
        exact ⟨(Except.ok.inj h).symm, h0⟩

theorem lastWith_nil (p : Block → Bool) : lastWith p [] = none := rfl

theorem lastWith_cons (p : Block → Bool) (b : Block) (rest : List Block) :
    lastWith p (b :: rest) = (lastWith p rest).or (if p b then some b else none) := by
  simp only [lastWith, List.reverse_cons, List.find?_append]
  congr 1
  by_cases hp : p b <;> simp [List.find?, hp]

theorem lastWith_append (p : Block → Bool) (xs ys : List Block) :
    lastWith p (xs ++ ys) = (lastWith p ys).or (lastWith p xs) := by
  simp only [lastWith, List.reverse_append, List.find?_append]

theorem lastWith_eq_none {p : Block → Bool} {xs : List Block} :
    lastWith p xs = none ↔ ∀ x ∈ xs, p x = false := by
  simp [lastWith, List.find?_eq_none]

theorem lastWith_some {p : Block → Bool} {xs : List Block} {b : Block}
    (h : lastWith p xs = some b) : b ∈ xs ∧ p b = true := by
  unfold lastWith at h
  exact ⟨List.mem_reverse.mp (List.mem_of_find?_eq_some h), List.find?_some h⟩

/-- The last block satisfying `p` of `pre ++ b :: post` is `b` when `b` satisfies `p` and
no block of `post` does. -/
theorem lastWith_split {p : Block → Bool} {pre post : List Block} {b : Block}
    (hb : p b = true) (hpost : ∀ x ∈ post, p x = false) :
    lastWith p (pre ++ b :: post) = some b := by
  rw [lastWith_append, lastWith_cons, lastWith_eq_none.mpr hpost]
  simp [hb]

/-! ## The insert loop -/

/-- A successful iteration: both buckets exist, the block encodes, and the iteration
upserts the payload under the height key and the height under the hash. -/
theorem insertBlock_ok {c : JSONCodec} {s s1 : LoopState} {b : Block}
    (h : insertBlock c s b = .returned (s1, none)) :
    ∃ bb hb bs, s.tx.blocks = some bb ∧ s.tx.blockHeights = some hb ∧ c.Marshal b = .ok bs ∧
      b.BlockHash.length ≠ 0 ∧
      s1.tx.blocks = some (fun k => if k = itob b.BlockHeight then some bs else bb k) ∧
      s1.tx.blockHeights =
        some (fun k => if k = b.BlockHash then some (itob b.BlockHeight) else hb k) ∧
      s1.tx.indexer = s.tx.indexer ∧
      s1.minHeight = (if b.BlockHeight < s.minHeight then b.BlockHeight else s.minHeight) ∧
      s1.maxHeight = (if b.BlockHeight > s.maxHeight then b.BlockHeight else s.maxHeight) := by
  unfold insertBlock at h
  simp only at h
  split at h
  · simp at h
  · rename_i bs hm
    split at h
    · simp at h
    · rename_i bb hbb
      split at h
      · simp at h
      · rename_i bb1 hput
        split at h
        · simp at h
        · rename_i hb hhb
          split at h
          · simp at h
          · rename_i hb1 hput2
            simp only [Outcome.returned.injEq, Prod.mk.injEq, and_true] at h
            obtain ⟨e1, _⟩ := Put_ok hput
            obtain ⟨e2, hk⟩ := Put_ok hput2
            refine ⟨bb, hb, bs, hbb, hhb, hm, hk, ?_, ?_, ?_, ?_, ?_⟩ <;> subst h <;> simp [e1, e2]

/-- Buckets after a successful loop: at every key, the entry written by the last block of
the batch using that key, and the former entry when no block uses it. -/
theorem insertLoop_ok (c : JSONCodec) : ∀ (B : List Block) (s s1 : LoopState),
    insertLoop c B s = .returned (s1, none) →
    (∀ k, s1.tx.blocks.bind (fun b => b k) =
      match lastWith (fun b => decide (itob b.BlockHeight = k)) B with
      | some b => (c.Marshal b).toOption
      | none => s.tx.blocks.bind (fun b => b k)) ∧
    (∀ k, s1.tx.blockHeights.bind (fun b => b k) =
      match lastWith (fun b => decide (b.BlockHash = k)) B with
      | some b => some (itob b.BlockHeight)
      | none => s.tx.blockHeights.bind (fun b => b k)) ∧
    s1.tx.indexer = s.tx.indexer ∧
    s1.tx.blocks.isSome = s.tx.blocks.isSome ∧
    s1.tx.blockHeights.isSome = s.tx.blockHeights.isSome ∧
    (B ≠ [] → s.tx.blocks.isSome = true ∧ s.tx.blockHeights.isSome = true) ∧
    (∀ b ∈ B, b.BlockHash.length ≠ 0 ∧ ∃ bs, c.Marshal b = .ok bs) := by
  intro B
  induction B with
  | nil =>
    intro s s1 h
    simp only [insertLoop, Outcome.returned.injEq, Prod.mk.injEq, and_true] at h
    subst h
    simp [lastWith_nil]
  | cons b rest ih =>
    intro s s1 h
    simp only [insertLoop] at h
    split at h
    · simp at h
    · simp at h
    · rename_i s2 hstep
      obtain ⟨bb, hb, bs, hbb, hhb, hm, hk, e1, e2, e3, _, _⟩ := insertBlock_ok hstep
      obtain ⟨i1, i2, i3, i4, i5, _, i7⟩ := ih s2 s1 h
      refine ⟨?_, ?_, ?_, ?_, ?_, ?_, ?_⟩
      · intro k
        rw [i1 k, lastWith_cons]
        cases hl : lastWith (fun b => decide (itob b.BlockHeight = k)) rest with
        | some x => simp
        | none =>
          by_cases hkk : itob b.BlockHeight = k
          · subst hkk
            simp [e1, hm, Except.toOption]
          · have hkk2 : ¬ k = itob b.BlockHeight := fun h => hkk h.symm
            simp [hkk, hkk2, e1, hbb]
      · intro k
        rw [i2 k, lastWith_cons]
        cases hl : lastWith (fun b => decide (b.BlockHash = k)) rest with
        | some x => simp
        | none =>
          by_cases hkk : b.BlockHash = k
          · subst hkk
            simp [e2]
          · have hkk2 : ¬ k = b.BlockHash := fun h => hkk h.symm
            simp [hkk, hkk2, e2, hhb]
      · rw [i3, e3]
      · rw [i4, e1, hbb]; rfl
      · rw [i5, e2, hhb]; rfl
      · intro _; simp [hbb, hhb]
      · intro x hx
        rcases List.mem_cons.mp hx with rfl | hx
        · exact ⟨hk, bs, hm⟩
        · exact i7 x hx

/-- Running minimum after a successful loop. -/
theorem insertLoop_min (c : JSONCodec) : ∀ (B : List Block) (s s1 : LoopState),
    insertLoop c B s = .returned (s1, none) →
    (∀ b ∈ B, s1.minHeight ≤ b.BlockHeight) ∧ s1.minHeight ≤ s.minHeight ∧
    (s1.minHeight = s.minHeight ∨ ∃ b ∈ B, b.BlockHeight = s1.minHeight) := by
  intro B
  induction B with
  | nil =>
    intro s s1 h
    simp only [insertLoop, Outcome.returned.injEq, Prod.mk.injEq, and_true] at h
    subst h
    simp
  | cons b rest ih =>
    intro s s1 h
    simp only [insertLoop] at h
    split at h
    · simp at h
    · simp at h
    · rename_i s2 hstep
      obtain ⟨_, _, _, _, _, _, _, _, _, _, em, _⟩ := insertBlock_ok hstep
      obtain ⟨i1, i2, i3⟩ := ih s2 s1 h
      have hs2 : s2.minHeight ≤ b.BlockHeight ∧ s2.minHeight ≤ s.minHeight ∧
          (s2.minHeight = s.minHeight ∨ s2.minHeight = b.BlockHeight) := by
        rw [em]; split
        · rename_i hlt; exact ⟨le_refl _, le_of_lt hlt, Or.inr rfl⟩
        · rename_i hlt; exact ⟨not_lt.mp hlt, le_refl _, Or.inl rfl⟩
      refine ⟨?_, le_trans i2 hs2.2.1, ?_⟩
      · intro x hx
        rcases List.mem_cons.mp hx with rfl | hx
        · exact le_trans i2 hs2.1
        · exact i1 x hx
      · rcases i3 with i3 | ⟨x, hx, hxe⟩
        · rcases hs2.2.2 with h3 | h3
          · exact Or.inl (i3.trans h3)
          · exact Or.inr ⟨b, List.mem_cons_self _ _, (i3.trans h3).symm⟩
        · exact Or.inr ⟨x, List.mem_cons_of_mem _ hx, hxe⟩

/-- Running maximum after a successful loop. -/
theorem insertLoop_max (c : JSONCodec) : ∀ (B : List Block) (s s1 : LoopState),
    insertLoop c B s = .returned (s1, none) →
    (∀ b ∈ B, b.BlockHeight ≤ s1.maxHeight) ∧ s.maxHeight ≤ s1.maxHeight ∧
    (s1.maxHeight = s.maxHeight ∨ ∃ b ∈ B, b.BlockHeight = s1.maxHeight) := by
  intro B
  induction B with
  | nil =>
    intro s s1 h
    simp only [insertLoop, Outcome.returned.injEq, Prod.mk.injEq, and_true] at h
    subst h
    simp
  | cons b rest ih =>
    intro s s1 h
    simp only [insertLoop] at h
    split at h
    · simp at h
    · simp at h
    · rename_i s2 hstep
      obtain ⟨_, _, _, _, _, _, _, _, _, _, _, em⟩ := insertBlock_ok hstep
      obtain ⟨i1, i2, i3⟩ := ih s2 s1 h
      have hs2 : b.BlockHeight ≤ s2.maxHeight ∧ s.maxHeight ≤ s2.maxHeight ∧
          (s2.maxHeight = s.maxHeight ∨ s2.maxHeight = b.BlockHeight) := by
        rw [em]; split
        · rename_i hlt; exact ⟨le_refl _, le_of_lt hlt, Or.inr rfl⟩
        · rename_i hlt; exact ⟨not_lt.mp hlt, le_refl _, Or.inl rfl⟩
      refine ⟨?_, le_trans hs2.2.1 i2, ?_⟩
      · intro x hx
        rcases List.mem_cons.mp hx with rfl | hx
        · exact le_trans hs2.1 i2
        · exact i1 x hx
      · rcases i3 with i3 | ⟨x, hx, hxe⟩
        · rcases hs2.2.2 with h3 | h3
          · exact Or.inl (i3.trans h3)
          · exact Or.inr ⟨b, List.mem_cons_self _ _, (i3.trans h3).symm⟩
        · exact Or.inr ⟨x, List.mem_cons_of_mem _ hx, hxe⟩

/-! ## The bound updates and the whole transaction -/

theorem earliestBlockKey_ne_latestBlockKey : earliestBlockKey ≠ latestBlockKey := by decide

theorem activatedTimestampKey_ne_earliestBlockKey :
    activatedTimestampKey ≠ earliestBlockKey := by decide

theorem activatedTimestampKey_ne_latestBlockKey :
    activatedTimestampKey ≠ latestBlockKey := by decide

theorem updateEarliest_ok {tx tx1 : DB} {minHeight : U64}
    (h : updateEarliest tx minHeight = .returned (tx1, none)) :
    ∃ ib ib1, tx.indexer = some ib ∧ tx1.indexer = some ib1 ∧
      tx1.blocks = tx.blocks ∧ tx1.blockHeights = tx.blockHeights ∧
      ∀ k, ib1 k = if k = earliestBlockKey ∧ ib earliestBlockKey = none
        then some (itob minHeight) else ib k := by
  unfold updateEarliest at h
  split at h
  · simp at h
  · rename_i ib hib
    simp only [Bucket.Get] at h
    split at h
    · rename_i hnone
      split at h
      · simp at h
      · rename_i ib1 hput
        simp only [Outcome.returned.injEq, Prod.mk.injEq, and_true] at h
        obtain ⟨e1, _⟩ := Put_ok hput
        subst h
        refine ⟨ib, ib1, hib, rfl, rfl, rfl, ?_⟩
        intro k
        simp [e1, hnone]
    · rename_i v hsome
      simp only [Outcome.returned.injEq, Prod.mk.injEq, and_true] at h
      subst h
      refine ⟨ib, ib, hib, hib, rfl, rfl, ?_⟩
      intro k
      simp [hsome]

theorem updateLatest_ok {tx tx1 : DB} {maxHeight : U64}
    (h : updateLatest tx maxHeight = .returned (tx1, none)) :
    ∃ ib ib1 cur, tx.indexer = some ib ∧ tx1.indexer = some ib1 ∧
      tx1.blocks = tx.blocks ∧ tx1.blockHeights = tx.blockHeights ∧
      (match ib latestBlockKey with
        | none => cur = 0
        | some latestBytes => btoi latestBytes = some cur) ∧
      ∀ k, ib1 k = if k = latestBlockKey ∧ maxHeight > cur
        then some (itob maxHeight) else ib k := by
  unfold updateLatest at h
  split at h
  · simp at h
  · rename_i ib hib
    simp only [Bucket.Get] at h
    split at h
    · simp at h
    · rename_i cur hcur
      have hc : (match ib latestBlockKey with
          | none => cur = 0
          | some latestBytes => btoi latestBytes = some cur) := by
        cases hl : ib latestBlockKey with
        | none => simp only [hl] at hcur ⊢; exact (Option.some.inj hcur).symm
        | some bs => simp only [hl] at hcur ⊢; exact hcur
      split at h
      · rename_i hgt
        split at h
        · simp at h
        · rename_i ib1 hput
          simp only [Outcome.returned.injEq, Prod.mk.injEq, and_true] at h
          obtain ⟨e1, _⟩ := Put_ok hput
          subst h
          refine ⟨ib, ib1, cur, hib, rfl, rfl, rfl, hc, ?_⟩
          intro k
          simp [e1, hgt]
      · rename_i hgt
        simp only [Outcome.returned.injEq, Prod.mk.injEq, and_true] at h
        subst h
        refine ⟨ib, ib, cur, hib, hib, rfl, rfl, hc, ?_⟩
        intro k
        simp [hgt]

/-- What a successful `InsertBlocks` of a non-empty batch does: the three buckets exist
before and after; primary storage and the index hold, at each key, the entry of the last
block of the batch using the key; `earliest` is set to the batch minimum when it was
absent; `latest` is set to the batch maximum when that exceeds its former value, read
as zero when absent; nothing else changes. -/
theorem InsertBlocks_ok {c : JSONCodec} {db db1 : DB} {B : List Block} (hB : B ≠ [])
    (h : InsertBlocks c db B = (db1, .returned none)) :
    ∃ (bb hb ib bb1 hb1 ib1 : Bucket) (mn mx cur : U64),
      db = ⟨some bb, some hb, some ib⟩ ∧ db1 = ⟨some bb1, some hb1, some ib1⟩ ∧
      (∀ k, bb1 k = match lastWith (fun b => decide (itob b.BlockHeight = k)) B with
        | some b => (c.Marshal b).toOption
        | none => bb k) ∧
      (∀ k, hb1 k = match lastWith (fun b => decide (b.BlockHash = k)) B with
        | some b => some (itob b.BlockHeight)
        | none => hb k) ∧
      (∀ b ∈ B, mn ≤ b.BlockHeight) ∧ (∃ b ∈ B, b.BlockHeight = mn) ∧
      (∀ b ∈ B, b.BlockHeight ≤ mx) ∧ (∃ b ∈ B, b.BlockHeight = mx) ∧
      (match ib latestBlockKey with
        | none => cur = 0
        | some latestBytes => btoi latestBytes = some cur) ∧
      (∀ k, ib1 k = if k = latestBlockKey ∧ mx > cur then some (itob mx)
        else if k = earliestBlockKey ∧ ib earliestBlockKey = none then some (itob mn)
        else ib k) ∧
      (∀ b ∈ B, b.BlockHash.length ≠ 0 ∧ ∃ bs, c.Marshal b = .ok bs) := by
  obtain ⟨b0, hb0⟩ := List.exists_mem_of_ne_nil B hB
  have hlen : ¬ B.length = 0 := fun h0 => hB (List.length_eq_zero.mp h0)
  simp only [InsertBlocks, hlen, if_false, Update] at h
  split at h
  · simp at h
  · rename_i tx htx
    simp only [Prod.mk.injEq, and_true] at h
    subst h
    unfold insertBlocksTx at htx
    split at htx
    · simp at htx
    · simp at htx
    · rename_i s hloop
      split at htx
      · simp at htx
      · simp at htx
      · rename_i tx1 hE
        obtain ⟨l1, l2, l3, l4, l5, l6, l7⟩ := insertLoop_ok c B _ _ hloop
        obtain ⟨m1, m2, m3⟩ := insertLoop_min c B _ _ hloop
        obtain ⟨x1, x2, x3⟩ := insertLoop_max c B _ _ hloop
        obtain ⟨ib, ib1, e1, e2, e3, e4, e5⟩ := updateEarliest_ok hE
        obtain ⟨ib1b, ib2, cur, f1, f2, f3, f4, f5, f6⟩ := updateLatest_ok htx
        obtain ⟨hsb, hsh⟩ := l6 hB
        simp only at l1 l2 l3 l4 l5 hsb hsh m2 m3 x2 x3
        rw [e2] at f1
        cases f1
        obtain ⟨bb, hbb⟩ := Option.isSome_iff_exists.mp hsb
        obtain ⟨hb, hhb⟩ := Option.isSome_iff_exists.mp hsh
        rw [hsb] at l4
        rw [hsh] at l5
        obtain ⟨bb1, hbb1⟩ := Option.isSome_iff_exists.mp l4
        obtain ⟨hb1, hhb1⟩ := Option.isSome_iff_exists.mp l5
        have hEL : ib1 latestBlockKey = ib latestBlockKey := by
          rw [e5]; simp [earliestBlockKey_ne_latestBlockKey.symm]
        rw [hEL] at f5
        refine ⟨bb, hb, ib, bb1, hb1, ib2, s.minHeight, s.maxHeight, cur, ?_, ?_, ?_, ?_,
          m1, ?_, x1, ?_, f5, ?_, l7⟩
        · cases db; simp_all
        · cases tx; simp_all
        · intro k
          have := l1 k
          simpa [hbb1, hbb] using this
        · intro k
          have := l2 k
          simpa [hhb1, hhb] using this
        · rcases m3 with m3 | m3
          · refine ⟨b0, hb0, ?_⟩
            have := m1 b0 hb0
            rw [m3] at this ⊢
            exact le_antisymm (Fin.le_last _) this
          · exact m3
        · rcases x3 with x3 | x3
          · refine ⟨b0, hb0, ?_⟩
            have := x1 b0 hb0
            rw [x3] at this ⊢
            exact le_antisymm this (Fin.zero_le _)
          · exact x3
        · intro k
          rw [f6 k, e5 k]
  · simp at h

/-! ## Lookup after insert -/

theorem fixedWidthCodec_roundTrips (b : Block) : fixedWidthCodec.RoundTrips b := by
  intro bs hbs
  simp only [fixedWidthCodec, Except.ok.injEq] at hbs
  subst hbs
  have h1 : (itob b.BlockHeight ++ itob b.BlockTimestamp ++ b.BlockHash).drop 8
      = itob b.BlockTimestamp ++ b.BlockHash := by simp [itob]
  have h2 : (itob b.BlockHeight ++ itob b.BlockTimestamp ++ b.BlockHash).drop 16
      = b.BlockHash := by simp [itob]
  simp only [fixedWidthCodec]
  rw [h1, h2, List.append_assoc, btoi_itob_append, btoi_itob_append]

theorem fixedWidthCodec_keepsHeight : fixedWidthCodec.KeepsHeight :=
  fun b bs hbs => ⟨b, fixedWidthCodec_roundTrips b bs hbs, rfl⟩

/-- Primary storage after a successful insert, at the height of a block of the batch
that no later block of the batch shares its height with: the encoding of that block. -/
theorem InsertBlocks_payload {c : JSONCodec} {db db1 : DB} {pre post : List Block} {b : Block}
    (hins : InsertBlocks c db (pre ++ b :: post) = (db1, .returned none))
    (hlast : ∀ x ∈ post, x.BlockHeight ≠ b.BlockHeight) :
    ∃ bb1 bs, db1.blocks = some bb1 ∧ c.Marshal b = .ok bs ∧
      bb1 (itob b.BlockHeight) = some bs := by
  have hB : pre ++ b :: post ≠ [] := by simp
  obtain ⟨bb, hb, ib, bb1, hb1, ib1, mn, mx, cur, e0, e1, hbb, -, -, -, -, -, -, -, hm⟩ :=
    InsertBlocks_ok hB hins
  obtain ⟨-, bs, hbs⟩ := hm b (by simp)
  refine ⟨bb1, bs, by rw [e1], hbs, ?_⟩
  rw [hbb, lastWith_split (by simp)]
  · simp [hbs, Except.toOption]
  · intro x hx
    have := hlast x hx
    simp only [decide_eq_false_iff_not]
    exact fun h => this (itob_injective h)

/-- C1 (amended): for every batch and every store state, if `InsertBlocks` succeeds then
for every block `b` of the batch that is not followed in the batch by a block of the
same height, and whose encoding round-trips, `GetBlockByHeight(b.height)` succeeds and
returns a block equal to `b`. -/
theorem insertBlocks_getBlockByHeight (c : JSONCodec) (db db1 : DB)
    (pre post : List Block) (b : Block) (hc : c.RoundTrips b)
    (hins : InsertBlocks c db (pre ++ b :: post) = (db1, .returned none))
    (hlast : ∀ x ∈ post, x.BlockHeight ≠ b.BlockHeight) :
    GetBlockByHeight c db1 b.BlockHeight = .returned (some b, none) := by
  obtain ⟨bb1, bs, h1, h2, h3⟩ := InsertBlocks_payload hins hlast
  have h5 := hc bs h2
  simp [GetBlockByHeight, h1, Bucket.Get, h3, h5]

/-- Witness of `insertBlocks_getBlockByHeight`: the second block of `dupHeightBatch`. -/
theorem insertBlocks_getBlockByHeight_witness :
    (InsertBlocks fixedWidthCodec initDB dupHeightBatch).2 = .returned none ∧
    GetBlockByHeight fixedWidthCodec (InsertBlocks fixedWidthCodec initDB dupHeightBatch).1 5
      = .returned (some (mkBlock [0x62] 5 1), none) :=
  ⟨by decide,
   insertBlocks_getBlockByHeight fixedWidthCodec initDB _
    [mkBlock [0x61] 5 0] [] (mkBlock [0x62] 5 1) (fixedWidthCodec_roundTrips _)
    (Prod.ext rfl (by decide)) (by simp)⟩

/-- C1 as stated fails: after the successful insert of `dupHeightBatch` into the
initialised empty store, the lookup at the height of its first block returns the
second block. -/
theorem insertBlocks_getBlockByHeight_counterexample :
    (∀ b, fixedWidthCodec.RoundTrips b) ∧ initDB.Initialised ∧
    (InsertBlocks fixedWidthCodec initDB dupHeightBatch).2 = .returned none ∧
    mkBlock [0x61] 5 0 ∈ dupHeightBatch ∧
    GetBlockByHeight fixedWidthCodec (InsertBlocks fixedWidthCodec initDB dupHeightBatch).1
      (mkBlock [0x61] 5 0).BlockHeight = .returned (some (mkBlock [0x62] 5 1), none) ∧
    mkBlock [0x62] 5 1 ≠ mkBlock [0x61] 5 0 := by
  refine ⟨fixedWidthCodec_roundTrips, ⟨rfl, rfl, rfl⟩, by decide, by decide, by decide,
    by decide⟩

theorem lastWith_exists {p : Block → Bool} {xs : List Block} {b : Block}
    (hb : b ∈ xs) (hp : p b = true) : ∃ b1, lastWith p xs = some b1 := by
  cases h : lastWith p xs with
  | some b1 => exact ⟨b1, rfl⟩
  | none =>
    have := lastWith_eq_none.mp h b hb
    rw [hp] at this
    cases this

/-- After a successful insert, the lookup at a height that occurs in the batch
returns a block of the batch with that height. -/
theorem getBlockByHeight_mem_of_insert {c : JSONCodec} (hc : c.KeepsHeight) {db db1 : DB}
    {B : List Block} {b : Block} (hb : b ∈ B)
    (hins : InsertBlocks c db B = (db1, .returned none)) :
    ∃ blk, blk.BlockHeight = b.BlockHeight ∧
      GetBlockByHeight c db1 b.BlockHeight = .returned (some blk, none) := by
  have hB : B ≠ [] := List.ne_nil_of_mem hb
  obtain ⟨bb, hb0, ib, bb1, hb1, ib1, mn, mx, cur, e0, e1, hbb, -, -, -, -, -, -, -, hm⟩ :=
    InsertBlocks_ok hB hins
  obtain ⟨b1, hl⟩ := lastWith_exists (p := fun x => decide (itob x.BlockHeight = itob b.BlockHeight))
    hb (by simp)
  obtain ⟨hmem, hp⟩ := lastWith_some hl
  have hh : b1.BlockHeight = b.BlockHeight := itob_injective (of_decide_eq_true hp)
  obtain ⟨-, bs, h4⟩ := hm b1 hmem
  obtain ⟨blk, h5, h6⟩ := hc b1 bs h4
  refine ⟨blk, h6.trans hh, ?_⟩
  have h3 : bb1 (itob b.BlockHeight) = some bs := by
    rw [hbb, hl]; simp [h4, Except.toOption]
  simp [GetBlockByHeight, e1, Bucket.Get, h3, h5]

/-- C2 (amended): for every batch and every store state, if `InsertBlocks` succeeds then
for every block `b` of the batch that is not followed in the batch by a block of the
same hash, `GetBlockByHash(b.hash)` succeeds and returns a block whose height is
`b.height`. -/
theorem insertBlocks_getBlockByHash (c : JSONCodec) (hc : c.KeepsHeight) (db db1 : DB)
    (pre post : List Block) (b : Block)
    (hins : InsertBlocks c db (pre ++ b :: post) = (db1, .returned none))
    (hlast : ∀ x ∈ post, x.BlockHash ≠ b.BlockHash) :
    ∃ blk, GetBlockByHash c db1 b.BlockHash = .returned (some blk, none) ∧
      blk.BlockHeight = b.BlockHeight := by
  have hB : pre ++ b :: post ≠ [] := by simp
  obtain ⟨bb, hb0, ib, bb1, hb1, ib1, mn, mx, cur, e0, e1, -, hhb, -, -, -, -, -, -, -⟩ :=
    InsertBlocks_ok hB hins
  have hidx : hb1 b.BlockHash = some (itob b.BlockHeight) := by
    rw [hhb, lastWith_split (by simp)]
    intro x hx
    simpa using hlast x hx
  obtain ⟨b1, hh, hget⟩ := getBlockByHeight_mem_of_insert hc
    (show b ∈ pre ++ b :: post by simp) hins
  refine ⟨b1, ?_, hh⟩
  rw [← hget]
  simp [GetBlockByHash, e1, Bucket.Get, hidx, btoi_itob]

/-- Witness of `insertBlocks_getBlockByHash`: the second block of `dupHashBatch`. -/
theorem insertBlocks_getBlockByHash_witness :
    (InsertBlocks fixedWidthCodec initDB dupHashBatch).2 = .returned none ∧
    ∃ blk, GetBlockByHash fixedWidthCodec (InsertBlocks fixedWidthCodec initDB dupHashBatch).1
      (mkBlock [0x61] 6 0).BlockHash = .returned (some blk, none) ∧
      blk.BlockHeight = (mkBlock [0x61] 6 0).BlockHeight :=
  ⟨by decide,
   insertBlocks_getBlockByHash fixedWidthCodec fixedWidthCodec_keepsHeight initDB _
    [mkBlock [0x61] 5 0] [] (mkBlock [0x61] 6 0) (Prod.ext rfl (by decide)) (by simp)⟩

/-- C2 as stated fails: after the successful insert of `dupHashBatch` into the
initialised empty store, the lookup by the hash of its first block (height 5) returns
a block of height 6. -/
theorem insertBlocks_getBlockByHash_counterexample :
    (∀ b, fixedWidthCodec.RoundTrips b) ∧ initDB.Initialised ∧
    (InsertBlocks fixedWidthCodec initDB dupHashBatch).2 = .returned none ∧
    mkBlock [0x61] 5 0 ∈ dupHashBatch ∧
    GetBlockByHash fixedWidthCodec (InsertBlocks fixedWidthCodec initDB dupHashBatch).1
      (mkBlock [0x61] 5 0).BlockHash = .returned (some (mkBlock [0x61] 6 0), none) ∧
    (mkBlock [0x61] 6 0).BlockHeight ≠ (mkBlock [0x61] 5 0).BlockHeight := by
  refine ⟨fixedWidthCodec_roundTrips, ⟨rfl, rfl, rfl⟩, by decide, by decide, by decide,
    by decide⟩

/-! ## Reachable states -/

theorem Update_fst_of_ne {db : DB} {fn : DB → Outcome (DB × Option Error)}
    (h : (Update db fn).2 ≠ .returned none) : (Update db fn).1 = db := by
  unfold Update at h ⊢
  split
  · rfl
  · rename_i heq; simp [heq] at h
  · rfl

theorem InsertBlocks_fst_of_ne {c : JSONCodec} {db : DB} {B : List Block}
    (h : (InsertBlocks c db B).2 ≠ .returned none) : (InsertBlocks c db B).1 = db := by
  unfold InsertBlocks at h ⊢
  split
  · rfl
  · rename_i hl
    simp only [hl, if_false] at h
    exact Update_fst_of_ne h

theorem InsertBlocks_nil (c : JSONCodec) (db : DB) : InsertBlocks c db [] = (db, .returned none) :=
  rfl

theorem storeOf_initDB (c : JSONCodec) : StoreOf c initDB [] := by
  refine ⟨Bucket.empty, Bucket.empty, Bucket.empty, rfl, ?_⟩
  constructor <;> simp [lastWith_nil, Bucket.empty]

theorem CreateInitialSchema_of_storeOf {c : JSONCodec} {db : DB} {batches : List (List Block)}
    (hS : StoreOf c db batches) : CreateInitialSchema db = (db, .returned none) := by
  obtain ⟨bb, hb, ib, rfl, -⟩ := hS
  rfl

theorem SaveActivatedTimestamp_of_storeOf {c : JSONCodec} {db : DB}
    {batches : List (List Block)} (hS : StoreOf c db batches) (ts : U64) :
    (SaveActivatedTimestamp db ts).2 = .returned none ∧
    StoreOf c (SaveActivatedTimestamp db ts).1 batches := by
  obtain ⟨bb, hb, ib, rfl, hI⟩ := hS
  have hput : ib.Put activatedTimestampKey (itob ts) =
      .ok (fun k => if k = activatedTimestampKey then some (itob ts) else ib k) := by
    simp [Bucket.Put, activatedTimestampKey, itob_length, MaxKeySize, MaxValueSize]
  have hrun : SaveActivatedTimestamp ⟨some bb, some hb, some ib⟩ ts =
      (⟨some bb, some hb,
        some (fun k => if k = activatedTimestampKey then some (itob ts) else ib k)⟩,
       .returned none) := by
    simp [SaveActivatedTimestamp, Update, hput]
  rw [hrun]
  refine ⟨rfl, _, _, _, rfl, ?_⟩
  refine ⟨hI.blocks, hI.heights, hI.accepted, hI.nonempty, ?_, ?_⟩
  · have := hI.earliest
    simpa [activatedTimestampKey_ne_earliestBlockKey.symm] using this
  · have := hI.latest
    simpa [activatedTimestampKey_ne_latestBlockKey.symm] using this

/-- A successful insert of a non-empty batch appends the batch to the history. -/
theorem storeOf_insert {c : JSONCodec} {db db1 : DB} {batches : List (List Block)}
    {B : List Block} (hS : StoreOf c db batches) (hB : B ≠ [])
    (h : InsertBlocks c db B = (db1, .returned none)) : StoreOf c db1 (batches ++ [B]) := by
  obtain ⟨bb, hb, ib, bb1, hb1, ib1, mn, mx, cur, e0, e1, hbb, hhb, hmn, hmn2, hmx, hmx2,
    hcur, hib, hacc⟩ := InsertBlocks_ok hB h
  obtain ⟨bb0, hb0, ib0, e2, hI⟩ := hS
  rw [e0] at e2
  simp only [DB.mk.injEq, Option.some.injEq] at e2
  obtain ⟨rfl, rfl, rfl⟩ := e2
  refine ⟨bb1, hb1, ib1, e1, ?_⟩
  have hEL := earliestBlockKey_ne_latestBlockKey
  constructor
  · intro k
    rw [hbb k, List.flatten_concat, lastWith_append, hI.blocks k]
    cases lastWith (fun b => decide (itob b.BlockHeight = k)) B <;> simp
  · intro k
    rw [hhb k, List.flatten_concat, lastWith_append, hI.heights k]
    cases lastWith (fun b => decide (b.BlockHash = k)) B <;> simp
  · intro b hb
    rw [List.flatten_concat, List.mem_append] at hb
    rcases hb with hb | hb
    · exact hI.accepted b hb
    · exact hacc b hb
  · intro B1 hB1
    rcases List.mem_append.mp hB1 with h1 | h1
    · exact hI.nonempty B1 h1
    · rw [List.mem_singleton] at h1; rw [h1]; exact hB
  · have hE := hI.earliest
    have hibE : ib1 earliestBlockKey =
        if ib earliestBlockKey = none then some (itob mn) else ib earliestBlockKey := by
      rw [hib]; simp [hEL]
    cases batches with
    | nil =>
      simp only [List.head?_nil] at hE
      simp only [List.nil_append, List.head?_cons]
      obtain ⟨b, hbB, hbe⟩ := hmn2
      refine ⟨b, hbB, ?_, ?_⟩
      · rw [hibE, hE, hbe]; simp
      · intro x hx; rw [hbe]; exact hmn x hx
    | cons B0 rest =>
      simp only [List.head?_cons] at hE
      simp only [List.cons_append, List.head?_cons]
      obtain ⟨b, hbB, hbe, hle⟩ := hE
      refine ⟨b, hbB, ?_, hle⟩
      rw [hibE, hbe]; simp
  · have hibL : ib1 latestBlockKey =
        if mx > cur then some (itob mx) else ib latestBlockKey := by
      rw [hib]; simp [hEL.symm]
    rw [List.flatten_concat]
    obtain ⟨bx, hbx, hbxe⟩ := hmx2
    rcases hI.latest with ⟨hnone, hz⟩ | ⟨b, hbm, hbe, hpos, hle⟩
    · rw [hnone] at hcur
      simp only at hcur
      subst hcur
      by_cases hgt : mx > 0
      · right
        refine ⟨bx, List.mem_append_right _ hbx, ?_, ?_, ?_⟩
        · rw [hibL, if_pos hgt, hbxe]
        · rw [hbxe]; exact hgt
        · intro x hx
          rcases List.mem_append.mp hx with hx | hx
          · rw [hz x hx]; exact Fin.zero_le _
          · rw [hbxe]; exact hmx x hx
      · left
        refine ⟨?_, ?_⟩
        · rw [hibL, if_neg hgt, hnone]
        · intro x hx
          rcases List.mem_append.mp hx with hx | hx
          · exact hz x hx
          · have h1 := hmx x hx
            have h2 : mx ≤ 0 := not_lt.mp hgt
            exact le_antisymm (le_trans h1 h2) (Fin.zero_le _)
    · rw [hbe] at hcur
      simp only [btoi_itob, Option.some.injEq] at hcur
      subst hcur
      right
      by_cases hgt : mx > b.BlockHeight
      · refine ⟨bx, List.mem_append_right _ hbx, ?_, ?_, ?_⟩
        · rw [hibL, if_pos hgt, hbxe]
        · rw [hbxe]; exact lt_trans hpos hgt
        · intro x hx
          rcases List.mem_append.mp hx with hx | hx
          · rw [hbxe]; exact le_trans (hle x hx) (le_of_lt hgt)
          · rw [hbxe]; exact hmx x hx
      · refine ⟨b, List.mem_append_left _ hbm, ?_, hpos, ?_⟩
        · rw [hibL, if_neg hgt, hbe]
        · intro x hx
          rcases List.mem_append.mp hx with hx | hx
          · exact hle x hx
          · exact le_trans (hmx x hx) (not_lt.mp hgt)

theorem batchesOf_nil : batchesOf [] = [] := rfl

theorem batchesOf_append (xs ys : List Op) :
    batchesOf (xs ++ ys) = batchesOf xs ++ batchesOf ys := by
  simp [batchesOf]

theorem batchesOf_cons (op : Op) (ops : List Op) :
    batchesOf (op :: ops) = batchesOf [op] ++ batchesOf ops :=
  batchesOf_append [op] ops

theorem batchesOf_insert {B : List Block} (hB : B ≠ []) :
    batchesOf [Op.insertBlocks B] = [B] := by
  cases B with
  | nil => exact absurd rfl hB
  | cons b rest => rfl

theorem mem_batchesOf {ops : List Op} {B : List Block} :
    B ∈ batchesOf ops ↔ Op.insertBlocks B ∈ ops ∧ B ≠ [] := by
  simp only [batchesOf, List.mem_filter, List.mem_map]
  constructor
  · rintro ⟨⟨op, hop, rfl⟩, hne⟩
    cases op with
    | insertBlocks B1 =>
      refine ⟨hop, ?_⟩
      intro h0
      subst h0
      simp [Op.blocks] at hne
    | createInitialSchema => simp [Op.blocks] at hne
    | saveActivatedTimestamp ts => simp [Op.blocks] at hne
  · rintro ⟨hop, hne⟩
    refine ⟨⟨_, hop, rfl⟩, ?_⟩
    cases B with
    | nil => exact absurd rfl hne
    | cons b rest => rfl

/-- The blocks of the history of a run are the blocks of its `InsertBlocks` calls. -/
theorem mem_flatten_batchesOf {ops : List Op} {b : Block} :
    b ∈ (batchesOf ops).flatten ↔ ∃ B, Op.insertBlocks B ∈ ops ∧ b ∈ B := by
  rw [List.mem_flatten]
  constructor
  · rintro ⟨B, hB, hb⟩
    exact ⟨B, (mem_batchesOf.mp hB).1, hb⟩
  · rintro ⟨B, hB, hb⟩
    exact ⟨B, mem_batchesOf.mpr ⟨hB, List.ne_nil_of_mem hb⟩, hb⟩

/-- The first batch of the history is the first non-empty batch of the run. -/
theorem head_batchesOf {pre post : List Op} {B : List Block}
    (hpre : ∀ B1, Op.insertBlocks B1 ∈ pre → B1 = []) (hB : B ≠ []) :
    (batchesOf (pre ++ Op.insertBlocks B :: post)).head? = some B := by
  have h0 : batchesOf pre = [] := by
    apply List.eq_nil_iff_forall_not_mem.mpr
    intro B1 hB1
    obtain ⟨h1, h2⟩ := mem_batchesOf.mp hB1
    exact h2 (hpre B1 h1)
  rw [batchesOf_append, h0, batchesOf_cons, batchesOf_insert hB]
  rfl

/-- One successful call extends the history by its batch, when that is not empty. -/
theorem apply_storeOf {c : JSONCodec} {db db1 : DB} {batches : List (List Block)} {op : Op}
    (hS : StoreOf c db batches) (h : op.apply c db = (db1, .returned none)) :
    StoreOf c db1 (batches ++ batchesOf [op]) := by
  cases op with
  | createInitialSchema =>
    simp only [Op.apply, CreateInitialSchema_of_storeOf hS, Prod.mk.injEq, and_true] at h
    subst h
    simpa [batchesOf, Op.blocks] using hS
  | saveActivatedTimestamp ts =>
    simp only [Op.apply] at h
    have h2 := (SaveActivatedTimestamp_of_storeOf hS ts).2
    rw [h] at h2
    simpa [batchesOf, Op.blocks] using h2
  | insertBlocks B =>
    simp only [Op.apply] at h
    by_cases hB : B = []
    · subst hB
      rw [InsertBlocks_nil] at h
      simp only [Prod.mk.injEq, and_true] at h
      subst h
      simpa [batchesOf, Op.blocks] using hS
    · rw [batchesOf_insert hB]
      exact storeOf_insert hS hB h

/-- A run of successful calls extends the history by its non-empty batches. -/
theorem execAll_storeOf {c : JSONCodec} : ∀ (ops : List Op) (db db1 : DB)
    (batches : List (List Block)), StoreOf c db batches → execAll c db ops = some db1 →
    StoreOf c db1 (batches ++ batchesOf ops) := by
  intro ops
  induction ops with
  | nil =>
    intro db db1 batches hS h
    simp only [execAll, Option.some.injEq] at h
    subst h
    simpa [batchesOf_nil] using hS
  | cons op rest ih =>
    intro db db1 batches hS h
    simp only [execAll] at h
    split at h
    · rename_i db2 hop
      have h2 := ih db2 db1 _ (apply_storeOf hS hop) h
      rw [batchesOf_cons, ← List.append_assoc]
      exact h2
    · cases h

/-- One call, whatever its outcome, leaves a store whose history is the former one,
extended by the batch of the call when it is an accepted non-empty batch. -/
theorem apply_storeOf_any {c : JSONCodec} {db : DB} {batches : List (List Block)} (op : Op)
    (hS : StoreOf c db batches) :
    ∃ extra, StoreOf c (op.apply c db).1 (batches ++ extra) ∧
      ∀ B ∈ extra, op = Op.insertBlocks B := by
  by_cases hok : (op.apply c db).2 = .returned none
  · refine ⟨batchesOf [op], apply_storeOf hS (Prod.ext rfl hok), ?_⟩
    intro B hB
    have := (mem_batchesOf.mp hB).1
    exact (List.mem_singleton.mp this).symm
  · refine ⟨[], ?_, by simp⟩
    rw [List.append_nil]
    cases op with
    | createInitialSchema =>
      simp only [Op.apply, CreateInitialSchema_of_storeOf hS]; exact hS
    | saveActivatedTimestamp ts =>
      exact absurd (SaveActivatedTimestamp_of_storeOf hS ts).1 hok
    | insertBlocks B =>
      simp only [Op.apply] at hok ⊢
      rw [InsertBlocks_fst_of_ne hok]; exact hS

/-- Every run from a store with a history ends in a store with a history. -/
theorem runOps_storeOf {c : JSONCodec} : ∀ (ops : List Op) (db : DB)
    (batches : List (List Block)), StoreOf c db batches →
    ∃ extra, StoreOf c (runOps c db ops) (batches ++ extra) ∧
      ∀ B ∈ extra, Op.insertBlocks B ∈ ops := by
  intro ops
  induction ops with
  | nil =>
    intro db batches hS
    exact ⟨[], by simpa [runOps] using hS, by simp⟩
  | cons op rest ih =>
    intro db batches hS
    obtain ⟨e1, hS1, he1⟩ := apply_storeOf_any op hS
    obtain ⟨e2, hS2, he2⟩ := ih _ _ hS1
    refine ⟨e1 ++ e2, ?_, ?_⟩
    · rw [← List.append_assoc]; exact hS2
    · intro B hB
      rcases List.mem_append.mp hB with hB | hB
      · rw [he1 B hB]; exact List.mem_cons_self _ _
      · exact List.mem_cons_of_mem _ (he2 B hB)

/-- Every reachable state has a history. -/
theorem Reachable.storeOf {c : JSONCodec} {db : DB} (h : Reachable c db) :
    ∃ batches, StoreOf c db batches := by
  obtain ⟨ops, rfl⟩ := h
  obtain ⟨extra, hS, -⟩ := runOps_storeOf ops initDB [] (storeOf_initDB c)
  exact ⟨_, hS⟩

/-! ## Lookups in a store with a history -/

/-- The payload at a height that occurs in the history is the encoding of a block of the
history with that height. -/
theorem payload_of_storeOf {c : JSONCodec} {db : DB} {batches : List (List Block)}
    (hS : StoreOf c db batches) {b : Block} (hb : b ∈ batches.flatten) :
    ∃ b1 bs, b1 ∈ batches.flatten ∧ b1.BlockHeight = b.BlockHeight ∧ c.Marshal b1 = .ok bs ∧
      db.payloadAt b.BlockHeight = some bs := by
  obtain ⟨bb, hb0, ib, rfl, hI⟩ := hS
  obtain ⟨b1, hl⟩ := lastWith_exists
    (p := fun x => decide (itob x.BlockHeight = itob b.BlockHeight)) hb (by simp)
  obtain ⟨hmem, hp⟩ := lastWith_some hl
  obtain ⟨-, bs, hbs⟩ := hI.accepted b1 hmem
  refine ⟨b1, bs, hmem, itob_injective (of_decide_eq_true hp), hbs, ?_⟩
  simp only [DB.payloadAt, Option.bind, Bucket.Get]
  rw [hI.blocks, hl]
  simp [hbs, Except.toOption]

/-- No payload at a height that does not occur in the history. -/
theorem payload_none_of_storeOf {c : JSONCodec} {db : DB} {batches : List (List Block)}
    (hS : StoreOf c db batches) {h : U64} (hh : ∀ b ∈ batches.flatten, b.BlockHeight ≠ h) :
    db.payloadAt h = none := by
  obtain ⟨bb, hb0, ib, rfl, hI⟩ := hS
  have hl : lastWith (fun x => decide (itob x.BlockHeight = itob h)) batches.flatten = none := by
    rw [lastWith_eq_none]
    intro x hx
    simp only [decide_eq_false_iff_not]
    exact fun he => hh x hx (itob_injective he)
  simp only [DB.payloadAt, Option.bind, Bucket.Get]
  rw [hI.blocks, hl]

/-- The index entry of a hash that occurs in the history is the height key of a block
of the history with that hash. -/
theorem index_of_storeOf {c : JSONCodec} {db : DB} {batches : List (List Block)}
    (hS : StoreOf c db batches) {b : Block} (hb : b ∈ batches.flatten) :
    ∃ b1, b1 ∈ batches.flatten ∧ b1.BlockHash = b.BlockHash ∧
      db.indexAt b.BlockHash = some (itob b1.BlockHeight) := by
  obtain ⟨bb, hb0, ib, rfl, hI⟩ := hS
  obtain ⟨b1, hl⟩ := lastWith_exists
    (p := fun x => decide (x.BlockHash = b.BlockHash)) hb (by simp)
  obtain ⟨hmem, hp⟩ := lastWith_some hl
  refine ⟨b1, hmem, of_decide_eq_true hp, ?_⟩
  simp only [DB.indexAt, Option.bind, Bucket.Get]
  rw [hI.heights, hl]

/-- Every index entry is the height key of a block of the history with that hash. -/
theorem index_some_of_storeOf {c : JSONCodec} {db : DB} {batches : List (List Block)}
    (hS : StoreOf c db batches) {hash v : Bytes} (hv : db.indexAt hash = some v) :
    ∃ b1, b1 ∈ batches.flatten ∧ b1.BlockHash = hash ∧ v = itob b1.BlockHeight := by
  obtain ⟨bb, hb0, ib, rfl, hI⟩ := hS
  simp only [DB.indexAt, Option.bind, Bucket.Get] at hv
  rw [hI.heights] at hv
  cases hl : lastWith (fun x => decide (x.BlockHash = hash)) batches.flatten with
  | none => rw [hl] at hv; cases hv
  | some b1 =>
    rw [hl] at hv
    obtain ⟨hmem, hp⟩ := lastWith_some hl
    exact ⟨b1, hmem, of_decide_eq_true hp, (Option.some.inj hv).symm⟩

/-- No index entry for a hash that does not occur in the history. -/
theorem index_none_of_storeOf {c : JSONCodec} {db : DB} {batches : List (List Block)}
    (hS : StoreOf c db batches) {hash : Bytes}
    (hh : ∀ b ∈ batches.flatten, b.BlockHash ≠ hash) : db.indexAt hash = none := by
  obtain ⟨bb, hb0, ib, rfl, hI⟩ := hS
  have hl : lastWith (fun x => decide (x.BlockHash = hash)) batches.flatten = none := by
    rw [lastWith_eq_none]
    intro x hx
    simpa using hh x hx
  simp only [DB.indexAt, Option.bind, Bucket.Get]
  rw [hI.heights, hl]

/-- Every payload in primary storage sits at the height of a block of the history. -/
theorem payload_some_of_storeOf {c : JSONCodec} {db : DB} {batches : List (List Block)}
    (hS : StoreOf c db batches) {h : U64} (hp : db.payloadAt h ≠ none) :
    ∃ b ∈ batches.flatten, b.BlockHeight = h := by
  by_contra hne
  apply hp
  apply payload_none_of_storeOf hS
  intro b hb he
  exact hne ⟨b, hb, he⟩

theorem GetBlockByHeight_of_payload {c : JSONCodec} {db : DB} {h : U64} {bs : Bytes}
    {b : Block} (hp : db.payloadAt h = some bs) (hd : c.Unmarshal bs = .ok b) :
    GetBlockByHeight c db h = .returned (some b, none) := by
  unfold DB.payloadAt at hp
  unfold GetBlockByHeight
  cases hb : db.blocks with
  | none => simp [hb] at hp
  | some bb =>
    simp only [hb, Option.bind] at hp
    simp [hp, hd]

theorem GetBlockByHeight_of_payload_none {c : JSONCodec} {db : DB} {h : U64}
    (hi : db.blocks.isSome = true) (hp : db.payloadAt h = none) :
    GetBlockByHeight c db h = .returned (none, some .ErrBlockNotFound) := by
  unfold DB.payloadAt at hp
  unfold GetBlockByHeight
  cases hb : db.blocks with
  | none => simp [hb] at hi
  | some bb =>
    simp only [hb, Option.bind] at hp
    simp [hp]

/-- When encodings decode and keep the height, the lookup at a height of the history
returns a block of that height. -/
theorem GetBlockByHeight_of_storeOf {c : JSONCodec} (hc : c.KeepsHeight) {db : DB}
    {batches : List (List Block)} (hS : StoreOf c db batches) {b : Block}
    (hb : b ∈ batches.flatten) :
    ∃ blk, blk.BlockHeight = b.BlockHeight ∧
      GetBlockByHeight c db b.BlockHeight = .returned (some blk, none) := by
  obtain ⟨b1, bs, hmem, hh, hm, hp⟩ := payload_of_storeOf hS hb
  obtain ⟨blk, h5, h6⟩ := hc b1 bs hm
  exact ⟨blk, h6.trans hh, GetBlockByHeight_of_payload hp h5⟩

/-! ## The bounds -/

/-- The `earliest` bound of a store with a history: absent when nothing was inserted,
else the minimum height of the first batch. -/
theorem earliest_of_storeOf {c : JSONCodec} {db : DB} {batches : List (List Block)}
    (hS : StoreOf c db batches) :
    match batches.head? with
    | none => db.indexerAt earliestBlockKey = none
    | some B0 => ∃ b ∈ B0, db.indexerAt earliestBlockKey = some (itob b.BlockHeight) ∧
        db.earliest = some b.BlockHeight ∧ ∀ x ∈ B0, b.BlockHeight ≤ x.BlockHeight := by
  obtain ⟨bb, hb0, ib, rfl, hI⟩ := hS
  have hE := hI.earliest
  cases hh : batches.head? with
  | none => rw [hh] at hE; simpa [DB.indexerAt, Bucket.Get] using hE
  | some B0 =>
    rw [hh] at hE
    obtain ⟨b, hb, he, hle⟩ := hE
    refine ⟨b, hb, ?_, ?_, hle⟩
    · simpa [DB.indexerAt, Bucket.Get] using he
    · simp [DB.earliest, DB.indexerAt, Bucket.Get, he, btoi_itob]

/-- The `latest` bound of a store with a history: absent when every inserted height is
zero, else the maximum inserted height. -/
theorem latest_of_storeOf {c : JSONCodec} {db : DB} {batches : List (List Block)}
    (hS : StoreOf c db batches) :
    (db.indexerAt latestBlockKey = none ∧ ∀ x ∈ batches.flatten, x.BlockHeight = 0) ∨
    (∃ b ∈ batches.flatten, db.indexerAt latestBlockKey = some (itob b.BlockHeight) ∧
      db.latest = some b.BlockHeight ∧ 0 < b.BlockHeight ∧
      ∀ x ∈ batches.flatten, x.BlockHeight ≤ b.BlockHeight) := by
  obtain ⟨bb, hb0, ib, rfl, hI⟩ := hS
  rcases hI.latest with ⟨hn, hz⟩ | ⟨b, hb, he, hpos, hle⟩
  · left
    exact ⟨by simpa [DB.indexerAt, Bucket.Get] using hn, hz⟩
  · right
    refine ⟨b, hb, ?_, ?_, hpos, hle⟩
    · simpa [DB.indexerAt, Bucket.Get] using he
    · simp [DB.latest, DB.indexerAt, Bucket.Get, he, btoi_itob]

theorem QueryEarliestFinalizedBlock_of_earliest {c : JSONCodec} {db : DB} {e : U64}
    (h : db.earliest = some e) :
    QueryEarliestFinalizedBlock c db = GetBlockByHeight c db e := by
  unfold DB.earliest DB.indexerAt at h
  unfold QueryEarliestFinalizedBlock
  cases hi : db.indexer with
  | none => simp [hi] at h
  | some ib =>
    simp only [hi, Option.bind] at h
    cases hg : ib.Get earliestBlockKey with
    | none => simp [hg] at h
    | some v =>
      simp only [hg] at h
      simp [hg, h]

theorem QueryLatestFinalizedBlock_of_latest {c : JSONCodec} {db : DB} {l : U64}
    (h : db.latest = some l) :
    QueryLatestFinalizedBlock c db = GetBlockByHeight c db l := by
  unfold DB.latest DB.indexerAt at h
  unfold QueryLatestFinalizedBlock
  cases hi : db.indexer with
  | none => simp [hi] at h
  | some ib =>
    simp only [hi, Option.bind] at h
    cases hg : ib.Get latestBlockKey with
    | none => simp [hg] at h
    | some v =>
      simp only [hg] at h
      simp [hg, h]

/-- Where C3 holds: after a run of successful calls from the initialised empty store in
which a block of positive height was inserted, `QueryLatestFinalizedBlock` returns a
block whose height is the maximum inserted height. -/
theorem QueryLatestFinalizedBlock_of_positive (c : JSONCodec) (hc : c.KeepsHeight)
    (ops : List Op) (db : DB) (hrun : execAll c initDB ops = some db)
    (hpos : ∃ B b, Op.insertBlocks B ∈ ops ∧ b ∈ B ∧ 0 < b.BlockHeight) :
    ∃ blk, QueryLatestFinalizedBlock c db = .returned (some blk, none) ∧
      (∃ B b, Op.insertBlocks B ∈ ops ∧ b ∈ B ∧ b.BlockHeight = blk.BlockHeight) ∧
      ∀ B b, Op.insertBlocks B ∈ ops → b ∈ B → b.BlockHeight ≤ blk.BlockHeight := by
  have hS := execAll_storeOf ops initDB db [] (storeOf_initDB c) hrun
  rw [List.nil_append] at hS
  obtain ⟨B0, b0, hB0, hb0, hb0pos⟩ := hpos
  rcases latest_of_storeOf hS with ⟨-, hz⟩ | ⟨b, hb, -, hl, -, hle⟩
  · have := hz b0 (mem_flatten_batchesOf.mpr ⟨B0, hB0, hb0⟩)
    rw [this] at hb0pos
    exact absurd hb0pos (lt_irrefl _)
  · obtain ⟨b1, hh, hget⟩ := GetBlockByHeight_of_storeOf hc hS hb
    refine ⟨b1, ?_, ?_, ?_⟩
    · rw [QueryLatestFinalizedBlock_of_latest hl, hget]
    · obtain ⟨B, hB, hbB⟩ := mem_flatten_batchesOf.mp hb
      exact ⟨B, b, hB, hbB, hh.symm⟩
    · intro B x hB hx
      rw [hh]
      exact hle x (mem_flatten_batchesOf.mpr ⟨B, hB, hx⟩)

/-- C3 at the failing input: after the successful insert of one block at height 0 into
the initialised empty store, `QueryLatestFinalizedBlock` returns `(nil, nil)`, while
`QueryEarliestFinalizedBlock` returns the block. -/
theorem queryLatest_nil_after_height_zero :
    (∀ b, fixedWidthCodec.RoundTrips b) ∧
    (InsertBlocks fixedWidthCodec initDB genesisBatch).2 = .returned none ∧
    QueryLatestFinalizedBlock fixedWidthCodec (InsertBlocks fixedWidthCodec initDB genesisBatch).1
      = .returned (none, none) ∧
    QueryEarliestFinalizedBlock fixedWidthCodec
      (InsertBlocks fixedWidthCodec initDB genesisBatch).1
      = .returned (some (mkBlock [0x61] 0 0), none) :=
  ⟨fixedWidthCodec_roundTrips, by decide, by decide, by decide⟩

/-- C4: after a run of successful calls from the initialised empty store,
`QueryEarliestFinalizedBlock` returns a block whose height is the minimum height of the
first non-empty batch, whatever calls follow that batch. -/
theorem queryEarliest_first_batch (c : JSONCodec) (hc : c.KeepsHeight) (pre post : List Op)
    (B : List Block) (db : DB) (hpre : ∀ B1, Op.insertBlocks B1 ∈ pre → B1 = [])
    (hB : B ≠ []) (hrun : execAll c initDB (pre ++ Op.insertBlocks B :: post) = some db) :
    ∃ blk, QueryEarliestFinalizedBlock c db = .returned (some blk, none) ∧
      db.earliest = some blk.BlockHeight ∧
      (∃ b ∈ B, b.BlockHeight = blk.BlockHeight) ∧
      ∀ x ∈ B, blk.BlockHeight ≤ x.BlockHeight := by
  have hS := execAll_storeOf _ initDB db [] (storeOf_initDB c) hrun
  rw [List.nil_append] at hS
  have hE := earliest_of_storeOf hS
  rw [head_batchesOf hpre hB] at hE
  obtain ⟨b, hb, -, he, hle⟩ := hE
  have hmem : b ∈ (batchesOf (pre ++ Op.insertBlocks B :: post)).flatten :=
    mem_flatten_batchesOf.mpr ⟨B, by simp, hb⟩
  obtain ⟨b1, hh, hget⟩ := GetBlockByHeight_of_storeOf hc hS hmem
  refine ⟨b1, ?_, ?_, ⟨b, hb, hh.symm⟩, ?_⟩
  · rw [QueryEarliestFinalizedBlock_of_earliest he, hget]
  · rw [hh]; exact he
  · rw [hh]; exact hle

theorem execAll_runOps {c : JSONCodec} : ∀ (ops : List Op) (db : DB),
    (execAll c db ops).isSome = true → execAll c db ops = some (runOps c db ops) := by
  intro ops
  induction ops with
  | nil => intro db _; rfl
  | cons op rest ih =>
    intro db h
    simp only [execAll] at h ⊢
    split
    · rename_i db1 hop
      rw [hop] at h
      simp only at h
      rw [ih db1 h]
      simp [runOps, hop]
    · rename_i hne
      split at h
      · rename_i db1 hop
        exact absurd hop (hne db1)
      · cases h

/-- Witness of `queryEarliest_first_batch`: the batches {5,7,6}, {10}, {1} give
earliest 5, 5, 5 and latest 7, 10, 10. -/
theorem queryEarliest_first_batch_witness :
    ((execAll fixedWidthCodec initDB [Op.insertBlocks batch567]).map
      fun d => (d.earliest, d.latest)) = some (some 5, some 7) ∧
    ((execAll fixedWidthCodec initDB [Op.insertBlocks batch567, Op.insertBlocks batch10]).map
      fun d => (d.earliest, d.latest)) = some (some 5, some 10) ∧
    ((execAll fixedWidthCodec initDB
      [Op.insertBlocks batch567, Op.insertBlocks batch10, Op.insertBlocks batch1]).map
      fun d => (d.earliest, d.latest)) = some (some 5, some 10) ∧
    ∃ blk, QueryEarliestFinalizedBlock fixedWidthCodec (runOps fixedWidthCodec initDB
        [Op.insertBlocks batch567, Op.insertBlocks batch10, Op.insertBlocks batch1])
        = .returned (some blk, none) ∧
      (runOps fixedWidthCodec initDB
        [Op.insertBlocks batch567, Op.insertBlocks batch10, Op.insertBlocks batch1]).earliest
        = some blk.BlockHeight ∧
      (∃ b ∈ batch567, b.BlockHeight = blk.BlockHeight) ∧
      ∀ x ∈ batch567, blk.BlockHeight ≤ x.BlockHeight :=
  ⟨by decide, by decide, by decide,
   queryEarliest_first_batch fixedWidthCodec fixedWidthCodec_keepsHeight []
    [Op.insertBlocks batch10, Op.insertBlocks batch1] batch567 _ (by simp) (by decide)
    (execAll_runOps _ _ (by decide))⟩

/-! ## Monotone latest, atomic insert -/

theorem CreateInitialSchema_indexer {db : DB} (h : db.indexer.isSome = true) :
    (CreateInitialSchema db).1.indexer = db.indexer := by
  obtain ⟨ib, hib⟩ := Option.isSome_iff_exists.mp h
  simp [CreateInitialSchema, Update, createBucketIfNotExists, hib]

theorem SaveActivatedTimestamp_indexerAt (db : DB) (ts : U64) {k : Bytes}
    (hk : k ≠ activatedTimestampKey) :
    (SaveActivatedTimestamp db ts).1.indexerAt k = db.indexerAt k := by
  simp only [SaveActivatedTimestamp, Update]
  cases hi : db.indexer with
  | none => rfl
  | some ib =>
    cases hp : ib.Put activatedTimestampKey (itob ts) with
    | error e => simp only [hp]
    | ok ib1 =>
      obtain ⟨e1, -⟩ := Put_ok hp
      simp [DB.indexerAt, Bucket.Get, hi, hp, e1, hk]

/-- C5: the `latest` bound never decreases. If `latest` is set to `L` before a call of
`InsertBlocks`, `SaveActivatedTimestamp` or `CreateInitialSchema`, it is set to some
`L1 ≥ L` afterwards, and it differs from `L` only when the call is an `InsertBlocks`
whose batch contains a height strictly greater than `L`. -/
theorem latest_monotone (c : JSONCodec) (db : DB) (op : Op) (L : U64)
    (h : db.latest = some L) :
    ∃ L1, (op.apply c db).1.latest = some L1 ∧ L ≤ L1 ∧
      (L1 ≠ L → ∃ B, op = Op.insertBlocks B ∧ ∃ b ∈ B, L < b.BlockHeight) := by
  have keep : ∀ db1 : DB, db1.latest = db.latest → ∃ L1, db1.latest = some L1 ∧ L ≤ L1 ∧
      (L1 ≠ L → ∃ B, op = Op.insertBlocks B ∧ ∃ b ∈ B, L < b.BlockHeight) :=
    fun db1 h1 => ⟨L, h1.trans h, le_refl _, fun hne => absurd rfl hne⟩
  cases op with
  | createInitialSchema =>
    apply keep
    have hi : db.indexer.isSome = true := by
      cases hi : db.indexer with
      | none => simp [DB.latest, DB.indexerAt, hi] at h
      | some ib => rfl
    simp only [Op.apply, DB.latest, DB.indexerAt, CreateInitialSchema_indexer hi]
  | saveActivatedTimestamp ts =>
    apply keep
    simp only [Op.apply, DB.latest]
    rw [SaveActivatedTimestamp_indexerAt db ts activatedTimestampKey_ne_latestBlockKey.symm]
  | insertBlocks B =>
    simp only [Op.apply]
    by_cases hok : (InsertBlocks c db B).2 = .returned none
    · by_cases hB : B = []
      · subst hB
        exact keep _ rfl
      · obtain ⟨bb, hb, ib, bb1, hb1, ib1, mn, mx, cur, e0, e1, -, -, -, -, hmx, hmx2, hcur,
          hib, -⟩ := InsertBlocks_ok hB
          (Prod.ext rfl hok : InsertBlocks c db B = ((InsertBlocks c db B).1, .returned none))
        subst e0
        simp only [DB.latest, DB.indexerAt, Option.bind, Bucket.Get] at h
        have hL : ib1 latestBlockKey =
            if mx > cur then some (itob mx) else ib latestBlockKey := by
          rw [hib]; simp [earliestBlockKey_ne_latestBlockKey.symm]
        cases hl : ib latestBlockKey with
        | none => simp [hl] at h
        | some bs =>
          rw [hl] at h hcur
          simp only at h hcur
          rw [h] at hcur
          cases hcur
          by_cases hgt : mx > L
          · obtain ⟨bx, hbx, hbxe⟩ := hmx2
            refine ⟨mx, ?_, le_of_lt hgt, fun _ => ⟨B, rfl, bx, hbx, by rw [hbxe]; exact hgt⟩⟩
            rw [e1]
            simp [DB.latest, DB.indexerAt, Bucket.Get, hL, hgt, btoi_itob]
          · apply keep
            rw [e1]
            simp [DB.latest, DB.indexerAt, Bucket.Get, hL, hgt, hl]
    · rw [InsertBlocks_fst_of_ne hok]
      exact keep _ rfl

/-- Witness of `latest_monotone`: with `latest = 7`, the insert of a block at height 10
moves it to 10. -/
theorem latest_monotone_witness :
    (runOps fixedWidthCodec initDB [Op.insertBlocks batch567]).latest = some 7 ∧
    ∃ L1, ((Op.insertBlocks batch10).apply fixedWidthCodec
        (runOps fixedWidthCodec initDB [Op.insertBlocks batch567])).1.latest = some L1 ∧
      (7 : U64) ≤ L1 ∧
      (L1 ≠ 7 → ∃ B, Op.insertBlocks batch10 = Op.insertBlocks B ∧
        ∃ b ∈ B, (7 : U64) < b.BlockHeight) :=
  ⟨by decide,
   latest_monotone fixedWidthCodec _ (Op.insertBlocks batch10) 7 (by decide)⟩

/-- C6: `InsertBlocks` is all-or-nothing. If it returns an error, the database after
the call is the database before the call. -/
theorem insertBlocks_error_unchanged (c : JSONCodec) (db : DB) (B : List Block) (e : Error)
    (h : (InsertBlocks c db B).2 = .returned (some e)) : (InsertBlocks c db B).1 = db := by
  apply InsertBlocks_fst_of_ne
  rw [h]
  simp

/-- Witness of `insertBlocks_error_unchanged`: `failingBatch` fails at its second block,
after the transaction has stored the first one; the store is left as it was. -/
theorem insertBlocks_error_unchanged_witness :
    (InsertBlocks fixedWidthCodec initDB failingBatch).2 = .returned (some .ErrKeyRequired) ∧
    (∃ tx, insertBlocksTx fixedWidthCodec failingBatch initDB
        = .returned (tx, some .ErrKeyRequired) ∧ tx.payloadAt 5 ≠ none) ∧
    (InsertBlocks fixedWidthCodec initDB failingBatch).1 = initDB :=
  ⟨by decide, ⟨_, rfl, by decide⟩,
   insertBlocks_error_unchanged fixedWidthCodec initDB failingBatch .ErrKeyRequired
    (by decide)⟩

/-! ## Primary storage and the index -/

/-- C7 (amended): in every state reachable from the initialised empty store by the
public operations, when the blocks handed to `InsertBlocks` pair heights and hashes
one-to-one (two of them have the same height exactly when they have the same hash),
each height present in primary storage has exactly one index entry whose value is that
height; and, with no condition on the blocks, each index entry holds a height that is
present in primary storage. -/
theorem index_pairing (c : JSONCodec) (ops : List Op) :
    ((∀ B1 B2 b1 b2, Op.insertBlocks B1 ∈ ops → Op.insertBlocks B2 ∈ ops → b1 ∈ B1 →
        b2 ∈ B2 → (b1.BlockHeight = b2.BlockHeight ↔ b1.BlockHash = b2.BlockHash)) →
      ∀ h, (runOps c initDB ops).payloadAt h ≠ none →
        ∃! hash, (runOps c initDB ops).indexAt hash = some (itob h)) ∧
    (∀ hash v, (runOps c initDB ops).indexAt hash = some v →
      ∃ h, v = itob h ∧ (runOps c initDB ops).payloadAt h ≠ none) := by
  obtain ⟨extra, hS, hex⟩ := runOps_storeOf ops initDB [] (storeOf_initDB c)
  rw [List.nil_append] at hS
  have hmem : ∀ b ∈ extra.flatten, ∃ B, Op.insertBlocks B ∈ ops ∧ b ∈ B := by
    intro b hb
    obtain ⟨B, hB, hbB⟩ := List.mem_flatten.mp hb
    exact ⟨B, hex B hB, hbB⟩
  constructor
  · intro hpair h hp
    obtain ⟨b, hb, hbh⟩ := payload_some_of_storeOf hS hp
    obtain ⟨b1, hb1, hb1h, hidx⟩ := index_of_storeOf hS hb
    obtain ⟨B, hB, hbB⟩ := hmem b hb
    obtain ⟨B1, hB1, hbB1⟩ := hmem b1 hb1
    have e1 : b1.BlockHeight = b.BlockHeight := (hpair B1 B b1 b hB1 hB hbB1 hbB).mpr hb1h
    refine ⟨b.BlockHash, ?_, ?_⟩
    · show (runOps c initDB ops).indexAt b.BlockHash = some (itob h)
      rw [hidx, e1, hbh]
    · intro y hy
      obtain ⟨b2, hb2, hb2h, hv⟩ := index_some_of_storeOf hS hy
      obtain ⟨B2, hB2, hbB2⟩ := hmem b2 hb2
      have e2 : b2.BlockHeight = b.BlockHeight := by
        rw [hbh]; exact (itob_injective hv).symm
      rw [← hb2h]
      exact (hpair B2 B b2 b hB2 hB hbB2 hbB).mp e2
  · intro hash v hv
    obtain ⟨b1, hb1, -, hve⟩ := index_some_of_storeOf hS hv
    obtain ⟨b2, bs, -, -, -, hp⟩ := payload_of_storeOf hS hb1
    exact ⟨b1.BlockHeight, hve, by rw [hp]; simp⟩

/-- Witness of `index_pairing`: the run that inserts `batch567`. -/
theorem index_pairing_witness :
    (∀ h, (runOps fixedWidthCodec initDB [Op.insertBlocks batch567]).payloadAt h ≠ none →
      ∃! hash, (runOps fixedWidthCodec initDB [Op.insertBlocks batch567]).indexAt hash
        = some (itob h)) ∧
    (runOps fixedWidthCodec initDB [Op.insertBlocks batch567]).payloadAt 7 ≠ none :=
  ⟨(index_pairing fixedWidthCodec [Op.insertBlocks batch567]).1 (by
      intro B1 B2 b1 b2 h1 h2 h3 h4
      simp only [List.mem_singleton, Op.insertBlocks.injEq] at h1 h2
      subst h1 h2
      simp only [batch567, List.mem_cons, List.mem_singleton, List.not_mem_nil, or_false]
        at h3 h4
      rcases h3 with rfl | rfl | rfl <;> rcases h4 with rfl | rfl | rfl <;> decide),
   by decide⟩

/-- C7 as stated fails. After the insert of `dupHeightBatch`, height 5 has two index
entries; after the insert of `dupHashBatch`, height 5 is in primary storage and no index
entry holds it. -/
theorem index_pairing_counterexample :
    ((runOps fixedWidthCodec initDB [Op.insertBlocks dupHeightBatch]).payloadAt 5 ≠ none ∧
      (runOps fixedWidthCodec initDB [Op.insertBlocks dupHeightBatch]).indexAt [0x61]
        = some (itob 5) ∧
      (runOps fixedWidthCodec initDB [Op.insertBlocks dupHeightBatch]).indexAt [0x62]
        = some (itob 5) ∧
      ([0x61] : Bytes) ≠ [0x62]) ∧
    ((runOps fixedWidthCodec initDB [Op.insertBlocks dupHashBatch]).payloadAt 5 ≠ none ∧
      ¬ ∃ hash, (runOps fixedWidthCodec initDB [Op.insertBlocks dupHashBatch]).indexAt hash
        = some (itob 5)) := by
  refine ⟨⟨by decide, by decide, by decide, by decide⟩, by decide, ?_⟩
  rintro ⟨hash, hh⟩
  have hS := execAll_storeOf [Op.insertBlocks dupHashBatch] initDB _ []
    (storeOf_initDB fixedWidthCodec) (execAll_runOps _ _ (by decide))
  obtain ⟨b1, hb1, hb1h, hv⟩ := index_some_of_storeOf hS hh
  have h5 : b1.BlockHeight = 5 := (itob_injective hv).symm
  have hmem : b1 = mkBlock [0x61] 5 0 ∨ b1 = mkBlock [0x61] 6 0 := by
    simpa [batchesOf, Op.blocks, dupHashBatch] using hb1
  rcases hmem with rfl | rfl
  · subst hb1h
    revert hh
    decide
  · revert h5
    decide

/-! ## Bounds name stored heights -/

theorem GetBlockByHeight_ne_notFound {c : JSONCodec} {db : DB} {h : U64} {bs : Bytes}
    (hp : db.payloadAt h = some bs) :
    GetBlockByHeight c db h ≠ .returned (none, some .ErrBlockNotFound) := by
  unfold DB.payloadAt at hp
  unfold GetBlockByHeight
  cases hb : db.blocks with
  | none => simp [hb] at hp
  | some bb =>
    simp only [hb, Option.bind] at hp
    simp only [hp]
    cases c.Unmarshal bs <;> simp

/-- C8: in every state reachable from the initialised empty store by the public
operations, a bound that is set names a height present in primary storage; the query of
that bound is the lookup at that height, and this lookup does not fail with
`ErrBlockNotFound`. -/
theorem bounds_name_stored_heights (c : JSONCodec) (db : DB) (hr : Reachable c db) :
    (∀ e, db.earliest = some e → db.payloadAt e ≠ none ∧
      QueryEarliestFinalizedBlock c db = GetBlockByHeight c db e ∧
      GetBlockByHeight c db e ≠ .returned (none, some .ErrBlockNotFound)) ∧
    (∀ l, db.latest = some l → db.payloadAt l ≠ none ∧
      QueryLatestFinalizedBlock c db = GetBlockByHeight c db l ∧
      GetBlockByHeight c db l ≠ .returned (none, some .ErrBlockNotFound)) := by
  obtain ⟨batches, hS⟩ := hr.storeOf
  constructor
  · intro e he
    have hE := earliest_of_storeOf hS
    cases batches with
    | nil =>
      simp only [List.head?_nil] at hE
      simp [DB.earliest, hE] at he
    | cons B0 rest =>
      simp only [List.head?_cons] at hE
      obtain ⟨b, hb, -, he2, -⟩ := hE
      rw [he2] at he
      cases he
      have hmem : b ∈ (B0 :: rest).flatten := by
        rw [List.flatten_cons]; exact List.mem_append_left _ hb
      obtain ⟨b1, bs, -, -, -, hp⟩ := payload_of_storeOf hS hmem
      exact ⟨by rw [hp]; simp, QueryEarliestFinalizedBlock_of_earliest he2,
        GetBlockByHeight_ne_notFound hp⟩
  · intro l hl
    rcases latest_of_storeOf hS with ⟨hn, -⟩ | ⟨b, hb, -, hl2, -, -⟩
    · simp [DB.latest, hn] at hl
    · rw [hl2] at hl
      cases hl
      obtain ⟨b1, bs, -, -, -, hp⟩ := payload_of_storeOf hS hb
      exact ⟨by rw [hp]; simp, QueryLatestFinalizedBlock_of_latest hl2,
        GetBlockByHeight_ne_notFound hp⟩

/-- Witness of `bounds_name_stored_heights`: the store after the three batches
{5,7,6}, {10}, {1}, whose bounds are 5 and 10. -/
theorem bounds_name_stored_heights_witness :
    (runOps fixedWidthCodec initDB
      [Op.insertBlocks batch567, Op.insertBlocks batch10, Op.insertBlocks batch1]).earliest
      = some 5 ∧
    (runOps fixedWidthCodec initDB
      [Op.insertBlocks batch567, Op.insertBlocks batch10, Op.insertBlocks batch1]).latest
      = some 10 ∧
    (runOps fixedWidthCodec initDB
      [Op.insertBlocks batch567, Op.insertBlocks batch10, Op.insertBlocks batch1]).payloadAt 5
      ≠ none ∧
    (runOps fixedWidthCodec initDB
      [Op.insertBlocks batch567, Op.insertBlocks batch10, Op.insertBlocks batch1]).payloadAt 10
      ≠ none :=
  ⟨by decide, by decide,
   ((bounds_name_stored_heights fixedWidthCodec _ ⟨_, rfl⟩).1 5 (by decide)).1,
   ((bounds_name_stored_heights fixedWidthCodec _ ⟨_, rfl⟩).2 10 (by decide)).1⟩

/-! ## Finality queries -/

theorem QueryIsBlockFinalizedByHash_of_index {c : JSONCodec} {db : DB} {x : Bytes} {h : U64}
    (hi : db.indexAt x = some (itob h)) :
    QueryIsBlockFinalizedByHash c db x = QueryIsBlockFinalizedByHeight c db h := by
  unfold DB.indexAt at hi
  unfold QueryIsBlockFinalizedByHash
  cases hb : db.blockHeights with
  | none => simp [hb] at hi
  | some bb =>
    simp only [hb, Option.bind] at hi
    simp [hi, itob_length, btoi_itob]

theorem GetBlockByHash_of_index {c : JSONCodec} {db : DB} {x : Bytes} {h : U64}
    (hi : db.indexAt x = some (itob h)) :
    GetBlockByHash c db x = GetBlockByHeight c db h := by
  unfold DB.indexAt at hi
  unfold GetBlockByHash
  cases hb : db.blockHeights with
  | none => simp [hb] at hi
  | some bb =>
    simp only [hb, Option.bind] at hi
    simp [hi, btoi_itob]

theorem queries_of_index_none {c : JSONCodec} {db : DB} {x : Bytes}
    (hs : db.blockHeights.isSome = true) (hi : db.indexAt x = none) :
    QueryIsBlockFinalizedByHash c db x = .returned (false, none) ∧
    GetBlockByHash c db x = .returned (none, some .ErrBlockNotFound) := by
  unfold DB.indexAt at hi
  unfold QueryIsBlockFinalizedByHash GetBlockByHash
  cases hb : db.blockHeights with
  | none => simp [hb] at hs
  | some bb =>
    simp only [hb, Option.bind] at hi
    simp [hi]

theorem QueryIsBlockFinalizedByHeight_of_found {c : JSONCodec} {db : DB} {h : U64} {b : Block}
    (hg : GetBlockByHeight c db h = .returned (some b, none)) :
    QueryIsBlockFinalizedByHeight c db h = .returned (true, none) := by
  simp [QueryIsBlockFinalizedByHeight, hg]

theorem QueryIsBlockFinalizedByHeight_of_notFound {c : JSONCodec} {db : DB} {h : U64}
    (hg : GetBlockByHeight c db h = .returned (none, some .ErrBlockNotFound)) :
    QueryIsBlockFinalizedByHeight c db h = .returned (false, none) := by
  simp [QueryIsBlockFinalizedByHeight, hg]

/-- C9: in any state reached from the initialised empty store by successful calls, for
every height `h`, `QueryIsBlockFinalizedByHeight(h)` returns `(true, nil)` if some
inserted block has height `h` and `(false, nil)` if none has. -/
theorem isFinalizedByHeight_of_inserted (c : JSONCodec) (hc : c.KeepsHeight) (ops : List Op)
    (db : DB) (hrun : execAll c initDB ops = some db) (h : U64) :
    ((∃ B b, Op.insertBlocks B ∈ ops ∧ b ∈ B ∧ b.BlockHeight = h) →
      QueryIsBlockFinalizedByHeight c db h = .returned (true, none)) ∧
    ((¬ ∃ B b, Op.insertBlocks B ∈ ops ∧ b ∈ B ∧ b.BlockHeight = h) →
      QueryIsBlockFinalizedByHeight c db h = .returned (false, none)) := by
  have hS := execAll_storeOf ops initDB db [] (storeOf_initDB c) hrun
  rw [List.nil_append] at hS
  constructor
  · rintro ⟨B, b, hB, hb, rfl⟩
    obtain ⟨b1, -, hg⟩ := GetBlockByHeight_of_storeOf hc hS
      (mem_flatten_batchesOf.mpr ⟨B, hB, hb⟩)
    exact QueryIsBlockFinalizedByHeight_of_found hg
  · intro hne
    have hp : db.payloadAt h = none := by
      apply payload_none_of_storeOf hS
      intro b hb he
      obtain ⟨B, hB, hbB⟩ := mem_flatten_batchesOf.mp hb
      exact hne ⟨B, b, hB, hbB, he⟩
    have hi : db.blocks.isSome = true := by
      obtain ⟨bb, hb0, ib, rfl, -⟩ := hS
      rfl
    exact QueryIsBlockFinalizedByHeight_of_notFound (GetBlockByHeight_of_payload_none hi hp)

/-- Witness of `isFinalizedByHeight_of_inserted`: after the batches {5,7,6} and {10},
height 6 is finalized and height 8 is not. -/
theorem isFinalizedByHeight_of_inserted_witness :
    QueryIsBlockFinalizedByHeight fixedWidthCodec
      (runOps fixedWidthCodec initDB [Op.insertBlocks batch567, Op.insertBlocks batch10]) 6
      = .returned (true, none) ∧
    QueryIsBlockFinalizedByHeight fixedWidthCodec
      (runOps fixedWidthCodec initDB [Op.insertBlocks batch567, Op.insertBlocks batch10]) 8
      = .returned (false, none) :=
  ⟨(isFinalizedByHeight_of_inserted fixedWidthCodec fixedWidthCodec_keepsHeight
      [Op.insertBlocks batch567, Op.insertBlocks batch10] _
      (execAll_runOps _ _ (by decide)) 6).1
      ⟨batch567, mkBlock [0x63] 6 0, by simp, by decide, rfl⟩,
   (isFinalizedByHeight_of_inserted fixedWidthCodec fixedWidthCodec_keepsHeight
      [Op.insertBlocks batch567, Op.insertBlocks batch10] _
      (execAll_runOps _ _ (by decide)) 8).2 (by
        rintro ⟨B, b, hB, hb, hh⟩
        simp only [List.mem_cons, List.mem_singleton, Op.insertBlocks.injEq,
          List.not_mem_nil, or_false] at hB
        rcases hB with rfl | rfl
        · simp only [batch567, List.mem_cons, List.mem_singleton, List.not_mem_nil,
            or_false] at hb
          rcases hb with rfl | rfl | rfl <;> revert hh <;> decide
        · simp only [batch10, List.mem_singleton] at hb
          subst hb
          revert hh
          decide)⟩

/-- C10: in any state reached from the initialised empty store by successful calls, for
every hash `x`, `QueryIsBlockFinalizedByHash(x)` returns `(true, nil)` if and only if
some inserted block has hash `x`; otherwise it returns `(false, nil)` and
`GetBlockByHash(x)` fails with `ErrBlockNotFound`. -/
theorem isFinalizedByHash_iff_inserted (c : JSONCodec) (hc : c.KeepsHeight) (ops : List Op)
    (db : DB) (hrun : execAll c initDB ops = some db) (x : Bytes) :
    (QueryIsBlockFinalizedByHash c db x = .returned (true, none) ↔
      ∃ B b, Op.insertBlocks B ∈ ops ∧ b ∈ B ∧ b.BlockHash = x) ∧
    ((¬ ∃ B b, Op.insertBlocks B ∈ ops ∧ b ∈ B ∧ b.BlockHash = x) →
      QueryIsBlockFinalizedByHash c db x = .returned (false, none) ∧
      GetBlockByHash c db x = .returned (none, some .ErrBlockNotFound)) := by
  have hS := execAll_storeOf ops initDB db [] (storeOf_initDB c) hrun
  rw [List.nil_append] at hS
  have hno : (¬ ∃ B b, Op.insertBlocks B ∈ ops ∧ b ∈ B ∧ b.BlockHash = x) →
      QueryIsBlockFinalizedByHash c db x = .returned (false, none) ∧
      GetBlockByHash c db x = .returned (none, some .ErrBlockNotFound) := by
    intro hne
    have hi : db.indexAt x = none := by
      apply index_none_of_storeOf hS
      intro b hb he
      obtain ⟨B, hB, hbB⟩ := mem_flatten_batchesOf.mp hb
      exact hne ⟨B, b, hB, hbB, he⟩
    have hs : db.blockHeights.isSome = true := by
      obtain ⟨bb, hb0, ib, rfl, -⟩ := hS
      rfl
    exact queries_of_index_none hs hi
  refine ⟨⟨?_, ?_⟩, hno⟩
  · intro hq
    by_contra hne
    rw [(hno hne).1] at hq
    simp at hq
  · rintro ⟨B, b, hB, hb, rfl⟩
    obtain ⟨b1, hb1, -, hidx⟩ := index_of_storeOf hS (mem_flatten_batchesOf.mpr ⟨B, hB, hb⟩)
    obtain ⟨b2, -, hg⟩ := GetBlockByHeight_of_storeOf hc hS hb1
    rw [QueryIsBlockFinalizedByHash_of_index hidx]
    exact QueryIsBlockFinalizedByHeight_of_found hg

/-- Witness of `isFinalizedByHash_iff_inserted`: after the batch {5,7,6}, the hash `"b"`
is finalized and the hash `"z"` is unknown. -/
theorem isFinalizedByHash_iff_inserted_witness :
    QueryIsBlockFinalizedByHash fixedWidthCodec
      (runOps fixedWidthCodec initDB [Op.insertBlocks batch567]) [0x62]
      = .returned (true, none) ∧
    (QueryIsBlockFinalizedByHash fixedWidthCodec
      (runOps fixedWidthCodec initDB [Op.insertBlocks batch567]) [0x7a]
      = .returned (false, none) ∧
     GetBlockByHash fixedWidthCodec
      (runOps fixedWidthCodec initDB [Op.insertBlocks batch567]) [0x7a]
      = .returned (none, some .ErrBlockNotFound)) :=
  ⟨(isFinalizedByHash_iff_inserted fixedWidthCodec fixedWidthCodec_keepsHeight
      [Op.insertBlocks batch567] _ (execAll_runOps _ _ (by decide)) [0x62]).1.mpr
      ⟨batch567, mkBlock [0x62] 7 0, by simp, by decide, rfl⟩,
   (isFinalizedByHash_iff_inserted fixedWidthCodec fixedWidthCodec_keepsHeight
      [Op.insertBlocks batch567] _ (execAll_runOps _ _ (by decide)) [0x7a]).2 (by
        rintro ⟨B, b, hB, hb, hh⟩
        simp only [List.mem_singleton, Op.insertBlocks.injEq] at hB
        subst hB
        simp only [batch567, List.mem_cons, List.mem_singleton, List.not_mem_nil,
          or_false] at hb
        rcases hb with rfl | rfl | rfl <;> revert hh <;> decide)⟩

/-! ## Frame properties of the calls -/

/-- C12: `InsertBlocks` with an empty batch returns `nil` and leaves the store as it
was: no block, index entry or bound is written. -/
theorem insertBlocks_empty_noop (c : JSONCodec) (db : DB) :
    InsertBlocks c db [] = (db, .returned none) := rfl

/-- An `InsertBlocks` call either leaves the store as it was, or is the successful
insert of a non-empty batch. -/
theorem InsertBlocks_cases (c : JSONCodec) (db : DB) (B : List Block) :
    (InsertBlocks c db B).1 = db ∨
    (B ≠ [] ∧ InsertBlocks c db B = ((InsertBlocks c db B).1, .returned none)) := by
  by_cases hok : (InsertBlocks c db B).2 = .returned none
  · by_cases hB : B = []
    · subst hB; exact Or.inl rfl
    · exact Or.inr ⟨hB, Prod.ext rfl hok⟩
  · exact Or.inl (InsertBlocks_fst_of_ne hok)

/-- `InsertBlocks` writes no key of the indexer bucket other than the two bounds, and
does not create or remove the bucket. -/
theorem InsertBlocks_indexer_frame (c : JSONCodec) (db : DB) (B : List Block) :
    (InsertBlocks c db B).1.indexer.isSome = db.indexer.isSome ∧
    ∀ k, k ≠ earliestBlockKey → k ≠ latestBlockKey →
      (InsertBlocks c db B).1.indexerAt k = db.indexerAt k := by
  rcases InsertBlocks_cases c db B with h | ⟨hB, h⟩
  · rw [h]; exact ⟨rfl, fun _ _ _ => rfl⟩
  · obtain ⟨bb, hb, ib, bb1, hb1, ib1, mn, mx, cur, e0, e1, -, -, -, -, -, -, -, hib, -⟩ :=
      InsertBlocks_ok hB h
    rw [e1, e0]
    refine ⟨rfl, ?_⟩
    intro k hk1 hk2
    simp [DB.indexerAt, Bucket.Get, hib, hk1, hk2]

theorem GetActivatedTimestamp_congr {db db1 : DB}
    (h1 : db1.indexer.isSome = db.indexer.isSome)
    (h2 : db1.indexerAt activatedTimestampKey = db.indexerAt activatedTimestampKey) :
    GetActivatedTimestamp db1 = GetActivatedTimestamp db := by
  unfold GetActivatedTimestamp
  unfold DB.indexerAt at h2
  cases hi : db.indexer with
  | none =>
    cases hi1 : db1.indexer with
    | none => rfl
    | some ib1 => simp [hi, hi1] at h1
  | some ib =>
    cases hi1 : db1.indexer with
    | none => simp [hi, hi1] at h1
    | some ib1 =>
      simp only [hi, hi1, Option.bind] at h2
      simp only [h2]

theorem SaveActivatedTimestamp_frame (db : DB) (ts : U64) :
    (SaveActivatedTimestamp db ts).1.blocks = db.blocks ∧
    (SaveActivatedTimestamp db ts).1.blockHeights = db.blockHeights ∧
    (SaveActivatedTimestamp db ts).1.indexer.isSome = db.indexer.isSome := by
  simp only [SaveActivatedTimestamp, Update]
  cases hi : db.indexer with
  | none => exact ⟨rfl, rfl, by rw [hi]⟩
  | some ib =>
    cases hp : ib.Put activatedTimestampKey (itob ts) with
    | error e => simp [hp, hi]
    | ok ib1 => simp [hp]

/-- C20: the activation timestamp and the block data are independent. `InsertBlocks`
does not change the result of `GetActivatedTimestamp`; `SaveActivatedTimestamp` changes
neither primary storage, nor the index, nor the `earliest` and `latest` bounds. -/
theorem timestamp_blocks_independent (c : JSONCodec) (db : DB) (B : List Block) (ts : U64) :
    GetActivatedTimestamp (InsertBlocks c db B).1 = GetActivatedTimestamp db ∧
    (SaveActivatedTimestamp db ts).1.blocks = db.blocks ∧
    (SaveActivatedTimestamp db ts).1.blockHeights = db.blockHeights ∧
    (SaveActivatedTimestamp db ts).1.indexerAt earliestBlockKey
      = db.indexerAt earliestBlockKey ∧
    (SaveActivatedTimestamp db ts).1.indexerAt latestBlockKey = db.indexerAt latestBlockKey ∧
    (SaveActivatedTimestamp db ts).1.earliest = db.earliest ∧
    (SaveActivatedTimestamp db ts).1.latest = db.latest := by
  have hE := SaveActivatedTimestamp_indexerAt db ts
    activatedTimestampKey_ne_earliestBlockKey.symm
  have hL := SaveActivatedTimestamp_indexerAt db ts activatedTimestampKey_ne_latestBlockKey.symm
  obtain ⟨f1, f2⟩ := InsertBlocks_indexer_frame c db B
  refine ⟨GetActivatedTimestamp_congr f1
      (f2 _ activatedTimestampKey_ne_earliestBlockKey activatedTimestampKey_ne_latestBlockKey),
    (SaveActivatedTimestamp_frame db ts).1, (SaveActivatedTimestamp_frame db ts).2.1,
    hE, hL, ?_, ?_⟩
  · simp only [DB.earliest, hE]
  · simp only [DB.latest, hL]

/-! ## Schema creation, activation timestamp, unset bounds -/

theorem CreateInitialSchema_fst (db : DB) :
    (CreateInitialSchema db).1 = ⟨createBucketIfNotExists db.blocks,
      createBucketIfNotExists db.blockHeights, createBucketIfNotExists db.indexer⟩ := rfl

theorem createBucketIfNotExists_bind (slot : Option Bucket) (k : Bytes) :
    ((createBucketIfNotExists slot).bind fun b => b.Get k) = slot.bind fun b => b.Get k := by
  cases slot <;> rfl

theorem createBucketIfNotExists_idem (slot : Option Bucket) :
    createBucketIfNotExists (createBucketIfNotExists slot) = createBucketIfNotExists slot := by
  cases slot <;> rfl

theorem CreateInitialSchema_idem (db : DB) :
    (CreateInitialSchema (CreateInitialSchema db).1).1 = (CreateInitialSchema db).1 := by
  simp only [CreateInitialSchema_fst, createBucketIfNotExists_idem]

theorem CreateInitialSchema_iterate (db : DB) : ∀ n : Nat,
    Nat.iterate (fun d => (CreateInitialSchema d).1) (n + 1) db = (CreateInitialSchema db).1 := by
  intro n
  induction n with
  | zero => rfl
  | succ n ih =>
    rw [Function.iterate_succ_apply', ih, CreateInitialSchema_idem]

/-- C16: `CreateInitialSchema` is idempotent and non-destructive. On any store state it
returns `nil`, leaves the three buckets existing, keeps every bucket that existed as it
was, hence every stored block, index entry, bound and the activation timestamp; and
calling it `n ≥ 1` times gives the state that one call gives. -/
theorem createInitialSchema_idempotent (db : DB) (n : Nat) (hn : 1 ≤ n) :
    (CreateInitialSchema db).2 = .returned none ∧
    (CreateInitialSchema db).1.Initialised ∧
    (∀ b, db.blocks = some b → (CreateInitialSchema db).1.blocks = some b) ∧
    (∀ b, db.blockHeights = some b → (CreateInitialSchema db).1.blockHeights = some b) ∧
    (∀ b, db.indexer = some b → (CreateInitialSchema db).1.indexer = some b) ∧
    (∀ h, (CreateInitialSchema db).1.payloadAt h = db.payloadAt h) ∧
    (∀ x, (CreateInitialSchema db).1.indexAt x = db.indexAt x) ∧
    (∀ k, (CreateInitialSchema db).1.indexerAt k = db.indexerAt k) ∧
    Nat.iterate (fun d => (CreateInitialSchema d).1) n db = (CreateInitialSchema db).1 ∧
    (CreateInitialSchema (Nat.iterate (fun d => (CreateInitialSchema d).1) n db)).2
      = .returned none := by
  refine ⟨rfl, ?_, ?_, ?_, ?_, ?_, ?_, ?_, ?_, rfl⟩
  · rw [CreateInitialSchema_fst]
    refine ⟨?_, ?_, ?_⟩
    · cases db.blocks <;> rfl
    · cases db.blockHeights <;> rfl
    · cases db.indexer <;> rfl
  · intro b hb; rw [CreateInitialSchema_fst, hb]; rfl
  · intro b hb; rw [CreateInitialSchema_fst, hb]; rfl
  · intro b hb; rw [CreateInitialSchema_fst, hb]; rfl
  · intro h
    simp only [DB.payloadAt, CreateInitialSchema_fst, createBucketIfNotExists_bind]
  · intro x
    simp only [DB.indexAt, CreateInitialSchema_fst, createBucketIfNotExists_bind]
  · intro k
    simp only [DB.indexerAt, CreateInitialSchema_fst, createBucketIfNotExists_bind]
  · obtain ⟨m, rfl⟩ : ∃ m, n = m + 1 := ⟨n - 1, by omega⟩
    exact CreateInitialSchema_iterate db m

/-- Witness of `createInitialSchema_idempotent`: three calls on the store that holds
the batch {5,7,6}. -/
theorem createInitialSchema_idempotent_witness :
    (1 ≤ 3) ∧
    Nat.iterate (fun d => (CreateInitialSchema d).1) 3
      (runOps fixedWidthCodec initDB [Op.insertBlocks batch567])
      = (CreateInitialSchema (runOps fixedWidthCodec initDB [Op.insertBlocks batch567])).1 ∧
    ∀ h, (CreateInitialSchema
        (runOps fixedWidthCodec initDB [Op.insertBlocks batch567])).1.payloadAt h
      = (runOps fixedWidthCodec initDB [Op.insertBlocks batch567]).payloadAt h :=
  ⟨by decide,
   (createInitialSchema_idempotent _ 3 (by decide)).2.2.2.2.2.2.2.2.1,
   (createInitialSchema_idempotent _ 3 (by decide)).2.2.2.2.2.1⟩

/-- In a run from the initialised empty store without a `SaveActivatedTimestamp` call,
the indexer bucket exists and has no activation timestamp. -/
theorem runOps_no_timestamp (c : JSONCodec) : ∀ (ops : List Op) (db : DB),
    db.indexer.isSome = true → db.indexerAt activatedTimestampKey = none →
    (∀ t, Op.saveActivatedTimestamp t ∉ ops) →
    (runOps c db ops).indexer.isSome = true ∧
    (runOps c db ops).indexerAt activatedTimestampKey = none := by
  intro ops
  induction ops with
  | nil => intro db h1 h2 _; exact ⟨h1, h2⟩
  | cons op rest ih =>
    intro db h1 h2 hno
    have hrest : ∀ t, Op.saveActivatedTimestamp t ∉ rest :=
      fun t ht => hno t (List.mem_cons_of_mem _ ht)
    have hstep : (op.apply c db).1.indexer.isSome = true ∧
        (op.apply c db).1.indexerAt activatedTimestampKey = none := by
      cases op with
      | createInitialSchema =>
        simp only [Op.apply]
        have := CreateInitialSchema_indexer h1
        exact ⟨by rw [this]; exact h1, by simp only [DB.indexerAt, this]; exact h2⟩
      | saveActivatedTimestamp t => exact absurd (List.mem_cons_self _ _) (hno t)
      | insertBlocks B =>
        simp only [Op.apply]
        obtain ⟨f1, f2⟩ := InsertBlocks_indexer_frame c db B
        exact ⟨f1.trans h1,
          (f2 _ activatedTimestampKey_ne_earliestBlockKey
            activatedTimestampKey_ne_latestBlockKey).trans h2⟩
    exact ih _ hstep.1 hstep.2 hrest

/-- C15: on a store reached from the initialised empty store without a call of
`SaveActivatedTimestamp`, `GetActivatedTimestamp` returns `MaxUint64` with
`ErrActivatedTimestampNotFound`, an error other than `ErrBlockNotFound`; and on any
store, after `SaveActivatedTimestamp(ts)` has succeeded, `GetActivatedTimestamp` returns
`ts` and no error. -/
theorem activatedTimestamp_get_save (c : JSONCodec) (ops : List Op) (db : DB) (ts : U64) :
    ((∀ t, Op.saveActivatedTimestamp t ∉ ops) →
      GetActivatedTimestamp (runOps c initDB ops)
        = .returned (MaxUint64, some .ErrActivatedTimestampNotFound)) ∧
    Error.ErrActivatedTimestampNotFound ≠ Error.ErrBlockNotFound ∧
    ((SaveActivatedTimestamp db ts).2 = .returned none →
      GetActivatedTimestamp (SaveActivatedTimestamp db ts).1 = .returned (ts, none)) := by
  refine ⟨?_, by simp, ?_⟩
  · intro hno
    obtain ⟨h1, h2⟩ := runOps_no_timestamp c ops initDB rfl rfl hno
    obtain ⟨ib, hib⟩ := Option.isSome_iff_exists.mp h1
    simp only [DB.indexerAt, hib, Option.bind] at h2
    simp [GetActivatedTimestamp, hib, h2]
  · intro hok
    simp only [SaveActivatedTimestamp, Update] at hok ⊢
    cases hi : db.indexer with
    | none => simp [hi] at hok
    | some ib =>
      cases hp : ib.Put activatedTimestampKey (itob ts) with
      | error e => simp [hi, hp] at hok
      | ok ib1 =>
        obtain ⟨e1, -⟩ := Put_ok hp
        simp [GetActivatedTimestamp, hp, e1, Bucket.Get, btoi_itob]

/-- Witness of `activatedTimestamp_get_save`: no timestamp after an insert; the saved
value 42 is read back, also over a stored 7. -/
theorem activatedTimestamp_get_save_witness :
    GetActivatedTimestamp (runOps fixedWidthCodec initDB [Op.insertBlocks batch567])
      = .returned (MaxUint64, some .ErrActivatedTimestampNotFound) ∧
    (SaveActivatedTimestamp (SaveActivatedTimestamp initDB 7).1 42).2 = .returned none ∧
    GetActivatedTimestamp (SaveActivatedTimestamp (SaveActivatedTimestamp initDB 7).1 42).1
      = .returned (42, none) :=
  ⟨(activatedTimestamp_get_save fixedWidthCodec [Op.insertBlocks batch567] initDB 0).1
      (by simp),
   by decide,
   (activatedTimestamp_get_save fixedWidthCodec [] (SaveActivatedTimestamp initDB 7).1 42).2.2
      (by decide)⟩

/-- C14: on a store reached from the initialised empty store without inserting a block,
so that no bound has been set, `QueryEarliestFinalizedBlock` fails with
`ErrBlockNotFound` and `QueryLatestFinalizedBlock` returns a nil block and a nil error. -/
theorem queries_without_bounds (c : JSONCodec) (ops : List Op)
    (hno : ∀ B, Op.insertBlocks B ∈ ops → B = []) :
    QueryEarliestFinalizedBlock c (runOps c initDB ops)
      = .returned (none, some .ErrBlockNotFound) ∧
    QueryLatestFinalizedBlock c (runOps c initDB ops) = .returned (none, none) := by
  obtain ⟨extra, hS, hex⟩ := runOps_storeOf ops initDB [] (storeOf_initDB c)
  rw [List.nil_append] at hS
  have hnil : extra = [] := by
    apply List.eq_nil_iff_forall_not_mem.mpr
    intro B hB
    obtain ⟨bb, hb, ib, -, hI⟩ := hS
    exact hI.nonempty B hB (hno B (hex B hB))
  subst hnil
  have hE := earliest_of_storeOf hS
  simp only [List.head?_nil] at hE
  have hL : (runOps c initDB ops).indexerAt latestBlockKey = none := by
    rcases latest_of_storeOf hS with ⟨hn, -⟩ | ⟨b, hb, -⟩
    · exact hn
    · simp at hb
  obtain ⟨bb, hb, ib, hdb, -⟩ := hS
  rw [hdb] at hE hL ⊢
  simp only [DB.indexerAt, Option.bind] at hE hL
  simp [QueryEarliestFinalizedBlock, QueryLatestFinalizedBlock, hE, hL]

/-- Witness of `queries_without_bounds`: the initialised empty store after an empty
batch and a saved timestamp. -/
theorem queries_without_bounds_witness :
    QueryEarliestFinalizedBlock fixedWidthCodec
      (runOps fixedWidthCodec initDB [Op.insertBlocks [], Op.saveActivatedTimestamp 7])
      = .returned (none, some .ErrBlockNotFound) ∧
    QueryLatestFinalizedBlock fixedWidthCodec
      (runOps fixedWidthCodec initDB [Op.insertBlocks [], Op.saveActivatedTimestamp 7])
      = .returned (none, none) :=
  queries_without_bounds fixedWidthCodec [Op.insertBlocks [], Op.saveActivatedTimestamp 7]
    (by
      intro B hB
      simp only [List.mem_cons, List.mem_singleton, Op.insertBlocks.injEq,
        List.not_mem_nil, or_false] at hB
      rcases hB with rfl | hB
      · rfl
      · cases hB)

/-! ## What a call does to stored entries -/

/-- Primary storage at a height after `InsertBlocks`: the former payload, or the
encoding of a block of the batch with that height. -/
theorem InsertBlocks_payloadAt (c : JSONCodec) (db : DB) (B : List Block) (h : U64) :
    (InsertBlocks c db B).1.payloadAt h = db.payloadAt h ∨
    ∃ b ∈ B, b.BlockHeight = h ∧ ∃ bs, c.Marshal b = .ok bs ∧
      (InsertBlocks c db B).1.payloadAt h = some bs := by
  rcases InsertBlocks_cases c db B with hu | ⟨hB, hok⟩
  · rw [hu]; exact Or.inl rfl
  · obtain ⟨bb, hb, ib, bb1, hb1, ib1, mn, mx, cur, e0, e1, hbb, -, -, -, -, -, -, -, hacc⟩ :=
      InsertBlocks_ok hB hok
    rw [e1, e0]
    simp only [DB.payloadAt, Option.bind, Bucket.Get]
    rw [hbb]
    cases hl : lastWith (fun b => decide (itob b.BlockHeight = itob h)) B with
    | none => exact Or.inl rfl
    | some b =>
      obtain ⟨hmem, hp⟩ := lastWith_some hl
      obtain ⟨-, bs, hbs⟩ := hacc b hmem
      refine Or.inr ⟨b, hmem, itob_injective (of_decide_eq_true hp), bs, hbs, ?_⟩
      simp [hbs, Except.toOption]

/-- The index entry of a hash after `InsertBlocks`: the former entry, or the height key
of a block of the batch with that hash. -/
theorem InsertBlocks_indexAt (c : JSONCodec) (db : DB) (B : List Block) (x : Bytes) :
    (InsertBlocks c db B).1.indexAt x = db.indexAt x ∨
    ∃ b ∈ B, b.BlockHash = x ∧
      (InsertBlocks c db B).1.indexAt x = some (itob b.BlockHeight) := by
  rcases InsertBlocks_cases c db B with hu | ⟨hB, hok⟩
  · rw [hu]; exact Or.inl rfl
  · obtain ⟨bb, hb, ib, bb1, hb1, ib1, mn, mx, cur, e0, e1, -, hhb, -, -, -, -, -, -, -⟩ :=
      InsertBlocks_ok hB hok
    rw [e1, e0]
    simp only [DB.indexAt, Option.bind, Bucket.Get]
    rw [hhb]
    cases hl : lastWith (fun b => decide (b.BlockHash = x)) B with
    | none => exact Or.inl rfl
    | some b =>
      obtain ⟨hmem, hp⟩ := lastWith_some hl
      exact Or.inr ⟨b, hmem, of_decide_eq_true hp, rfl⟩

theorem CreateInitialSchema_payloadAt (db : DB) (h : U64) :
    (CreateInitialSchema db).1.payloadAt h = db.payloadAt h := by
  simp only [DB.payloadAt, CreateInitialSchema_fst, createBucketIfNotExists_bind]

theorem CreateInitialSchema_indexAt (db : DB) (x : Bytes) :
    (CreateInitialSchema db).1.indexAt x = db.indexAt x := by
  simp only [DB.indexAt, CreateInitialSchema_fst, createBucketIfNotExists_bind]

/-- Primary storage at a height after any call: the former payload, or the encoding of
a block of the inserted batch with that height. -/
theorem apply_payloadAt (c : JSONCodec) (db : DB) (op : Op) (h : U64) :
    (op.apply c db).1.payloadAt h = db.payloadAt h ∨
    ∃ B b, op = Op.insertBlocks B ∧ b ∈ B ∧ b.BlockHeight = h ∧ ∃ bs, c.Marshal b = .ok bs ∧
      (op.apply c db).1.payloadAt h = some bs := by
  cases op with
  | createInitialSchema => exact Or.inl (CreateInitialSchema_payloadAt db h)
  | saveActivatedTimestamp ts =>
    left
    simp only [Op.apply, DB.payloadAt, (SaveActivatedTimestamp_frame db ts).1]
  | insertBlocks B =>
    rcases InsertBlocks_payloadAt c db B h with hu | ⟨b, hb, hh, bs, hbs, hp⟩
    · exact Or.inl hu
    · exact Or.inr ⟨B, b, rfl, hb, hh, bs, hbs, hp⟩

/-- The index entry of a hash after any call: the former entry, or the height key of a
block of the inserted batch with that hash. -/
theorem apply_indexAt (c : JSONCodec) (db : DB) (op : Op) (x : Bytes) :
    (op.apply c db).1.indexAt x = db.indexAt x ∨
    ∃ B b, op = Op.insertBlocks B ∧ b ∈ B ∧ b.BlockHash = x ∧
      (op.apply c db).1.indexAt x = some (itob b.BlockHeight) := by
  cases op with
  | createInitialSchema => exact Or.inl (CreateInitialSchema_indexAt db x)
  | saveActivatedTimestamp ts =>
    left
    simp only [Op.apply, DB.indexAt, (SaveActivatedTimestamp_frame db ts).2.1]
  | insertBlocks B =>
    rcases InsertBlocks_indexAt c db B x with hu | ⟨b, hb, hh, hp⟩
    · exact Or.inl hu
    · exact Or.inr ⟨B, b, rfl, hb, hh, hp⟩

theorem GetBlockByHeight_some_iff {c : JSONCodec} {db : DB} {h : U64} {b : Block} :
    GetBlockByHeight c db h = .returned (some b, none) ↔
      ∃ bs, db.payloadAt h = some bs ∧ c.Unmarshal bs = .ok b := by
  constructor
  · intro hg
    unfold GetBlockByHeight at hg
    unfold DB.payloadAt
    cases hb : db.blocks with
    | none => simp [hb] at hg
    | some bb =>
      simp only [hb] at hg
      cases hv : bb.Get (itob h) with
      | none => simp [hv] at hg
      | some v =>
        simp only [hv] at hg
        cases hd : c.Unmarshal v with
        | error e => simp [hd] at hg
        | ok blk =>
          simp only [hd, Outcome.returned.injEq, Prod.mk.injEq, Option.some.injEq,
            and_true] at hg
          subst hg
          exact ⟨v, by simp [hv], hd⟩
  · rintro ⟨bs, hp, hd⟩
    exact GetBlockByHeight_of_payload hp hd

/-- C17 (amended): a stored block is replaced only by an insert at its height. For
every height `h` with `GetBlockByHeight(h) = b` in some state, after any call other
than an `InsertBlocks` whose batch contains a block of height `h`,
`GetBlockByHeight(h)` still returns `b`. -/
theorem stored_block_kept (c : JSONCodec) (db : DB) (op : Op) (h : U64) (b : Block)
    (hget : GetBlockByHeight c db h = .returned (some b, none))
    (hop : ∀ B, op = Op.insertBlocks B → ∀ x ∈ B, x.BlockHeight ≠ h) :
    GetBlockByHeight c (op.apply c db).1 h = .returned (some b, none) := by
  obtain ⟨bs, hp, hd⟩ := GetBlockByHeight_some_iff.mp hget
  rcases apply_payloadAt c db op h with hu | ⟨B, x, hB, hx, hxh, -⟩
  · exact GetBlockByHeight_of_payload (hu.trans hp) hd
  · exact absurd hxh (hop B hB x hx)

/-- Witness of `stored_block_kept`: the block at height 5 after the insert of a block
at height 10. -/
theorem stored_block_kept_witness :
    GetBlockByHeight fixedWidthCodec (runOps fixedWidthCodec initDB [Op.insertBlocks batch5a]) 5
      = .returned (some (mkBlock [0x61] 5 0), none) ∧
    GetBlockByHeight fixedWidthCodec ((Op.insertBlocks batch10).apply fixedWidthCodec
        (runOps fixedWidthCodec initDB [Op.insertBlocks batch5a])).1 5
      = .returned (some (mkBlock [0x61] 5 0), none) :=
  ⟨by decide,
   stored_block_kept fixedWidthCodec _ (Op.insertBlocks batch10) 5 (mkBlock [0x61] 5 0)
    (by decide) (by
      intro B hB x hx
      simp only [Op.insertBlocks.injEq] at hB
      subst hB
      simp only [batch10, List.mem_singleton] at hx
      subst hx
      decide)⟩

/-- C17 as stated fails: with the block `"a"` stored at height 5, the successful insert
of the block `"b"` at height 5 makes `GetBlockByHeight(5)` return `"b"`. -/
theorem stored_block_kept_counterexample :
    GetBlockByHeight fixedWidthCodec (runOps fixedWidthCodec initDB [Op.insertBlocks batch5a]) 5
      = .returned (some (mkBlock [0x61] 5 0), none) ∧
    (InsertBlocks fixedWidthCodec (runOps fixedWidthCodec initDB [Op.insertBlocks batch5a])
      batch5b).2 = .returned none ∧
    GetBlockByHeight fixedWidthCodec (InsertBlocks fixedWidthCodec
        (runOps fixedWidthCodec initDB [Op.insertBlocks batch5a]) batch5b).1 5
      = .returned (some (mkBlock [0x62] 5 1), none) ∧
    mkBlock [0x62] 5 1 ≠ mkBlock [0x61] 5 0 := by
  refine ⟨by decide, by decide, by decide, by decide⟩

theorem QueryIsBlockFinalizedByHeight_true_iff {c : JSONCodec} {db : DB} {h : U64} :
    QueryIsBlockFinalizedByHeight c db h = .returned (true, none) ↔
      ∃ b, GetBlockByHeight c db h = .returned (some b, none) := by
  unfold QueryIsBlockFinalizedByHeight
  constructor
  · intro hq
    unfold GetBlockByHeight at hq ⊢
    cases hb : db.blocks with
    | none => simp [hb] at hq
    | some bb =>
      simp only [hb] at hq ⊢
      cases hv : bb.Get (itob h) with
      | none => simp [hv] at hq
      | some v =>
        simp only [hv] at hq ⊢
        cases hd : c.Unmarshal v with
        | error e => simp [hd] at hq
        | ok blk => exact ⟨blk, rfl⟩
  · rintro ⟨b, hg⟩
    simp [hg]

/-- Finality at a height survives one call, when encodings decode. -/
theorem finalized_after_apply {c : JSONCodec} (hc : c.KeepsHeight) {db : DB} (op : Op)
    {h : U64} (hq : QueryIsBlockFinalizedByHeight c db h = .returned (true, none)) :
    QueryIsBlockFinalizedByHeight c (op.apply c db).1 h = .returned (true, none) := by
  obtain ⟨b, hg⟩ := QueryIsBlockFinalizedByHeight_true_iff.mp hq
  obtain ⟨bs, hp, hd⟩ := GetBlockByHeight_some_iff.mp hg
  rw [QueryIsBlockFinalizedByHeight_true_iff]
  rcases apply_payloadAt c db op h with hu | ⟨B, x, -, -, -, bs1, hbs1, hp1⟩
  · exact ⟨b, GetBlockByHeight_of_payload (hu.trans hp) hd⟩
  · obtain ⟨b1, hd1, -⟩ := hc x bs1 hbs1
    exact ⟨b1, GetBlockByHeight_of_payload hp1 hd1⟩

theorem finalized_after_runOps {c : JSONCodec} (hc : c.KeepsHeight) : ∀ (ops : List Op)
    (db : DB) (h : U64), QueryIsBlockFinalizedByHeight c db h = .returned (true, none) →
    QueryIsBlockFinalizedByHeight c (runOps c db ops) h = .returned (true, none) := by
  intro ops
  induction ops with
  | nil => intro db h hq; exact hq
  | cons op rest ih =>
    intro db h hq
    exact ih _ h (finalized_after_apply hc op hq)

/-- C18: blocks are never deleted. A height present in primary storage, and a hash
present in the index, before a call is still present after it; and, when encodings
decode, once `QueryIsBlockFinalizedByHeight(h)` has returned `(true, nil)` it returns
`(true, nil)` after every later sequence of calls, in particular of successful ones. -/
theorem finality_permanent (c : JSONCodec) (db : DB) (op : Op) (ops : List Op) (h : U64)
    (x : Bytes) :
    (db.payloadAt h ≠ none → (op.apply c db).1.payloadAt h ≠ none) ∧
    (db.indexAt x ≠ none → (op.apply c db).1.indexAt x ≠ none) ∧
    (c.KeepsHeight → QueryIsBlockFinalizedByHeight c db h = .returned (true, none) →
      QueryIsBlockFinalizedByHeight c (runOps c db ops) h = .returned (true, none) ∧
      ∀ db1, execAll c db ops = some db1 →
        QueryIsBlockFinalizedByHeight c db1 h = .returned (true, none)) := by
  refine ⟨?_, ?_, ?_⟩
  · intro hp
    rcases apply_payloadAt c db op h with hu | ⟨B, b, -, -, -, bs, -, hp1⟩
    · rw [hu]; exact hp
    · rw [hp1]; simp
  · intro hp
    rcases apply_indexAt c db op x with hu | ⟨B, b, -, -, -, hp1⟩
    · rw [hu]; exact hp
    · rw [hp1]; simp
  · intro hc hq
    have hr := finalized_after_runOps hc ops db h hq
    refine ⟨hr, ?_⟩
    intro db1 hrun
    have h1 : (execAll c db ops).isSome = true := by rw [hrun]; rfl
    have h2 := execAll_runOps ops db h1
    rw [hrun] at h2
    rw [Option.some.inj h2]
    exact hr

/-- Witness of `finality_permanent`: height 5 stays finalized after a second block is
inserted at height 5 and a block at height 10. -/
theorem finality_permanent_witness :
    QueryIsBlockFinalizedByHeight fixedWidthCodec
      (runOps fixedWidthCodec initDB [Op.insertBlocks batch5a]) 5 = .returned (true, none) ∧
    QueryIsBlockFinalizedByHeight fixedWidthCodec
      (runOps fixedWidthCodec (runOps fixedWidthCodec initDB [Op.insertBlocks batch5a])
        [Op.insertBlocks batch5b, Op.insertBlocks batch10]) 5 = .returned (true, none) :=
  ⟨by decide,
   ((finality_permanent fixedWidthCodec _ Op.createInitialSchema
      [Op.insertBlocks batch5b, Op.insertBlocks batch10] 5 []).2.2
      fixedWidthCodec_keepsHeight (by decide)).1⟩

/-! ## The integer key codec -/

theorem bytes_cons_lt_cons (a b : Byte) (as bs : Bytes) :
    (a :: as) < (b :: bs) ↔ a < b ∨ (a = b ∧ as < bs) := by
  constructor
  · intro h
    cases h with
    | cons h => exact Or.inr ⟨rfl, h⟩
    | rel h => exact Or.inl h
  · rintro (h | ⟨rfl, h⟩)
    · exact List.Lex.rel h
    · exact List.Lex.cons h

theorem bytes_nil_lt_nil : ¬ (([] : Bytes) < []) := by
  intro h; cases h

theorem div_chain (a : Nat) (ha : a < 2 ^ 64) :
    a / 2 ^ 56 / 256 = 0 ∧ a / 2 ^ 48 / 256 = a / 2 ^ 56 ∧ a / 2 ^ 40 / 256 = a / 2 ^ 48 ∧
    a / 2 ^ 32 / 256 = a / 2 ^ 40 ∧ a / 2 ^ 24 / 256 = a / 2 ^ 32 ∧
    a / 2 ^ 16 / 256 = a / 2 ^ 24 ∧ a / 2 ^ 8 / 256 = a / 2 ^ 16 := by
  refine ⟨?_, ?_, ?_, ?_, ?_, ?_, ?_⟩ <;> omega

theorem itob_lt_iff (a b : U64) : a < b ↔ itob a < itob b := by
  obtain ⟨a, ha⟩ := a
  obtain ⟨b, hb⟩ := b
  obtain ⟨a7, a6, a5, a4, a3, a2, a1⟩ := div_chain a ha
  obtain ⟨b7, b6, b5, b4, b3, b2, b1⟩ := div_chain b hb
  simp only [itob, bytes_cons_lt_cons, bytes_nil_lt_nil, Fin.lt_def, Fin.ext_iff, Fin.ofNat,
    Fin.val_mk, and_false, or_false]
  omega

theorem itob_bigEndian (v : U64) :
    (itob v).map Fin.val = (List.range 8).map (fun i => v.val / 256 ^ (7 - i) % 256) := by
  have hr : List.range 8 = [0, 1, 2, 3, 4, 5, 6, 7] := by decide
  rw [hr]
  simp [itob, Fin.ofNat]

/-- C19: the integer key codec is fixed-width and order-preserving. For every `uint64`
`v`, `itob v` has exactly 8 bytes, byte `i` being digit `7 - i` of `v` in base 256
(big-endian), and `btoi (itob v) = v`; for all `a`, `b`, `a < b` if and only if
`itob a` is lexicographically smaller than `itob b`. -/
theorem itob_fixed_width_order (v a b : U64) :
    (itob v).length = 8 ∧
    (itob v).map Fin.val = (List.range 8).map (fun i => v.val / 256 ^ (7 - i) % 256) ∧
    btoi (itob v) = some v ∧
    (a < b ↔ itob a < itob b) :=
  ⟨rfl, itob_bigEndian v, btoi_itob v, itob_lt_iff a b⟩

/-! ## Acceptance of a batch -/

theorem Put_succeeds (b : Bucket) {key value : Bytes} (h0 : key.length ≠ 0)
    (h1 : key.length ≤ MaxKeySize) (h2 : value.length ≤ MaxValueSize) :
    b.Put key value = .ok (fun k => if k = key then some value else b k) := by
  have h1' : ¬ key.length > MaxKeySize := by omega
  have h2' : ¬ value.length > MaxValueSize := by omega
  simp [Bucket.Put, h0, h1', h2']

theorem itob_sizes (v : U64) :
    (itob v).length ≠ 0 ∧ (itob v).length ≤ MaxKeySize ∧ (itob v).length ≤ MaxValueSize := by
  rw [itob_length]
  decide

/-- An iteration on an acceptable block succeeds when both buckets exist. -/
theorem insertBlock_succeeds {c : JSONCodec} {s : LoopState} {b : Block}
    (hb : s.tx.blocks.isSome = true) (hh : s.tx.blockHeights.isSome = true)
    (ha : Acceptable c b) :
    ∃ s1, insertBlock c s b = .returned (s1, none) ∧ s1.tx.blocks.isSome = true ∧
      s1.tx.blockHeights.isSome = true := by
  obtain ⟨bs, hm, hv, hk0, hk⟩ := ha
  obtain ⟨bb, hbb⟩ := Option.isSome_iff_exists.mp hb
  obtain ⟨hbk, hhb⟩ := Option.isSome_iff_exists.mp hh
  have hp1 := Put_succeeds bb (itob_sizes b.BlockHeight).1 (itob_sizes b.BlockHeight).2.1 hv
  have hp2 := Put_succeeds hbk hk0 hk (itob_sizes b.BlockHeight).2.2
  refine ⟨⟨⟨some (fun k => if k = itob b.BlockHeight then some bs else bb k),
      some (fun k => if k = b.BlockHash then some (itob b.BlockHeight) else hbk k),
      s.tx.indexer⟩,
      if b.BlockHeight < s.minHeight then b.BlockHeight else s.minHeight,
      if b.BlockHeight > s.maxHeight then b.BlockHeight else s.maxHeight⟩, ?_, rfl, rfl⟩
  simp [insertBlock, hm, hbb, hp1, hhb, hp2]

/-- The loop succeeds on a batch of acceptable blocks when both buckets exist. -/
theorem insertLoop_succeeds (c : JSONCodec) : ∀ (B : List Block) (s : LoopState),
    s.tx.blocks.isSome = true → s.tx.blockHeights.isSome = true →
    (∀ b ∈ B, Acceptable c b) → ∃ s1, insertLoop c B s = .returned (s1, none) := by
  intro B
  induction B with
  | nil => intro s _ _ _; exact ⟨s, rfl⟩
  | cons b rest ih =>
    intro s hb hh ha
    obtain ⟨s1, h1, hb1, hh1⟩ := insertBlock_succeeds hb hh (ha b (List.mem_cons_self _ _))
    obtain ⟨s2, h2⟩ := ih s1 hb1 hh1 (fun x hx => ha x (List.mem_cons_of_mem _ hx))
    exact ⟨s2, by simp only [insertLoop, h1, h2]⟩

theorem updateEarliest_succeeds {tx : DB} (minHeight : U64) (hi : tx.indexer.isSome = true) :
    ∃ tx1, updateEarliest tx minHeight = .returned (tx1, none) := by
  obtain ⟨ib, hib⟩ := Option.isSome_iff_exists.mp hi
  have hp := @Put_succeeds ib earliestBlockKey (itob minHeight)
    (by decide) (by decide) (itob_sizes minHeight).2.2
  unfold updateEarliest
  simp only [hib]
  cases hg : ib.Get earliestBlockKey with
  | none => exact ⟨_, by simp only [hp]; rfl⟩
  | some v => exact ⟨_, rfl⟩

theorem updateLatest_succeeds {tx : DB} {ib : Bucket} (maxHeight : U64)
    (hi : tx.indexer = some ib)
    (hl : ib latestBlockKey = none ∨ ∃ v cur, ib latestBlockKey = some v ∧ btoi v = some cur) :
    ∃ tx1, updateLatest tx maxHeight = .returned (tx1, none) := by
  have hp := @Put_succeeds ib latestBlockKey (itob maxHeight)
    (by decide) (by decide) (itob_sizes maxHeight).2.2
  unfold updateLatest
  simp only [hi, Bucket.Get]
  rcases hl with hn | ⟨v, cur, hv, hcur⟩
  · simp only [hn]
    by_cases hgt : maxHeight > 0
    · exact ⟨_, by simp only [hgt, if_true, hp]; rfl⟩
    · exact ⟨_, by simp only [hgt, if_false]; rfl⟩
  · simp only [hv, hcur]
    by_cases hgt : maxHeight > cur
    · exact ⟨_, by simp only [hgt, if_true, hp]; rfl⟩
    · exact ⟨_, by simp only [hgt, if_false]; rfl⟩

/-- `InsertBlocks` returns `nil` on an initialised store with a readable `latest` as soon
as every block of the batch is acceptable on its own: no condition relates the heights
of the batch to one another or to the stored heights. -/
theorem InsertBlocks_succeeds {c : JSONCodec} {db : DB} {B : List Block}
    (hi : db.Initialised) (hl : db.LatestReadable) (hB : ∀ b ∈ B, Acceptable c b) :
    (InsertBlocks c db B).2 = .returned none := by
  by_cases hlen : B.length = 0
  · simp [InsertBlocks, hlen]
  · obtain ⟨hb, hh, hx⟩ := hi
    obtain ⟨s, hs⟩ := insertLoop_succeeds c B ⟨db, MaxUint64, 0⟩ hb hh hB
    obtain ⟨-, -, l3, -, -, -, -⟩ := insertLoop_ok c B _ _ hs
    simp only at l3
    obtain ⟨tx1, h1⟩ := updateEarliest_succeeds s.minHeight (by rw [l3]; exact hx)
    obtain ⟨ib, ib1, e1, e2, -, -, e5⟩ := updateEarliest_ok h1
    rw [l3] at e1
    have hL : ib1 latestBlockKey = ib latestBlockKey := by
      rw [e5]; simp [earliestBlockKey_ne_latestBlockKey.symm]
    have hl2 : ib1 latestBlockKey = none ∨
        ∃ v cur, ib1 latestBlockKey = some v ∧ btoi v = some cur := by
      rw [hL]
      rcases hl with hn | ⟨l, hl⟩
      · left
        simpa [DB.indexerAt, e1, Bucket.Get] using hn
      · right
        simp only [DB.latest, DB.indexerAt, e1, Option.bind, Bucket.Get] at hl
        cases hv : ib latestBlockKey with
        | none => simp [hv] at hl
        | some v =>
          simp only [hv] at hl
          exact ⟨v, l, rfl, hl⟩
    obtain ⟨tx2, h2⟩ := updateLatest_succeeds s.maxHeight e2 hl2
    simp [InsertBlocks, hlen, Update, insertBlocksTx, hs, h1, h2]

theorem exists_last_split (p : Block → Prop) : ∀ B : List Block, (∃ x ∈ B, p x) →
    ∃ pre b post, B = pre ++ b :: post ∧ p b ∧ ∀ x ∈ post, ¬ p x := by
  intro B
  induction B with
  | nil => rintro ⟨x, hx, -⟩; cases hx
  | cons a rest ih =>
    intro hex
    by_cases hr : ∃ x ∈ rest, p x
    · obtain ⟨pre, b, post, e, hb, hpost⟩ := ih hr
      exact ⟨a :: pre, b, post, by rw [e]; rfl, hb, hpost⟩
    · obtain ⟨x, hx, hpx⟩ := hex
      rcases List.mem_cons.mp hx with rfl | hx
      · exact ⟨[], x, rest, rfl, hpx, fun y hy hpy => hr ⟨y, hy, hpy⟩⟩
      · exact absurd ⟨x, hx, hpx⟩ hr

/-- C13 (amended): last write wins on duplicate heights. For every batch `B` that
`InsertBlocks` accepts and every height `h` occurring in `B`, `B` has a last block `b` of
height `h`, and afterwards `GetBlockByHeight(h)` returns `b` when the encoding of `b`
round-trips, whatever was stored at `h` before. `InsertBlocks` reports no conflict: on an
initialised store it accepts every batch of blocks that are acceptable one by one,
however heights repeat. -/
theorem last_write_wins (c : JSONCodec) (db : DB) (B : List Block) :
    (∀ db1 h, InsertBlocks c db B = (db1, .returned none) → (∃ x ∈ B, x.BlockHeight = h) →
      ∃ pre b post, B = pre ++ b :: post ∧ b.BlockHeight = h ∧
        (∀ x ∈ post, x.BlockHeight ≠ h) ∧
        (c.RoundTrips b → GetBlockByHeight c db1 h = .returned (some b, none))) ∧
    (db.Initialised → db.LatestReadable → (∀ b ∈ B, Acceptable c b) →
      (InsertBlocks c db B).2 = .returned none) := by
  refine ⟨?_, fun hi hl hB => InsertBlocks_succeeds hi hl hB⟩
  intro db1 h hins hex
  obtain ⟨pre, b, post, e, hb, hpost⟩ := exists_last_split (fun x => x.BlockHeight = h) B hex
  refine ⟨pre, b, post, e, hb, hpost, ?_⟩
  intro hc
  subst e
  subst hb
  obtain ⟨bb1, bs, h1, h2, h3⟩ := InsertBlocks_payload hins hpost
  have h5 := hc bs h2
  simp [GetBlockByHeight, h1, Bucket.Get, h3, h5]

/-- Witness of `last_write_wins`: `dupHeightBatch` is accepted by the initialised empty
store, and again by the store that holds it; its last block at height 5 is `"b"`. -/
theorem last_write_wins_witness :
    (InsertBlocks fixedWidthCodec initDB dupHeightBatch).2 = .returned none ∧
    (InsertBlocks fixedWidthCodec (InsertBlocks fixedWidthCodec initDB dupHeightBatch).1
      dupHeightBatch).2 = .returned none ∧
    ∃ pre b post, dupHeightBatch = pre ++ b :: post ∧ b.BlockHeight = 5 ∧
      (∀ x ∈ post, x.BlockHeight ≠ 5) ∧
      (fixedWidthCodec.RoundTrips b →
        GetBlockByHeight fixedWidthCodec (InsertBlocks fixedWidthCodec initDB dupHeightBatch).1 5
          = .returned (some b, none)) :=
  ⟨(last_write_wins fixedWidthCodec initDB dupHeightBatch).2 ⟨rfl, rfl, rfl⟩ (Or.inl rfl)
      (by
        intro b hb
        simp only [dupHeightBatch, List.mem_cons, List.mem_singleton, List.not_mem_nil,
          or_false] at hb
        rcases hb with rfl | rfl
        · exact ⟨_, rfl, by decide, by decide, by decide⟩
        · exact ⟨_, rfl, by decide, by decide, by decide⟩),
   by decide,
   (last_write_wins fixedWidthCodec initDB dupHeightBatch).1 _ 5 (Prod.ext rfl (by decide))
      ⟨mkBlock [0x61] 5 0, by decide, rfl⟩⟩

/-! ## The finality queries as functions of the lookups -/

theorem GetBlockByHeight_shape (c : JSONCodec) (db : DB) (h : U64) :
    GetBlockByHeight c db h = .crashed ∨
    (∃ b, GetBlockByHeight c db h = .returned (some b, none)) ∨
    (∃ e, GetBlockByHeight c db h = .returned (none, some e)) := by
  unfold GetBlockByHeight
  cases db.blocks with
  | none => exact Or.inl rfl
  | some bb =>
    simp only
    cases bb.Get (itob h) with
    | none => exact Or.inr (Or.inr ⟨_, rfl⟩)
    | some v =>
      simp only
      cases c.Unmarshal v with
      | error e => exact Or.inr (Or.inr ⟨_, rfl⟩)
      | ok blk => exact Or.inr (Or.inl ⟨_, rfl⟩)

theorem sameMapping_crashed : SameMapping .crashed .crashed := by
  refine ⟨?_, ?_, ?_, ?_⟩ <;> simp

theorem sameMapping_notFound :
    SameMapping (.returned (false, none)) (.returned (none, some .ErrBlockNotFound)) := by
  refine ⟨?_, ?_, ?_, ?_⟩
  · simp
  · simp
  · intro e he h
    simp only [Outcome.returned.injEq, Prod.mk.injEq, Option.some.injEq, true_and] at h
    exact absurd h.symm he
  · simp

/-- The by-height query answers from the by-height lookup, in every store state. -/
theorem sameMapping_byHeight (c : JSONCodec) (db : DB) (h : U64) :
    SameMapping (QueryIsBlockFinalizedByHeight c db h) (GetBlockByHeight c db h) := by
  unfold QueryIsBlockFinalizedByHeight
  rcases GetBlockByHeight_shape c db h with hg | ⟨b, hg⟩ | ⟨e, hg⟩
  · rw [hg]; exact sameMapping_crashed
  · rw [hg]
    refine ⟨?_, ?_, ?_, ?_⟩ <;> simp
  · rw [hg]
    by_cases he : e = .ErrBlockNotFound
    · subst he
      exact sameMapping_notFound
    · refine ⟨?_, ?_, ?_, ?_⟩ <;> simp [he]

/-- The by-hash query answers from the by-hash lookup, in every store state whose index
value for the hash is not empty. -/
theorem sameMapping_byHash (c : JSONCodec) (db : DB) (x : Bytes)
    (hne : db.indexAt x ≠ some []) :
    SameMapping (QueryIsBlockFinalizedByHash c db x) (GetBlockByHash c db x) := by
  unfold QueryIsBlockFinalizedByHash GetBlockByHash
  unfold DB.indexAt at hne
  cases hb : db.blockHeights with
  | none => exact sameMapping_crashed
  | some bb =>
    simp only [hb, Option.bind] at hne ⊢
    cases hv : bb.Get x with
    | none => exact sameMapping_notFound
    | some v =>
      simp only [hv] at hne ⊢
      have hlen : ¬ v.length = 0 := by
        intro h0
        exact hne (by rw [List.length_eq_zero.mp h0])
      simp only [hlen, if_false]
      cases btoi v with
      | none => exact sameMapping_crashed
      | some hh => exact sameMapping_byHeight c db hh

theorem QueryIsBlockFinalizedByHash_of_empty (c : JSONCodec) {db : DB} {x : Bytes}
    (he : db.indexAt x = some []) :
    QueryIsBlockFinalizedByHash c db x = .returned (false, none) ∧
    GetBlockByHash c db x = .crashed := by
  unfold QueryIsBlockFinalizedByHash GetBlockByHash
  unfold DB.indexAt at he
  cases hb : db.blockHeights with
  | none => simp [hb] at he
  | some bb =>
    simp only [hb, Option.bind] at he
    simp [he, btoi]

/-- C11 (amended): for every store state and height `h`, `QueryIsBlockFinalizedByHeight(h)`
is `(true, nil)` exactly when `GetBlockByHeight(h)` succeeds, `(false, nil)` exactly when
it fails with `ErrBlockNotFound`, `(false, e)` when it fails with another error `e`, and
never `true` with an error. `QueryIsBlockFinalizedByHash(x)` answers in the same way from
`GetBlockByHash(x)` in every store state whose index value for `x` is not empty; on an
empty index value it returns `(false, nil)`; it never returns `true` with an error. -/
theorem finalized_query_mapping (c : JSONCodec) (db : DB) (h : U64) (x : Bytes) :
    SameMapping (QueryIsBlockFinalizedByHeight c db h) (GetBlockByHeight c db h) ∧
    (db.indexAt x ≠ some [] →
      SameMapping (QueryIsBlockFinalizedByHash c db x) (GetBlockByHash c db x)) ∧
    (db.indexAt x = some [] → QueryIsBlockFinalizedByHash c db x = .returned (false, none)) ∧
    (∀ e, QueryIsBlockFinalizedByHash c db x ≠ .returned (true, some e)) := by
  refine ⟨sameMapping_byHeight c db h, sameMapping_byHash c db x,
    fun he => (QueryIsBlockFinalizedByHash_of_empty c he).1, ?_⟩
  intro e
  by_cases he : db.indexAt x = some []
  · rw [(QueryIsBlockFinalizedByHash_of_empty c he).1]; simp
  · exact (sameMapping_byHash c db x he).2.2.2 e

/-- Witness of `finalized_query_mapping`: in `undecodableDB` the lookup by the hash `"a"`
fails with a decoding error, which the query passes on with `false`. -/
theorem finalized_query_mapping_witness :
    undecodableDB.indexAt [0x61] ≠ some [] ∧
    GetBlockByHash fixedWidthCodec undecodableDB [0x61] = .returned (none, some (.json 0)) ∧
    QueryIsBlockFinalizedByHash fixedWidthCodec undecodableDB [0x61]
      = .returned (false, some (.json 0)) :=
  ⟨by decide, by decide,
   ((finalized_query_mapping fixedWidthCodec undecodableDB 5 [0x61]).2.1 (by decide)).2.2.1
      (.json 0) (by decide) (by decide)⟩

/-- C11 as stated fails for the by-hash query. In `emptyIndexDB` the query returns
`(false, nil)` although `GetBlockByHash` does not fail with `ErrBlockNotFound`: it reads
the empty index value with `btoi` and does not return. In `undecodableDB` the index
lookup succeeds, with height 5, and the query returns `false` with an error, not
`(true, nil)`. -/
theorem finalized_query_mapping_counterexample :
    (QueryIsBlockFinalizedByHash fixedWidthCodec emptyIndexDB [0x61] = .returned (false, none) ∧
      GetBlockByHash fixedWidthCodec emptyIndexDB [0x61] = .crashed) ∧
    (undecodableDB.indexAt [0x61] = some (itob 5) ∧
      QueryIsBlockFinalizedByHash fixedWidthCodec undecodableDB [0x61]
        = .returned (false, some (.json 0))) := by
  refine ⟨⟨by decide, by decide⟩, by decide, by decide⟩

/-! ## No dangling index entry, latest as upper bound, frame of an insert -/

/-- C21: no dangling index entries. In every state reachable from the initialised empty
store by the public operations, every index entry holds the key of a height that is
present in primary storage; `GetBlockByHash` of that hash is the lookup at that height,
and it does not fail with `ErrBlockNotFound`. -/
theorem no_dangling_index (c : JSONCodec) (db : DB) (hr : Reachable c db) (hash v : Bytes)
    (hv : db.indexAt hash = some v) :
    ∃ h, v = itob h ∧ db.payloadAt h ≠ none ∧
      GetBlockByHash c db hash = GetBlockByHeight c db h ∧
      GetBlockByHash c db hash ≠ .returned (none, some .ErrBlockNotFound) := by
  obtain ⟨batches, hS⟩ := hr.storeOf
  obtain ⟨b1, hb1, -, hve⟩ := index_some_of_storeOf hS hv
  obtain ⟨b2, bs, -, -, -, hp⟩ := payload_of_storeOf hS hb1
  subst hve
  have hg := GetBlockByHash_of_index (c := c) hv
  refine ⟨b1.BlockHeight, rfl, by rw [hp]; simp, hg, ?_⟩
  rw [hg]
  exact GetBlockByHeight_ne_notFound hp

/-- Witness of `no_dangling_index`: the index entry of the hash `"b"` after the insert of
`batch567`. -/
theorem no_dangling_index_witness :
    (runOps fixedWidthCodec initDB [Op.insertBlocks batch567]).indexAt [0x62]
      = some (itob 7) ∧
    ∃ h, itob 7 = itob h ∧
      (runOps fixedWidthCodec initDB [Op.insertBlocks batch567]).payloadAt h ≠ none ∧
      GetBlockByHash fixedWidthCodec (runOps fixedWidthCodec initDB [Op.insertBlocks batch567])
        [0x62]
        = GetBlockByHeight fixedWidthCodec
          (runOps fixedWidthCodec initDB [Op.insertBlocks batch567]) h ∧
      GetBlockByHash fixedWidthCodec (runOps fixedWidthCodec initDB [Op.insertBlocks batch567])
        [0x62] ≠ .returned (none, some .ErrBlockNotFound) :=
  ⟨by decide,
   no_dangling_index fixedWidthCodec _ ⟨[Op.insertBlocks batch567], rfl⟩ [0x62] (itob 7)
    (by decide)⟩

/-- C23: `latest` is an upper bound on the stored heights. In every state reachable from
the initialised empty store by the public operations, every height present in primary
storage is at most the `latest` bound, an absent `latest` being read as 0; and when
`latest` is set, it is a stored height, and `earliest` is set with
`earliest ≤ latest`. -/
theorem latest_upper_bound (c : JSONCodec) (db : DB) (hr : Reachable c db) :
    (∀ h, db.payloadAt h ≠ none → h ≤ db.latest.getD 0) ∧
    (∀ l, db.latest = some l → db.payloadAt l ≠ none ∧
      ∃ e, db.earliest = some e ∧ e ≤ l) := by
  obtain ⟨batches, hS⟩ := hr.storeOf
  rcases latest_of_storeOf hS with ⟨hn, hz⟩ | ⟨b, hb, -, hl, -, hle⟩
  · have hlat : db.latest = none := by simp [DB.latest, hn]
    constructor
    · intro h hp
      obtain ⟨x, hx, hxh⟩ := payload_some_of_storeOf hS hp
      rw [← hxh, hz x hx]
      exact Fin.zero_le _
    · intro l hl
      rw [hlat] at hl
      cases hl
  · constructor
    · intro h hp
      obtain ⟨x, hx, hxh⟩ := payload_some_of_storeOf hS hp
      rw [hl, ← hxh]
      exact hle x hx
    · intro l hl2
      rw [hl] at hl2
      cases hl2
      obtain ⟨b2, bs, -, -, -, hp⟩ := payload_of_storeOf hS hb
      refine ⟨by rw [hp]; simp, ?_⟩
      have hE := earliest_of_storeOf hS
      cases batches with
      | nil => simp at hb
      | cons B0 rest =>
        simp only [List.head?_cons] at hE
        obtain ⟨b0, hb0, -, he, -⟩ := hE
        refine ⟨b0.BlockHeight, he, hle b0 ?_⟩
        rw [List.flatten_cons]
        exact List.mem_append_left _ hb0

/-- Witness of `latest_upper_bound`: the store after the batches {5,7,6}, {10}, {1},
with bounds 5 and 10. -/
theorem latest_upper_bound_witness :
    (runOps fixedWidthCodec initDB
      [Op.insertBlocks batch567, Op.insertBlocks batch10, Op.insertBlocks batch1]).latest
      = some 10 ∧
    (runOps fixedWidthCodec initDB
      [Op.insertBlocks batch567, Op.insertBlocks batch10, Op.insertBlocks batch1]).payloadAt 10
      ≠ none ∧
    ∃ e, (runOps fixedWidthCodec initDB
      [Op.insertBlocks batch567, Op.insertBlocks batch10, Op.insertBlocks batch1]).earliest
      = some e ∧ e ≤ 10 :=
  ⟨by decide,
   (latest_upper_bound fixedWidthCodec _
      ⟨[Op.insertBlocks batch567, Op.insertBlocks batch10, Op.insertBlocks batch1], rfl⟩).2
      10 (by decide)⟩

/-- C24: `InsertBlocks` touches only the keys of its batch. After a successful
`InsertBlocks(B)`, the primary entry at every height that is not the height of a block of
`B`, and the index entry of every hash that is not the hash of a block of `B`, are what
they were before the call. -/
theorem insertBlocks_frame (c : JSONCodec) (db db1 : DB) (B : List Block)
    (hins : InsertBlocks c db B = (db1, .returned none)) :
    (∀ h, (∀ b ∈ B, b.BlockHeight ≠ h) → db1.payloadAt h = db.payloadAt h) ∧
    (∀ x, (∀ b ∈ B, b.BlockHash ≠ x) → db1.indexAt x = db.indexAt x) := by
  have h1 : (InsertBlocks c db B).1 = db1 := by rw [hins]
  constructor
  · intro h hno
    rcases InsertBlocks_payloadAt c db B h with hu | ⟨b, hb, hbh, -⟩
    · rw [← h1]; exact hu
    · exact absurd hbh (hno b hb)
  · intro x hno
    rcases InsertBlocks_indexAt c db B x with hu | ⟨b, hb, hbh, -⟩
    · rw [← h1]; exact hu
    · exact absurd hbh (hno b hb)

/-- Witness of `insertBlocks_frame`: the insert of `batch10` into the store that holds
`batch567` leaves the entries of height 7 and of the hash `"b"` as they were. -/
theorem insertBlocks_frame_witness :
    (InsertBlocks fixedWidthCodec (runOps fixedWidthCodec initDB [Op.insertBlocks batch567])
      batch10).2 = .returned none ∧
    (InsertBlocks fixedWidthCodec (runOps fixedWidthCodec initDB [Op.insertBlocks batch567])
      batch10).1.payloadAt 7
      = (runOps fixedWidthCodec initDB [Op.insertBlocks batch567]).payloadAt 7 ∧
    (InsertBlocks fixedWidthCodec (runOps fixedWidthCodec initDB [Op.insertBlocks batch567])
      batch10).1.indexAt [0x62]
      = (runOps fixedWidthCodec initDB [Op.insertBlocks batch567]).indexAt [0x62] :=
  ⟨by decide,
   (insertBlocks_frame fixedWidthCodec _ _ batch10 (Prod.ext rfl (by decide))).1 7 (by
      intro b hb
      simp only [batch10, List.mem_singleton] at hb
      subst hb
      decide),
   (insertBlocks_frame fixedWidthCodec _ _ batch10 (Prod.ext rfl (by decide))).2 [0x62] (by
      intro b hb
      simp only [batch10, List.mem_singleton] at hb
      subst hb
      decide)⟩

/-! ## Transactions of the read operations -/

theorem payloadAt_runOps (c : JSONCodec) : ∀ (ops : List Op) (db : DB) (h : U64),
    db.payloadAt h ≠ none → (runOps c db ops).payloadAt h ≠ none := by
  intro ops
  induction ops with
  | nil => intro db h hp; exact hp
  | cons op rest ih =>
    intro db h hp
    apply ih
    rcases apply_payloadAt c db op h with hu | ⟨B, b, -, -, -, bs, -, hp1⟩
    · rw [hu]; exact hp
    · rw [hp1]; simp

theorem GetBlockByHashOn_of_index {c : JSONCodec} {snap1 : DB} (snap2 : DB) {x : Bytes}
    {h : U64} (hi : snap1.indexAt x = some (itob h)) :
    GetBlockByHashOn c snap1 snap2 x = GetBlockByHeight c snap2 h ∧
    QueryIsBlockFinalizedByHashOn c snap1 snap2 x = QueryIsBlockFinalizedByHeight c snap2 h := by
  unfold DB.indexAt at hi
  unfold GetBlockByHashOn QueryIsBlockFinalizedByHashOn
  cases hb : snap1.blockHeights with
  | none => simp [hb] at hi
  | some bb =>
    simp only [hb, Option.bind] at hi
    simp [hi, itob_length, btoi_itob]

theorem QueryEarliestFinalizedBlockOn_of_earliest {c : JSONCodec} {snap1 : DB} (snap2 : DB)
    {e : U64} (h : snap1.earliest = some e) :
    QueryEarliestFinalizedBlockOn c snap1 snap2 = GetBlockByHeight c snap2 e := by
  unfold DB.earliest DB.indexerAt at h
  unfold QueryEarliestFinalizedBlockOn
  cases hi : snap1.indexer with
  | none => simp [hi] at h
  | some ib =>
    simp only [hi, Option.bind] at h
    cases hg : ib.Get earliestBlockKey with
    | none => simp [hg] at h
    | some v =>
      simp only [hg] at h
      simp [hg, h]

theorem QueryLatestFinalizedBlockOn_of_latest {c : JSONCodec} {snap1 : DB} (snap2 : DB)
    {l : U64} (h : snap1.latest = some l) :
    QueryLatestFinalizedBlockOn c snap1 snap2 = GetBlockByHeight c snap2 l := by
  unfold DB.latest DB.indexerAt at h
  unfold QueryLatestFinalizedBlockOn
  cases hi : snap1.indexer with
  | none => simp [hi] at h
  | some ib =>
    simp only [hi, Option.bind] at h
    cases hg : ib.Get latestBlockKey with
    | none => simp [hg] at h
    | some v =>
      simp only [hg] at h
      simp [hg, h]

/-- The four read operations that go through an index entry or a bound, with one
snapshot per `View`. When both see the same snapshot the result is the one-snapshot
result. In general the result is the height lookup on the second snapshot at the height
read from the first. When the first snapshot is reachable and the second follows it by
public operations, `GetBlockByHash` of an indexed hash still does not fail with
`ErrBlockNotFound`, since no entry is ever removed. -/
theorem two_snapshot_reads (c : JSONCodec) (snap1 snap2 : DB) (x : Bytes) :
    (GetBlockByHashOn c snap1 snap1 x = GetBlockByHash c snap1 x ∧
      QueryIsBlockFinalizedByHashOn c snap1 snap1 x = QueryIsBlockFinalizedByHash c snap1 x ∧
      QueryEarliestFinalizedBlockOn c snap1 snap1 = QueryEarliestFinalizedBlock c snap1 ∧
      QueryLatestFinalizedBlockOn c snap1 snap1 = QueryLatestFinalizedBlock c snap1) ∧
    (∀ h, snap1.indexAt x = some (itob h) →
      GetBlockByHashOn c snap1 snap2 x = GetBlockByHeight c snap2 h ∧
      QueryIsBlockFinalizedByHashOn c snap1 snap2 x
        = QueryIsBlockFinalizedByHeight c snap2 h) ∧
    (∀ e, snap1.earliest = some e →
      QueryEarliestFinalizedBlockOn c snap1 snap2 = GetBlockByHeight c snap2 e) ∧
    (∀ l, snap1.latest = some l →
      QueryLatestFinalizedBlockOn c snap1 snap2 = GetBlockByHeight c snap2 l) ∧
    (Reachable c snap1 → ∀ ops, snap1.indexAt x ≠ none →
      GetBlockByHashOn c snap1 (runOps c snap1 ops) x
        ≠ .returned (none, some .ErrBlockNotFound)) := by
  refine ⟨⟨rfl, rfl, rfl, rfl⟩, fun h hi => GetBlockByHashOn_of_index snap2 hi,
    fun e he => QueryEarliestFinalizedBlockOn_of_earliest snap2 he,
    fun l hl => QueryLatestFinalizedBlockOn_of_latest snap2 hl, ?_⟩
  intro hr ops hx
  obtain ⟨batches, hS⟩ := hr.storeOf
  obtain ⟨v, hv⟩ := Option.ne_none_iff_exists'.mp hx
  obtain ⟨b1, hb1, -, hve⟩ := index_some_of_storeOf hS hv
  obtain ⟨b2, bs, -, -, -, hp⟩ := payload_of_storeOf hS hb1
  subst hve
  rw [(GetBlockByHashOn_of_index (c := c) (runOps c snap1 ops) hv).1]
  have hp2 := payloadAt_runOps c ops snap1 b1.BlockHeight (by rw [hp]; simp)
  obtain ⟨bs2, hbs2⟩ := Option.ne_none_iff_exists'.mp hp2
  exact GetBlockByHeight_ne_notFound hbs2

/-! ## An encoding that does not round-trip -/

theorem replacingCodec_keepsHeight : replacingCodec.KeepsHeight := by
  intro b bs hbs
  refine ⟨⟨replaceInvalid b.BlockHash, b.BlockHeight, b.BlockTimestamp⟩, ?_, rfl⟩
  exact fixedWidthCodec_roundTrips
    ⟨replaceInvalid b.BlockHash, b.BlockHeight, b.BlockTimestamp⟩ bs hbs

/-- C13 as stated fails: `InsertBlocks` accepts the batch whose only block has the hash
`0xff` at height 5, with an encoding that keeps heights and treats that byte as
`encoding/json` does, and `GetBlockByHeight(5)` then returns a block with another hash,
not the last block of height 5 of the batch. -/
theorem last_write_wins_counterexample :
    replacingCodec.KeepsHeight ∧
    (InsertBlocks replacingCodec initDB invalidHashBatch).2 = .returned none ∧
    lastWith (fun b => decide (b.BlockHeight = 5)) invalidHashBatch
      = some (mkBlock [0xff] 5 0) ∧
    GetBlockByHeight replacingCodec (InsertBlocks replacingCodec initDB invalidHashBatch).1 5
      = .returned (some (mkBlock [0xef, 0xbf, 0xbd] 5 0), none) ∧
    mkBlock [0xef, 0xbf, 0xbd] 5 0 ≠ mkBlock [0xff] 5 0 := by
  refine ⟨replacingCodec_keepsHeight, by decide, by decide, by decide, by decide⟩

/-! ## Transactions of the methods -/

theorem btoi_some_length {v : Bytes} {h : U64} (hv : btoi v = some h) : ¬ v.length = 0 := by
  intro h0
  rw [List.length_eq_zero.mp h0] at hv
  simp [btoi] at hv

theorem exec_height (c : JSONCodec) (commits : Nat → DB → DB) (s1 : DB) (r : Option U64) :
    (Method.exec commits
      (match r with
        | none => Method.ret .crashed
        | some h => GetBlockByHeightM c h) 1 s1).2
    = (match r with
        | none => .crashed
        | some h => GetBlockByHeight c (commits 1 s1) h,
       if r.isSome then 2 else 1) := by
  cases r <;> simp [Method.exec, GetBlockByHeightM]

theorem exec_height_query (c : JSONCodec) (commits : Nat → DB → DB) (s1 : DB)
    (r : Option U64) :
    (Method.exec commits
      (match r with
        | none => Method.ret .crashed
        | some h => QueryIsBlockFinalizedByHeightM c h) 1 s1).2
    = (match r with
        | none => .crashed
        | some h => QueryIsBlockFinalizedByHeight c (commits 1 s1) h,
       if r.isSome then 2 else 1) := by
  cases r <;> simp [Method.exec, QueryIsBlockFinalizedByHeightM]

theorem exec_lookup (c : JSONCodec) (commits : Nat → DB → DB) (s1 : DB) (o : Option Bytes)
    (nf : Outcome (Option Block × Option Error)) :
    (Method.exec commits
      (match o with
        | none => Method.ret nf
        | some v =>
          match btoi v with
          | none => Method.ret .crashed
          | some h => GetBlockByHeightM c h) 1 s1).2
    = (match o with
        | none => nf
        | some v =>
          match btoi v with
          | none => .crashed
          | some h => GetBlockByHeight c (commits 1 s1) h,
       if (o.bind btoi).isSome then 2 else 1) := by
  cases o with
  | none => simp [Method.exec]
  | some v => exact exec_height c commits s1 (btoi v)

theorem exec_lookup_query (c : JSONCodec) (commits : Nat → DB → DB) (s1 : DB)
    (o : Option Bytes) :
    (Method.exec commits
      (match o with
        | none => Method.ret (.returned (false, none))
        | some res =>
          if res.length = 0 then Method.ret (.returned (false, none))
          else
            match btoi res with
            | none => Method.ret .crashed
            | some h => QueryIsBlockFinalizedByHeightM c h) 1 s1).2
    = (match o with
        | none => .returned (false, none)
        | some res =>
          if res.length = 0 then .returned (false, none)
          else
            match btoi res with
            | none => .crashed
            | some h => QueryIsBlockFinalizedByHeight c (commits 1 s1) h,
       if (o.bind btoi).isSome then 2 else 1) := by
  cases o with
  | none => simp [Method.exec]
  | some v =>
    by_cases hl : v.length = 0
    · have hv : btoi v = none := by
        rw [List.length_eq_zero.mp hl]; rfl
      simp [Method.exec, hl, hv]
    · simp only [hl, if_false]
      exact exec_height_query c commits s1 (btoi v)

theorem GetBlockByHashM_exec (c : JSONCodec) (commits : Nat → DB → DB) (db : DB)
    (hash : Bytes) :
    ((GetBlockByHashM c hash).exec commits 0 db).2 =
      (GetBlockByHashOn c (commits 0 db) (commits 1 (commits 0 db)) hash,
       if (((commits 0 db).indexAt hash).bind btoi).isSome then 2 else 1) := by
  simp only [GetBlockByHashM, Method.exec, GetBlockByHashOn, DB.indexAt]
  generalize commits 0 db = s1
  obtain ⟨b0, hb0, ib0⟩ := s1
  cases hb0 with
  | none => simp [Method.exec]
  | some bb => exact exec_lookup c commits _ (bb.Get hash) _

theorem QueryIsBlockFinalizedByHashM_exec (c : JSONCodec) (commits : Nat → DB → DB) (db : DB)
    (hash : Bytes) :
    ((QueryIsBlockFinalizedByHashM c hash).exec commits 0 db).2 =
      (QueryIsBlockFinalizedByHashOn c (commits 0 db) (commits 1 (commits 0 db)) hash,
       if (((commits 0 db).indexAt hash).bind btoi).isSome then 2 else 1) := by
  simp only [QueryIsBlockFinalizedByHashM, Method.exec, QueryIsBlockFinalizedByHashOn,
    DB.indexAt]
  generalize commits 0 db = s1
  obtain ⟨b0, hb0, ib0⟩ := s1
  cases hb0 with
  | none => simp [Method.exec]
  | some bb => exact exec_lookup_query c commits _ (bb.Get hash)

theorem QueryEarliestFinalizedBlockM_exec (c : JSONCodec) (commits : Nat → DB → DB)
    (db : DB) :
    ((QueryEarliestFinalizedBlockM c).exec commits 0 db).2 =
      (QueryEarliestFinalizedBlockOn c (commits 0 db) (commits 1 (commits 0 db)),
       if ((commits 0 db).earliest).isSome then 2 else 1) := by
  simp only [QueryEarliestFinalizedBlockM, Method.exec, QueryEarliestFinalizedBlockOn,
    DB.earliest, DB.indexerAt]
  generalize commits 0 db = s1
  obtain ⟨b0, hb0, ib0⟩ := s1
  cases ib0 with
  | none => simp [Method.exec]
  | some bb => exact exec_lookup c commits _ (bb.Get earliestBlockKey) _

theorem QueryLatestFinalizedBlockM_exec (c : JSONCodec) (commits : Nat → DB → DB)
    (db : DB) :
    ((QueryLatestFinalizedBlockM c).exec commits 0 db).2 =
      (QueryLatestFinalizedBlockOn c (commits 0 db) (commits 1 (commits 0 db)),
       if ((commits 0 db).latest).isSome then 2 else 1) := by
  simp only [QueryLatestFinalizedBlockM, Method.exec, QueryLatestFinalizedBlockOn,
    DB.latest, DB.indexerAt]
  generalize commits 0 db = s1
  obtain ⟨b0, hb0, ib0⟩ := s1
  cases ib0 with
  | none => simp [Method.exec]
  | some bb => exact exec_lookup c commits _ (bb.Get latestBlockKey) _

theorem InsertBlocksM_exec (c : JSONCodec) (commits : Nat → DB → DB) (db : DB)
    (blocks : List Block) :
    (InsertBlocksM c blocks).exec commits 0 db =
      if blocks.length = 0 then (db, .returned none, 0)
      else ((InsertBlocks c (commits 0 db) blocks).1,
        (InsertBlocks c (commits 0 db) blocks).2, 1) := by
  by_cases hl : blocks.length = 0
  · simp [InsertBlocksM, hl, Method.exec]
  · simp [InsertBlocksM, hl, Method.exec, InsertBlocks]

theorem GetBlockByHashOn_of_height {c : JSONCodec} {snap1 : DB} (snap2 : DB) {x : Bytes}
    {h : U64} (hi : (snap1.indexAt x).bind btoi = some h) :
    GetBlockByHashOn c snap1 snap2 x = GetBlockByHeight c snap2 h ∧
    QueryIsBlockFinalizedByHashOn c snap1 snap2 x = QueryIsBlockFinalizedByHeight c snap2 h := by
  unfold DB.indexAt at hi
  unfold GetBlockByHashOn QueryIsBlockFinalizedByHashOn
  cases hb : snap1.blockHeights with
  | none => simp [hb] at hi
  | some b =>
    simp only [hb, Option.some_bind] at hi
    cases hv : b.Get x with
    | none => simp [hv] at hi
    | some v =>
      simp only [hv, Option.some_bind] at hi
      have hl := btoi_some_length hi
      simp only [hv, hi, hl, if_false, and_self]

/-- C22 (amended): the engine transactions of each public operation, a writer being
free to commit before each of them (`commits i` before transaction number `i`).
`CreateInitialSchema`, `SaveActivatedTimestamp`, `GetBlockByHeight`,
`QueryIsBlockFinalizedByHeight` and `GetActivatedTimestamp` execute exactly one
transaction, on one snapshot. `InsertBlocks` executes one `Update` for a non-empty batch
and no transaction for an empty one. `GetBlockByHash`, `QueryIsBlockFinalizedByHash`,
`QueryEarliestFinalizedBlock` and `QueryLatestFinalizedBlock` execute one `View` when the
index entry or bound holds no readable height, and two when it does: the result is then
the height lookup on the second snapshot at the height read from the first. When no
write commits between the two, it is the single-snapshot result. -/
theorem transactions_per_operation (c : JSONCodec) (commits : Nat → DB → DB) (db : DB)
    (height timestamp : U64) (hash : Bytes) (blocks : List Block) :
    (CreateInitialSchemaM.exec commits 0 db =
        ((CreateInitialSchema (commits 0 db)).1, (CreateInitialSchema (commits 0 db)).2, 1) ∧
      (SaveActivatedTimestampM timestamp).exec commits 0 db =
        ((SaveActivatedTimestamp (commits 0 db) timestamp).1,
          (SaveActivatedTimestamp (commits 0 db) timestamp).2, 1) ∧
      (GetBlockByHeightM c height).exec commits 0 db =
        (commits 0 db, GetBlockByHeight c (commits 0 db) height, 1) ∧
      (QueryIsBlockFinalizedByHeightM c height).exec commits 0 db =
        (commits 0 db, QueryIsBlockFinalizedByHeight c (commits 0 db) height, 1) ∧
      GetActivatedTimestampM.exec commits 0 db =
        (commits 0 db, GetActivatedTimestamp (commits 0 db), 1)) ∧
    ((InsertBlocksM c blocks).exec commits 0 db =
      if blocks.length = 0 then (db, .returned none, 0)
      else ((InsertBlocks c (commits 0 db) blocks).1,
        (InsertBlocks c (commits 0 db) blocks).2, 1)) ∧
    (((GetBlockByHashM c hash).exec commits 0 db).2.2 =
        (if (((commits 0 db).indexAt hash).bind btoi).isSome then 2 else 1) ∧
      ((QueryIsBlockFinalizedByHashM c hash).exec commits 0 db).2.2 =
        (if (((commits 0 db).indexAt hash).bind btoi).isSome then 2 else 1) ∧
      ((QueryEarliestFinalizedBlockM c).exec commits 0 db).2.2 =
        (if ((commits 0 db).earliest).isSome then 2 else 1) ∧
      ((QueryLatestFinalizedBlockM c).exec commits 0 db).2.2 =
        (if ((commits 0 db).latest).isSome then 2 else 1)) ∧
    (∀ h, ((commits 0 db).indexAt hash).bind btoi = some h →
      ((GetBlockByHashM c hash).exec commits 0 db).2 =
        (GetBlockByHeight c (commits 1 (commits 0 db)) h, 2) ∧
      ((QueryIsBlockFinalizedByHashM c hash).exec commits 0 db).2 =
        (QueryIsBlockFinalizedByHeight c (commits 1 (commits 0 db)) h, 2)) ∧
    (∀ e, (commits 0 db).earliest = some e →
      ((QueryEarliestFinalizedBlockM c).exec commits 0 db).2 =
        (GetBlockByHeight c (commits 1 (commits 0 db)) e, 2)) ∧
    (∀ l, (commits 0 db).latest = some l →
      ((QueryLatestFinalizedBlockM c).exec commits 0 db).2 =
        (GetBlockByHeight c (commits 1 (commits 0 db)) l, 2)) ∧
    (commits 1 (commits 0 db) = commits 0 db →
      ((GetBlockByHashM c hash).exec commits 0 db).2.1 =
        GetBlockByHash c (commits 0 db) hash ∧
      ((QueryIsBlockFinalizedByHashM c hash).exec commits 0 db).2.1 =
        QueryIsBlockFinalizedByHash c (commits 0 db) hash ∧
      ((QueryEarliestFinalizedBlockM c).exec commits 0 db).2.1 =
        QueryEarliestFinalizedBlock c (commits 0 db) ∧
      ((QueryLatestFinalizedBlockM c).exec commits 0 db).2.1 =
        QueryLatestFinalizedBlock c (commits 0 db)) := by
  refine ⟨⟨rfl, rfl, rfl, rfl, rfl⟩, InsertBlocksM_exec c commits db blocks, ⟨?_, ?_, ?_, ?_⟩,
    ?_, ?_, ?_, ?_⟩
  · rw [GetBlockByHashM_exec]
  · rw [QueryIsBlockFinalizedByHashM_exec]
  · rw [QueryEarliestFinalizedBlockM_exec]
  · rw [QueryLatestFinalizedBlockM_exec]
  · intro h hi
    rw [GetBlockByHashM_exec, QueryIsBlockFinalizedByHashM_exec, hi,
      (GetBlockByHashOn_of_height (c := c) (commits 1 (commits 0 db)) hi).1,
      (GetBlockByHashOn_of_height (c := c) (commits 1 (commits 0 db)) hi).2]
    exact ⟨rfl, rfl⟩
  · intro e he
    rw [QueryEarliestFinalizedBlockM_exec, he,
      QueryEarliestFinalizedBlockOn_of_earliest (c := c) (commits 1 (commits 0 db)) he]
    rfl
  · intro l hl
    rw [QueryLatestFinalizedBlockM_exec, hl,
      QueryLatestFinalizedBlockOn_of_latest (c := c) (commits 1 (commits 0 db)) hl]
    rfl
  · intro hs
    rw [GetBlockByHashM_exec, QueryIsBlockFinalizedByHashM_exec,
      QueryEarliestFinalizedBlockM_exec, QueryLatestFinalizedBlockM_exec, hs]
    exact ⟨rfl, rfl, rfl, rfl⟩

/-- Witness of `transactions_per_operation`: the store holds block `"a"` at height 5 and
no writer commits. `GetBlockByHash("a")` and `QueryLatestFinalizedBlock` execute two
transactions and return that block, as a single snapshot gives it. -/
theorem transactions_per_operation_witness :
    ((GetBlockByHashM fixedWidthCodec [0x61]).exec noCommits 0
        (runOps fixedWidthCodec initDB [Op.insertBlocks batch5a])).2 =
      (GetBlockByHeight fixedWidthCodec
        (runOps fixedWidthCodec initDB [Op.insertBlocks batch5a]) 5, 2) ∧
    ((QueryLatestFinalizedBlockM fixedWidthCodec).exec noCommits 0
        (runOps fixedWidthCodec initDB [Op.insertBlocks batch5a])).2 =
      (GetBlockByHeight fixedWidthCodec
        (runOps fixedWidthCodec initDB [Op.insertBlocks batch5a]) 5, 2) ∧
    ((GetBlockByHashM fixedWidthCodec [0x61]).exec noCommits 0
        (runOps fixedWidthCodec initDB [Op.insertBlocks batch5a])).2.1 =
      GetBlockByHash fixedWidthCodec
        (runOps fixedWidthCodec initDB [Op.insertBlocks batch5a]) [0x61] ∧
    GetBlockByHash fixedWidthCodec
        (runOps fixedWidthCodec initDB [Op.insertBlocks batch5a]) [0x61] =
      .returned (some (mkBlock [0x61] 5 0), none) :=
  ⟨((transactions_per_operation fixedWidthCodec noCommits
      (runOps fixedWidthCodec initDB [Op.insertBlocks batch5a]) 0 0 [0x61] []).2.2.2.1 5
      (by decide)).1,
   (transactions_per_operation fixedWidthCodec noCommits
      (runOps fixedWidthCodec initDB [Op.insertBlocks batch5a]) 0 0 [0x61] []).2.2.2.2.2.1 5
      (by decide),
   ((transactions_per_operation fixedWidthCodec noCommits
      (runOps fixedWidthCodec initDB [Op.insertBlocks batch5a]) 0 0 [0x61] []).2.2.2.2.2.2
      rfl).1,
   by decide⟩

/-- C22 as stated fails. The store holds block `"a"` at height 5; a writer commits the
batch `"b"` at 5, `"a"` at 6 after the first `View` of `GetBlockByHash("a")`. The
operation executes two transactions and returns block `"b"`, which `GetBlockByHash("a")`
returns on neither snapshot. `InsertBlocks` of an empty batch executes no transaction. -/
theorem transactions_per_operation_counterexample :
    ((GetBlockByHashM fixedWidthCodec [0x61]).exec commitOverwrite 0
        (runOps fixedWidthCodec initDB [Op.insertBlocks batch5a])).2 =
      (.returned (some (mkBlock [0x62] 5 1), none), 2) ∧
    GetBlockByHash fixedWidthCodec
        (runOps fixedWidthCodec initDB [Op.insertBlocks batch5a]) [0x61] =
      .returned (some (mkBlock [0x61] 5 0), none) ∧
    GetBlockByHash fixedWidthCodec
        (runOps fixedWidthCodec initDB
          [Op.insertBlocks batch5a, Op.insertBlocks overwriteBatch]) [0x61] =
      .returned (some (mkBlock [0x61] 6 2), none) ∧
    (commitOverwrite 1 (commitOverwrite 0
        (runOps fixedWidthCodec initDB [Op.insertBlocks batch5a]))).payloadAt 5 =
      (runOps fixedWidthCodec initDB
        [Op.insertBlocks batch5a, Op.insertBlocks overwriteBatch]).payloadAt 5 ∧
    ((InsertBlocksM fixedWidthCodec []).exec noCommits 0
        (runOps fixedWidthCodec initDB [Op.insertBlocks batch5a])).2 =
      (.returned none, 0) := by
  refine ⟨by decide, by decide, by decide, by decide, by decide⟩

end FinalityGadget
